import Mathlib

/-!
# merkletree: a shallow embedding of the Go package and its specification

The Go sources embedded here are `node.go`, `proof.go`, `errors.go` and
`merkle_tree.go`.

Modelling conventions.

* The package is embedded twice. In the first embedding a Go `[]byte` is a
  `List UInt8`: slices are values, and `bytes.Equal` is equality of lists (a nil
  slice and an empty slice are both `[]`). In the second embedding (names
  under `mem`) a `[]byte` is a window into a backing array with a capacity,
  `append` writes into the array of its first argument when the capacity
  suffices, and hash functions are functions on memory. The two agree when no
  `append` writes into an existing array: that is proved for hashers that
  return their result in a new array without spare capacity, as the hashers of
  `hasher.go` do (`mem.node.Hash_sim`, `mem.buildRoot_sim`,
  `mem.NewMerkleTree_sim`, `mem.MerkleTree.Append_sim`). What `Hash()` and
  `VerifyProof` do when slices share an array is stated on the second embedding.
* A Go `int` is an `Int`; the only arithmetic on indices is comparison, `+ 1`,
  `-` and `>>`, none of which can overflow on the values reached.
* A value of the Go interface type `node` is `node.nil` (the nil interface),
  `node.Leaf` (a `*Leaf`) or `node.nonLeaf` (a `*nonLeaf`); the children of a
  `*nonLeaf` are again interface values, so the childless stand-in
  `&nonLeaf{cachedHash: c}` is `node.nonLeaf .nil .nil c none`.
* A Go call either returns, panics (nil dereference, call of a nil function,
  index out of range) or recurses for ever; `Run α` records which. Recursion
  that is not structural (`buildRoot`, the loop of `nearestSmallerPowerOf2`)
  takes an explicit budget and yields `Run.outOfFuel` when it is exhausted.
* `Hash()` memoises its result in `cachedHash`. The hash functions are pure, so
  the memoised value is the value a recomputation would give; the model
  keeps `cachedHash` as a field that is read (a non-empty cache wins over
  recomputation, exactly as in Go) and recomputes instead of writing back.
-/

namespace merkletree

/-- Go `[]byte`. -/
abbrev Bytes := List UInt8

/-- Go `type Hasher func(data []byte) []byte`. -/
abbrev Hasher := Bytes → Bytes

/-- Outcome of running a Go function: a returned value, a runtime panic, or an
exhausted recursion budget. -/
inductive Run (α : Type) where
  | ok (a : α)
  | panic
  | outOfFuel
  deriving DecidableEq, Repr

/-- Sequencing of Go calls: the first panic or exhausted budget ends the run. -/
def Run.bind {α β : Type} : Run α → (α → Run β) → Run β
  | .ok a, f => f a
  | .panic, _ => .panic
  | .outOfFuel, _ => .outOfFuel

instance : Monad Run where
  pure := Run.ok
  bind := Run.bind

/-- The four error values of `errors.go`. -/
inductive Error where
  | wrongProof
  | leafIndexOutOfBound
  | leafHashMismatch
  | emptyTree
  deriving DecidableEq, Repr

/-- Go `type Leaf struct { content, cachedHash []byte; hashFunc func([]byte) []byte }`;
a nil `hashFunc` is `none`. -/
structure Leaf where
  content : Bytes
  cachedHash : Bytes
  hashFunc : Option Hasher

/-- Go `NewLeaf`. -/
def NewLeaf (content : Bytes) : Leaf :=
  { content := content, cachedHash := [], hashFunc := none }

/-- Go `(*Leaf).Hash`: the cached hash when it is non-empty, else
`hashFunc(content)` (a panic when `hashFunc` is nil). -/
def Leaf.Hash (l : Leaf) : Run Bytes :=
  if l.cachedHash.length > 0 then .ok l.cachedHash
  else
    match l.hashFunc with
    | none => .panic
    | some f => .ok (f l.content)

/-- Values of the Go interface `node`. -/
inductive node where
  | nil
  | Leaf (l : Leaf)
  | nonLeaf (left right : node) (cachedHash : Bytes) (hashFunc : Option Hasher)

/-- Go `n == nil` on an interface value. -/
def node.isNil : node → Bool
  | .nil => true
  | _ => false

/-- Go `newNonLeaf`. -/
def newNonLeaf (left right : node) (hashFunc : Hasher) : node :=
  .nonLeaf left right [] (some hashFunc)

/-- Go `Hash()` through the interface: `(*Leaf).Hash`, or `(*nonLeaf).Hash`,
which returns a non-empty cache and otherwise
`hashFunc(append(left.Hash(), right.Hash()...))`. -/
def node.Hash : node → Run Bytes
  | .nil => .panic
  | .Leaf l => l.Hash
  | .nonLeaf left right cachedHash hashFunc =>
    if cachedHash.length > 0 then .ok cachedHash
    else do
      let lh ← left.Hash
      let rh ← right.Hash
      match hashFunc with
      | none => .panic
      | some f => .ok (f (lh ++ rh))

/-- Go `hasChildren()` through the interface. -/
def node.hasChildren : node → Run Bool
  | .nil => .panic
  | .Leaf _ => .ok false
  | .nonLeaf left right _ _ => .ok (!left.isNil && !right.isNil)

/-- Go `type Proof struct`. -/
structure Proof where
  leafIndex : Int
  leafHash : Bytes
  siblingHashes : List Bytes
  deriving DecidableEq, Repr

/-- Go `NewProof`. -/
def NewProof (leafIndex : Int) (leafHash : Bytes) (siblingHashes : List Bytes) : Proof :=
  { leafIndex := leafIndex, leafHash := leafHash, siblingHashes := siblingHashes }

/-- The loop of `Proof.Equal` over `p.siblingHashes`, from position `i`; the
element `other.siblingHashes[i]` is a panic when `i` is out of range. -/
def Proof.Equal.loop (other : List Bytes) : Nat → List Bytes → Run Bool
  | _, [] => .ok true
  | i, hash :: rest =>
    match other[i]? with
    | none => .panic
    | some o => if hash ≠ o then .ok false else Proof.Equal.loop other (i + 1) rest

/-- Go `(*Proof).Equal`. -/
def Proof.Equal (p other : Proof) : Run Bool :=
  if p.leafIndex ≠ other.leafIndex then .ok false
  else if p.leafHash ≠ other.leafHash then .ok false
  else if p.siblingHashes.length ≠ other.siblingHashes.length then .ok false
  else Proof.Equal.loop other.siblingHashes 0 p.siblingHashes

/-- Go `type MerkleTree struct`. -/
structure MerkleTree where
  root : node
  leaves : List Leaf
  hasher : Hasher

/-- The loop `for power <= n/2 { power *= 2 }` of `nearestSmallerPowerOf2`. -/
def nearestSmallerPowerOf2.loop (n : Int) : Nat → Int → Run Int
  | 0, _ => .outOfFuel
  | fuel + 1, power =>
    if power ≤ Int.tdiv n 2 then nearestSmallerPowerOf2.loop n fuel (power * 2)
    else .ok power

/-- Go `nearestSmallerPowerOf2`; the loop doubles `power` at most `n` times. -/
def nearestSmallerPowerOf2 (n : Int) : Run Int :=
  if n < 1 then .ok 0
  else do
    let power ← nearestSmallerPowerOf2.loop n (n.toNat + 1) 1
    if power = n then .ok (Int.tdiv power 2) else .ok power

/-- The flag `emptyNonLeafRight` of `collectSiblingsHashes`: the right child is a
`*nonLeaf` without children. -/
def collectSiblingsHashes.emptyNonLeafRight (right : node) : Run Bool :=
  match right with
  | .nonLeaf _ _ _ _ => do
    let hc ← right.hasChildren
    pure (!hc)
  | _ => pure false

/-- Go `collectSiblingsHashes`. -/
def collectSiblingsHashes :
    node → node → List Bytes → Int → Int → Run (List Bytes)
  | .nil, _, siblingHashes, _, _ => .ok siblingHashes
  | .Leaf _, sibling, siblingHashes, _, _ => do
    let h ← sibling.Hash
    pure (siblingHashes ++ [h])
  | .nonLeaf left right _ _, sibling, siblingHashes, remainingLen, tmpIdx => do
    let powerOf2 ← nearestSmallerPowerOf2 remainingLen
    let emptyNonLeafRight ← collectSiblingsHashes.emptyNonLeafRight right
    let siblingHashes ←
      if emptyNonLeafRight then
        collectSiblingsHashes left right siblingHashes remainingLen tmpIdx
      else if powerOf2 ≥ tmpIdx + 1 then
        collectSiblingsHashes left right siblingHashes powerOf2 tmpIdx
      else
        collectSiblingsHashes right left siblingHashes (remainingLen - powerOf2)
          (tmpIdx - powerOf2)
    if sibling.isNil then pure siblingHashes
    else do
      let h ← sibling.Hash
      pure (siblingHashes ++ [h])

/-- One iteration of the pairing loop of `buildRoot` on the state
`(left, right, parents)`. -/
def buildRoot.step (hasher : Hasher) (st : node × node × List node) (n : node) :
    node × node × List node :=
  let left := if st.1.isNil then n else st.1
  let right := if st.1.isNil then st.2.1 else if st.2.1.isNil then n else st.2.1
  if !left.isNil && !right.isNil then
    (node.nil, node.nil, st.2.2 ++ [newNonLeaf left right hasher])
  else (left, right, st.2.2)

/-- The part of `buildRoot` after the pairing loop: an unpaired last node gets a
parent whose right child is the node itself (no children) or a childless
stand-in carrying its hash. -/
def buildRoot.finish (hasher : Hasher) (st : node × node × List node) : Run (List node) :=
  if !st.1.isNil && st.2.1.isNil then do
    let hc ← st.1.hasChildren
    let r ← if hc then do
        let c ← st.1.Hash
        pure (node.nonLeaf .nil .nil c none)
      else pure st.1
    pure (st.2.2 ++ [newNonLeaf st.1 r hasher])
  else pure st.2.2

/-- Go `buildRoot`, with a budget for the recursion on the next level. -/
def buildRoot : Nat → List node → Hasher → Run node
  | 0, _, _ => .outOfFuel
  | fuel + 1, nodes, hasher =>
    match nodes with
    | [n] => do
      let hc ← n.hasChildren
      if hc then pure n else pure (newNonLeaf n n hasher)
    | _ => do
      let parents ← buildRoot.finish hasher
        (nodes.foldl (buildRoot.step hasher) (node.nil, node.nil, []))
      buildRoot fuel parents hasher

/-- The assignment `l.hashFunc = hasher` made on every leaf handed to a tree. -/
def Leaf.setHashFunc (hasher : Hasher) (l : Leaf) : Leaf :=
  { l with hashFunc := some hasher }

/-- Go `NewMerkleTree`; `buildRoot` on `n ≥ 1` leaves recurses fewer than `n + 1`
times, which is the budget it gets: the budget is never exhausted
(`NewMerkleTree_ne_outOfFuel`) and a larger one gives the same result
(`buildRoot_mono`). -/
def NewMerkleTree (leaves : List Leaf) (hasher : Hasher) : Run (Except Error MerkleTree) :=
  if leaves.length = 0 then .ok (.error .emptyTree)
  else do
    let leaves := leaves.map (Leaf.setHashFunc hasher)
    let root ← buildRoot (leaves.length + 1) (leaves.map node.Leaf) hasher
    pure (.ok { root := root, leaves := leaves, hasher := hasher })

/-- Go `(*MerkleTree).Hash`. -/
def MerkleTree.Hash (mt : MerkleTree) : Run Bytes :=
  mt.root.Hash

/-- Go `mt.leaves[i].Hash()` for an `int` index: a panic when out of range. -/
def MerkleTree.leafHashAt (mt : MerkleTree) (i : Int) : Run Bytes :=
  if i < 0 then .panic
  else
    match mt.leaves[i.toNat]? with
    | none => .panic
    | some l => l.Hash

/-- The loop of `VerifyProof` over `proof.siblingHashes`, from position `i`. -/
def VerifyProof.loop (hasher : Hasher) (leafIndex : Int) : Nat → Bytes → List Bytes → Bytes
  | _, currentHash, [] => currentHash
  | i, currentHash, sibling :: rest =>
    if Int.land (leafIndex >>> i) 1 = 0 then
      VerifyProof.loop hasher leafIndex (i + 1) (hasher (currentHash ++ sibling)) rest
    else
      VerifyProof.loop hasher leafIndex (i + 1) (hasher (sibling ++ currentHash)) rest

/-- Go `(*MerkleTree).VerifyProof`; the returned `error` is `none` for nil. -/
def MerkleTree.VerifyProof (mt : MerkleTree) (proof : Proof) : Run (Option Error) :=
  if proof.leafIndex < 0 ∨ proof.leafIndex ≥ mt.leaves.length then
    .ok (some .leafIndexOutOfBound)
  else do
    let leafHash ← mt.leafHashAt proof.leafIndex
    if proof.leafHash ≠ leafHash then pure (some .leafHashMismatch)
    else do
      let currentHash :=
        VerifyProof.loop mt.hasher proof.leafIndex 0 proof.leafHash proof.siblingHashes
      let rootHash ← mt.root.Hash
      if currentHash ≠ rootHash then pure (some .wrongProof) else pure none

/-- Go `(*MerkleTree).GenerateProof`. -/
def MerkleTree.GenerateProof (mt : MerkleTree) (idx : Int) : Run (Except Error Proof) :=
  if idx < 0 ∨ idx ≥ mt.leaves.length then .ok (.error .leafIndexOutOfBound)
  else do
    let siblingHashes ← collectSiblingsHashes mt.root .nil [] mt.leaves.length idx
    let leafHash ← mt.leafHashAt idx
    pure (.ok (NewProof idx leafHash siblingHashes))

/-- Go `(*MerkleTree).Append`, which updates the tree in place; the model returns
the updated tree. -/
def MerkleTree.Append (mt : MerkleTree) (leaves : List Leaf) : Run MerkleTree :=
  let all := mt.leaves ++ leaves.map (Leaf.setHashFunc mt.hasher)
  do
    let root ← buildRoot (all.length + 1) (all.map node.Leaf) mt.hasher
    pure { mt with leaves := all, root := root }

/-! ## Reference definitions used to state the properties -/

/-- The value `Hash()` returns for a leaf whose `hashFunc` is `hasher`. -/
def Leaf.hashWith (hasher : Hasher) (l : Leaf) : Bytes :=
  if l.cachedHash.length > 0 then l.cachedHash else hasher l.content

/-- One pairing step of the naive level-by-level reference: adjacent pairs are
hashed left to right, an odd last element is hashed with itself. -/
def refPair (hasher : Hasher) : List Bytes → List Bytes
  | [] => []
  | [x] => [hasher (x ++ x)]
  | a :: b :: rest => hasher (a ++ b) :: refPair hasher rest

/-- Reference layer `k` over the given layer 0. -/
def refLayer (hasher : Hasher) (layer0 : List Bytes) : Nat → List Bytes
  | 0 => layer0
  | k + 1 => refPair hasher (refLayer hasher layer0 k)

/-- The reference sibling of index `idx` at layer `k`: the element at position
`(idx >> k) XOR 1` when that position exists, otherwise the element at
position `idx >> k` itself. -/
def refSibling (hasher : Hasher) (layer0 : List Bytes) (idx k : Nat) : Option Bytes :=
  match (refLayer hasher layer0 k)[(idx >>> k) ^^^ 1]? with
  | some s => some s
  | none => (refLayer hasher layer0 k)[idx >>> k]?

/-- The bit-indexed fold of the specification, from sibling position `i`:
bit `i` of `index` clear puts the running hash on the left, set puts it on the
right. -/
def foldSiblings (hasher : Hasher) (index : Nat) : Nat → Bytes → List Bytes → Bytes
  | _, current, [] => current
  | i, current, sibling :: rest =>
    foldSiblings hasher index (i + 1)
      (if index.testBit i then hasher (sibling ++ current) else hasher (current ++ sibling))
      rest

/-- The hashes of the leaves of a tree, in leaf order. -/
def MerkleTree.leafHashes (mt : MerkleTree) : List Bytes :=
  mt.leaves.map (Leaf.hashWith mt.hasher)

/-! ## The shape of the trees `buildRoot` produces -/

/-- The predicate `Shape hasher k ls n`: `n` is a node `k` levels above the leaves that covers
exactly the leaves `ls`, built the way `buildRoot` builds it. -/
inductive Shape (hasher : Hasher) : Nat → List Leaf → node → Prop
  | leaf (l : Leaf) : l.hashFunc = some hasher → Shape hasher 0 [l] (.Leaf l)
  | full (k : Nat) (ls₁ ls₂ : List Leaf) (L R : node) :
      ls₁.length = 2 ^ k → Shape hasher k ls₁ L → Shape hasher k ls₂ R →
      Shape hasher (k + 1) (ls₁ ++ ls₂) (newNonLeaf L R hasher)
  | selfPair (l : Leaf) : l.hashFunc = some hasher →
      Shape hasher 1 [l] (newNonLeaf (.Leaf l) (.Leaf l) hasher)
  | standIn (k : Nat) (ls : List Leaf) (L : node) (c : Bytes) :
      Shape hasher (k + 1) ls L → L.Hash = .ok c →
      Shape hasher (k + 2) ls (newNonLeaf L (.nonLeaf .nil .nil c none) hasher)

/-- The predicate `LevelOK hasher k ls nodes`: `nodes` is level `k` of the construction over
the leaves `ls`; every node but the last covers `2 ^ k` leaves. -/
inductive LevelOK (hasher : Hasher) (k : Nat) : List Leaf → List node → Prop
  | nil : LevelOK hasher k [] []
  | last (ls : List Leaf) (n : node) : Shape hasher k ls n → LevelOK hasher k ls [n]
  | cons (ls₁ ls₂ : List Leaf) (n : node) (rest : List node) :
      ls₁.length = 2 ^ k → Shape hasher k ls₁ n → rest ≠ [] →
      LevelOK hasher k ls₂ rest → LevelOK hasher k (ls₁ ++ ls₂) (n :: rest)

/-- The next level as a recursion on adjacent pairs; `buildRoot`'s loop and
its treatment of an unpaired last node compute this on lists without nil. -/
def pairNodes (hasher : Hasher) : List node → Run (List node)
  | [] => .ok []
  | [a] => do
    let hc ← a.hasChildren
    let r ← if hc then do
        let c ← a.Hash
        pure (node.nonLeaf .nil .nil c none)
      else pure a
    pure [newNonLeaf a r hasher]
  | a :: b :: rest => do
    let ps ← pairNodes hasher rest
    pure (newNonLeaf a b hasher :: ps)

/-- The sibling hashes below a node `k` levels above the leaves on the way to
the leaf at offset `t`, leaf first: left when `t < 2 ^ (k - 1)`, else right. -/
def sibsOf : Nat → node → Nat → Run (List Bytes)
  | 0, _, _ => .ok []
  | k + 1, .nonLeaf left right _ _, t =>
    if t < 2 ^ k then do
      let below ← sibsOf k left t
      let h ← right.Hash
      pure (below ++ [h])
    else do
      let below ← sibsOf k right (t - 2 ^ k)
      let h ← left.Hash
      pure (below ++ [h])
  | _ + 1, _, _ => .panic

/-- The trees of the package: what `NewMerkleTree` returns, and what `Append`
makes of such a tree. -/
inductive IsTree : MerkleTree → Prop
  | new (leaves : List Leaf) (hasher : Hasher) (t : MerkleTree) :
      NewMerkleTree leaves hasher = .ok (.ok t) → IsTree t
  | append (t : MerkleTree) (leaves : List Leaf) (t' : MerkleTree) :
      IsTree t → t.Append leaves = .ok t' → IsTree t'

/-- The hash `root` is the single element of the first reference layer of length 1
reached after at least one pairing step. -/
def IsReferenceRoot (hasher : Hasher) (layer0 : List Bytes) (root : Bytes) : Prop :=
  ∃ k, 1 ≤ k ∧ refLayer hasher layer0 k = [root] ∧
    ∀ j, 1 ≤ j → j < k → (refLayer hasher layer0 j).length ≠ 1

/-- The leaves below a node from left to right; a leaf that is both children
of its parent is listed twice, a stand-in contributes nothing. -/
def node.leavesOf : node → List merkletree.Leaf
  | .nil => []
  | .Leaf l => [l]
  | .nonLeaf left right _ _ => left.leavesOf ++ right.leavesOf

/-- A tree with contents and hashes erased: the nil child, a leaf known by its
index in the leaf list, or a node with two children. -/
inductive Skel where
  | nil
  | leaf (index : Nat)
  | nonLeaf (left right : Skel)
  deriving DecidableEq, Repr

/-- The predicate `HasShape leaves s n`: the node `n` is the skeleton `s` with
every leaf index replaced by the leaf of `leaves` at that index, whatever the
cached hashes and hash functions of its nodes are. -/
inductive HasShape (leaves : List Leaf) : Skel → node → Prop
  | nil : HasShape leaves .nil .nil
  | leaf (i : Nat) (l : Leaf) : leaves[i]? = some l → HasShape leaves (.leaf i) (.Leaf l)
  | nonLeaf (sl sr : Skel) (L R : node) (c : Bytes) (f : Option Hasher) :
      HasShape leaves sl L → HasShape leaves sr R →
      HasShape leaves (.nonLeaf sl sr) (.nonLeaf L R c f)

/-- The skeleton of a node `k` levels above the leaves that covers the `r` leaves
from index `o` on: two subtrees when `r > 2 ^ (k - 1)`, otherwise the left
subtree next to the same leaf again (`k = 1`) or to a childless stand-in. -/
def skel : Nat → Nat → Nat → Skel
  | 0, o, _ => .leaf o
  | k + 1, o, r =>
    if 2 ^ k < r then .nonLeaf (skel k o (2 ^ k)) (skel k (o + 2 ^ k) (r - 2 ^ k))
    else if k = 0 then .nonLeaf (.leaf o) (.leaf o)
    else .nonLeaf (skel k o r) (.nonLeaf .nil .nil)

/-- The calls of `collectSiblingsHashes` in the order they are made, each as the
pair `(n, sibling)` of its first two arguments. The branch taken at a `*nonLeaf`
is the one of the Go code; the recursive call is made before any `Hash()`, so
the calls depend on no hash. -/
def collectSiblingsHashes.calls : node → node → Int → Int → Run (List (node × node))
  | .nil, sibling, _, _ => .ok [(.nil, sibling)]
  | .Leaf l, sibling, _, _ => .ok [(.Leaf l, sibling)]
  | .nonLeaf left right c f, sibling, remainingLen, tmpIdx => do
    let powerOf2 ← nearestSmallerPowerOf2 remainingLen
    let emptyNonLeafRight ← collectSiblingsHashes.emptyNonLeafRight right
    let below ←
      if emptyNonLeafRight then
        collectSiblingsHashes.calls left right remainingLen tmpIdx
      else if powerOf2 ≥ tmpIdx + 1 then
        collectSiblingsHashes.calls left right powerOf2 tmpIdx
      else
        collectSiblingsHashes.calls right left (remainingLen - powerOf2) (tmpIdx - powerOf2)
    pure ((.nonLeaf left right c f, sibling) :: below)

/-- What the calls of `collectSiblingsHashes` append once the calls below them
have come back: the `*Leaf` case appends `sibling.Hash()` whatever `sibling` is,
the `*nonLeaf` case only when `sibling != nil`. -/
def collectSiblingsHashes.collect : List (node × node) → List Bytes → Run (List Bytes)
  | [], siblingHashes => .ok siblingHashes
  | (.nil, _) :: below, siblingHashes =>
    collectSiblingsHashes.collect below siblingHashes
  | (.Leaf _, sibling) :: below, siblingHashes => do
    let siblingHashes ← collectSiblingsHashes.collect below siblingHashes
    let h ← sibling.Hash
    pure (siblingHashes ++ [h])
  | (.nonLeaf _ _ _ _, sibling) :: below, siblingHashes => do
    let siblingHashes ← collectSiblingsHashes.collect below siblingHashes
    if sibling.isNil then pure siblingHashes
    else do
      let h ← sibling.Hash
      pure (siblingHashes ++ [h])

/-- The nodes reachable from a node through `left` and `right`, the node itself
first; the nil interface is no node. -/
def node.reachable : node → List node
  | .nil => []
  | .Leaf l => [.Leaf l]
  | .nonLeaf left right c f => .nonLeaf left right c f :: (left.reachable ++ right.reachable)

/-- A `*nonLeaf` for which `hasChildren()` is false, as `buildRoot` creates with
`&nonLeaf{cachedHash: left.Hash()}`. -/
def node.isStandIn : node → Bool
  | .nonLeaf left right _ _ => left.isNil || right.isNil
  | _ => false

/-- The guard `len(cachedHash) > 0` of `Hash()`: the node answers from its cache. -/
def node.answersFromCache : node → Bool
  | .nil => false
  | .Leaf l => decide (l.cachedHash.length > 0)
  | .nonLeaf _ _ cachedHash _ => decide (cachedHash.length > 0)

/-! ## The package over slices in memory

The definitions above take a `[]byte` for its bytes. Go's `append` writes into
the backing array of its first argument when the capacity suffices, so two
slices that share an array can see each other's writes. The definitions of
this section keep the backing arrays; they are the same functions, with the
memory passed along, and hash functions are functions on memory. As above,
`Hash()` does not write its result back into the node. -/

/-- The backing arrays of the byte slices, by allocation number. -/
abbrev Mem := List Bytes

/-- A Go `[]byte`: the `len` bytes from position `off` of the array `arr`, which
can grow in place to `cap` bytes. -/
structure Slice where
  arr : Nat
  off : Nat
  len : Nat
  cap : Nat
  deriving DecidableEq, Repr

/-- The nil slice. -/
def Slice.empty : Slice := { arr := 0, off := 0, len := 0, cap := 0 }

/-- The bytes of a slice. -/
def Mem.read (m : Mem) (s : Slice) : Bytes :=
  ((m.getD s.arr []).drop s.off).take s.len

/-- The array `a` with the bytes `x` stored from position `k` on. -/
def overwrite (a : Bytes) (k : Nat) (x : Bytes) : Bytes :=
  a.take k ++ x ++ a.drop (k + x.length)

/-- Go `append(s, x...)`. When the capacity of `s` suffices, the bytes of `x` are
stored behind `s` in the array of `s`, over whatever is there, and the result
is the longer window on the same array. Otherwise the bytes of both go to a new
array, to which the allocator adds `grow n` spare bytes behind the `n` it must
hold. -/
def Mem.append (grow : Nat → Nat) (m : Mem) (s x : Slice) : Slice × Mem :=
  if s.len + (Mem.read m x).length ≤ s.cap then
    ({ s with len := s.len + (Mem.read m x).length },
      m.set s.arr (overwrite (m.getD s.arr []) (s.off + s.len) (Mem.read m x)))
  else
    ({ arr := m.length, off := 0, len := s.len + (Mem.read m x).length,
       cap := s.len + (Mem.read m x).length + grow (s.len + (Mem.read m x).length) },
      m ++ [Mem.read m s ++ Mem.read m x
        ++ List.replicate (grow (s.len + (Mem.read m x).length)) 0])

/-- Go `type Hasher func(data []byte) []byte` on memory: the function gets a slice
and returns a slice, and may allocate or write. -/
abbrev GoHasher := Mem → Slice → Slice × Mem

/-- A hasher that computes `f` of the bytes of its argument and returns it as
`result[:]` of a new array, as the five hashers of `hasher.go` do: the result
shares no array with anything and has no spare capacity. -/
def freshHasher (f : Hasher) : GoHasher := fun m data =>
  ({ arr := m.length, off := 0, len := (f (Mem.read m data)).length,
     cap := (f (Mem.read m data)).length },
    m ++ [f (Mem.read m data)])

/-- A hasher that returns its argument, the same slice. -/
def sameSliceHasher : GoHasher := fun m data => (data, m)

/-- Go `type Leaf struct`, with its slices in memory. -/
structure mem.Leaf where
  content : Slice
  cachedHash : Slice
  hashFunc : Option GoHasher

/-- Go `NewLeaf`. -/
def mem.NewLeaf (content : Slice) : mem.Leaf :=
  { content := content, cachedHash := Slice.empty, hashFunc := none }

/-- Go `(*Leaf).Hash`. -/
def mem.Leaf.Hash (l : mem.Leaf) (m : Mem) : Run (Slice × Mem) :=
  if l.cachedHash.len > 0 then .ok (l.cachedHash, m)
  else
    match l.hashFunc with
    | none => .panic
    | some f => .ok (f m l.content)

/-- Values of the Go interface `node`, with their slices in memory. -/
inductive mem.node where
  | nil
  | Leaf (l : mem.Leaf)
  | nonLeaf (left right : mem.node) (cachedHash : Slice) (hashFunc : Option GoHasher)

/-- Go `n == nil` on an interface value. -/
def mem.node.isNil : mem.node → Bool
  | .nil => true
  | _ => false

/-- Go `newNonLeaf`. -/
def mem.newNonLeaf (left right : mem.node) (hashFunc : GoHasher) : mem.node :=
  .nonLeaf left right Slice.empty (some hashFunc)

/-- Go `Hash()` through the interface. In `(*nonLeaf).Hash` the slice header of
`nl.left.Hash()` is taken first, then `nl.right.Hash()` runs, then `append`
extends the left hash by the right one, in place when its capacity allows. -/
def mem.node.Hash (grow : Nat → Nat) : mem.node → Mem → Run (Slice × Mem)
  | .nil, _ => .panic
  | .Leaf l, m => l.Hash m
  | .nonLeaf left right cachedHash hashFunc, m =>
    if cachedHash.len > 0 then .ok (cachedHash, m)
    else do
      let lh ← mem.node.Hash grow left m
      let rh ← mem.node.Hash grow right lh.2
      match hashFunc with
      | none => .panic
      | some f =>
        .ok (f (Mem.append grow rh.2 lh.1 rh.1).2 (Mem.append grow rh.2 lh.1 rh.1).1)

/-- Go `hasChildren()` through the interface. -/
def mem.node.hasChildren : mem.node → Run Bool
  | .nil => .panic
  | .Leaf _ => .ok false
  | .nonLeaf left right _ _ => .ok (!left.isNil && !right.isNil)

/-- One iteration of the pairing loop of `buildRoot`. -/
def mem.buildRoot.step (hasher : GoHasher) (st : mem.node × mem.node × List mem.node)
    (n : mem.node) : mem.node × mem.node × List mem.node :=
  let left := if st.1.isNil then n else st.1
  let right := if st.1.isNil then st.2.1 else if st.2.1.isNil then n else st.2.1
  if !left.isNil && !right.isNil then
    (mem.node.nil, mem.node.nil, st.2.2 ++ [mem.newNonLeaf left right hasher])
  else (left, right, st.2.2)

/-- The part of `buildRoot` after the pairing loop. -/
def mem.buildRoot.finish (grow : Nat → Nat) (hasher : GoHasher)
    (st : mem.node × mem.node × List mem.node) (m : Mem) : Run (List mem.node × Mem) :=
  if !st.1.isNil && st.2.1.isNil then do
    let hc ← st.1.hasChildren
    let r ← if hc then do
        let c ← st.1.Hash grow m
        pure (mem.node.nonLeaf .nil .nil c.1 none, c.2)
      else pure (st.1, m)
    pure (st.2.2 ++ [mem.newNonLeaf st.1 r.1 hasher], r.2)
  else pure (st.2.2, m)

/-- Go `buildRoot`, with a budget for the recursion on the next level. -/
def mem.buildRoot (grow : Nat → Nat) :
    Nat → List mem.node → GoHasher → Mem → Run (mem.node × Mem)
  | 0, _, _, _ => .outOfFuel
  | fuel + 1, nodes, hasher, m =>
    match nodes with
    | [n] => do
      let hc ← n.hasChildren
      if hc then pure (n, m) else pure (mem.newNonLeaf n n hasher, m)
    | _ => do
      let parents ← mem.buildRoot.finish grow hasher
        (nodes.foldl (mem.buildRoot.step hasher) (mem.node.nil, mem.node.nil, [])) m
      mem.buildRoot grow fuel parents.1 hasher parents.2

/-- The assignment `l.hashFunc = hasher`. -/
def mem.Leaf.setHashFunc (hasher : GoHasher) (l : mem.Leaf) : mem.Leaf :=
  { l with hashFunc := some hasher }

/-- Go `type MerkleTree struct`. -/
structure mem.MerkleTree where
  root : mem.node
  leaves : List mem.Leaf
  hasher : GoHasher

/-- Go `NewMerkleTree`. -/
def mem.NewMerkleTree (grow : Nat → Nat) (leaves : List mem.Leaf) (hasher : GoHasher)
    (m : Mem) : Run (Except Error mem.MerkleTree × Mem) :=
  if leaves.length = 0 then .ok (.error .emptyTree, m)
  else do
    let leaves := leaves.map (mem.Leaf.setHashFunc hasher)
    let root ← mem.buildRoot grow (leaves.length + 1) (leaves.map mem.node.Leaf) hasher m
    pure (.ok { root := root.1, leaves := leaves, hasher := hasher }, root.2)

/-- Go `(*MerkleTree).Hash`. -/
def mem.MerkleTree.Hash (grow : Nat → Nat) (mt : mem.MerkleTree) (m : Mem) :
    Run (Slice × Mem) :=
  mt.root.Hash grow m

/-- Go `(*MerkleTree).Append`; the model returns the updated tree. -/
def mem.MerkleTree.Append (grow : Nat → Nat) (mt : mem.MerkleTree) (leaves : List mem.Leaf)
    (m : Mem) : Run (mem.MerkleTree × Mem) :=
  let all := mt.leaves ++ leaves.map (mem.Leaf.setHashFunc mt.hasher)
  do
    let root ← mem.buildRoot grow (all.length + 1) (all.map mem.node.Leaf) mt.hasher m
    pure ({ mt with leaves := all, root := root.1 }, root.2)

/-- Go `type Proof struct`, with its slices in memory. -/
structure mem.Proof where
  leafIndex : Int
  leafHash : Slice
  siblingHashes : List Slice

/-- Go `NewProof`. -/
def mem.NewProof (leafIndex : Int) (leafHash : Slice) (siblingHashes : List Slice) :
    mem.Proof :=
  { leafIndex := leafIndex, leafHash := leafHash, siblingHashes := siblingHashes }

/-- Go `mt.leaves[i].Hash()` for an `int` index. -/
def mem.MerkleTree.leafHashAt (mt : mem.MerkleTree) (i : Int) (m : Mem) :
    Run (Slice × Mem) :=
  if i < 0 then .panic
  else
    match mt.leaves[i.toNat]? with
    | none => .panic
    | some l => l.Hash m

/-- The loop of `VerifyProof` over `proof.siblingHashes`, from position `i`: each
round extends `currentHash` by the sibling, or the sibling by `currentHash`,
with `append`, and hashes the result. -/
def mem.VerifyProof.loop (grow : Nat → Nat) (hasher : GoHasher) (leafIndex : Int) :
    Nat → Slice → List Slice → Mem → Slice × Mem
  | _, currentHash, [], m => (currentHash, m)
  | i, currentHash, sibling :: rest, m =>
    if Int.land (leafIndex >>> i) 1 = 0 then
      mem.VerifyProof.loop grow hasher leafIndex (i + 1)
        (hasher (Mem.append grow m currentHash sibling).2
          (Mem.append grow m currentHash sibling).1).1 rest
        (hasher (Mem.append grow m currentHash sibling).2
          (Mem.append grow m currentHash sibling).1).2
    else
      mem.VerifyProof.loop grow hasher leafIndex (i + 1)
        (hasher (Mem.append grow m sibling currentHash).2
          (Mem.append grow m sibling currentHash).1).1 rest
        (hasher (Mem.append grow m sibling currentHash).2
          (Mem.append grow m sibling currentHash).1).2

/-- Go `(*MerkleTree).VerifyProof`; `bytes.Equal` compares the bytes the two
slices hold when it is called. -/
def mem.MerkleTree.VerifyProof (grow : Nat → Nat) (mt : mem.MerkleTree) (proof : mem.Proof)
    (m : Mem) : Run (Option Error × Mem) :=
  if proof.leafIndex < 0 ∨ proof.leafIndex ≥ mt.leaves.length then
    .ok (some .leafIndexOutOfBound, m)
  else do
    let leafHash ← mt.leafHashAt proof.leafIndex m
    if Mem.read leafHash.2 proof.leafHash ≠ Mem.read leafHash.2 leafHash.1 then
      pure (some .leafHashMismatch, leafHash.2)
    else do
      let cur := mem.VerifyProof.loop grow mt.hasher proof.leafIndex 0 proof.leafHash
        proof.siblingHashes leafHash.2
      let rootHash ← mt.root.Hash grow cur.2
      if Mem.read rootHash.2 cur.1 ≠ Mem.read rootHash.2 rootHash.1 then
        pure (some .wrongProof, rootHash.2)
      else pure (none, rootHash.2)

/-! ## Values of the slices in memory -/

/-- The slice lies within its array. -/
def Slice.Valid (m : Mem) (s : Slice) : Prop :=
  (Mem.read m s).length = s.len

/-- The slice lies within its array and has no spare capacity, so that `append`
never writes behind it. -/
def Slice.Sealed (m : Mem) (s : Slice) : Prop :=
  s.Valid m ∧ s.cap = s.len

/-- The leaf seen as a value: its slices read in `m`; a hash function it
carries is taken to compute `f`. -/
def mem.Leaf.abs (f : Hasher) (m : Mem) (l : mem.Leaf) : merkletree.Leaf :=
  { content := Mem.read m l.content
    cachedHash := Mem.read m l.cachedHash
    hashFunc := l.hashFunc.map (fun _ => f) }

/-- The node seen as a value. -/
def mem.node.abs (f : Hasher) (m : Mem) : mem.node → merkletree.node
  | .nil => .nil
  | .Leaf l => .Leaf (l.abs f m)
  | .nonLeaf left right cachedHash hashFunc =>
    .nonLeaf (mem.node.abs f m left) (mem.node.abs f m right) (Mem.read m cachedHash)
      (hashFunc.map (fun _ => f))

/-- The tree seen as a value. -/
def mem.MerkleTree.abs (f : Hasher) (m : Mem) (mt : mem.MerkleTree) : merkletree.MerkleTree :=
  { root := mt.root.abs f m
    leaves := mt.leaves.map (mem.Leaf.abs f m)
    hasher := f }

/-- The content of the leaf lies within its array and its cached hash has no
spare capacity (as for a leaf fresh from `NewLeaf`, and for one hashed by a
hasher of `hasher.go`). -/
def mem.Leaf.Sealed (m : Mem) (l : mem.Leaf) : Prop :=
  l.content.Valid m ∧ l.cachedHash.Sealed m

/-- All leaves below the node are sealed and carry `freshHasher f`, all cached
hashes have no spare capacity, and the inner nodes carry `freshHasher f` or
no hash function. -/
def mem.node.Sealed (f : Hasher) (m : Mem) : mem.node → Prop
  | .nil => True
  | .Leaf l => l.Sealed m ∧ l.hashFunc = some (freshHasher f)
  | .nonLeaf left right cachedHash hashFunc =>
    mem.node.Sealed f m left ∧ mem.node.Sealed f m right ∧ cachedHash.Sealed m ∧
      (hashFunc = none ∨ hashFunc = some (freshHasher f))

/-- The tree carries `freshHasher f`, and so do its leaves; the leaves and the
nodes below the root are sealed. -/
def mem.MerkleTree.Valid (f : Hasher) (m : Mem) (mt : mem.MerkleTree) : Prop :=
  mt.hasher = freshHasher f ∧ mt.root.Sealed f m ∧
    ∀ l ∈ mt.leaves, l.Sealed m ∧ l.hashFunc = some (freshHasher f)

/-- The state `(left, right, parents)` of the pairing loop seen as values. -/
def mem.buildRoot.absState (f : Hasher) (m : Mem) (st : mem.node × mem.node × List mem.node) :
    merkletree.node × merkletree.node × List merkletree.node :=
  (mem.node.abs f m st.1, mem.node.abs f m st.2.1, st.2.2.map (mem.node.abs f m))

/-- A run on values matched by a run in memory `m`: the same outcome; when both
return, the memory has only grown by new arrays and the results are related
by `R` there. -/
def Sim {α β : Type} (m : Mem) (R : α → β → Mem → Prop) (v : Run α) (x : Run (β × Mem)) :
    Prop :=
  match v with
  | .ok a => ∃ b m', x = .ok (b, m ++ m') ∧ R a b (m ++ m')
  | .panic => x = .panic
  | .outOfFuel => x = .outOfFuel

/-- The trees of the package in memory, for a hasher of the kind of `hasher.go`:
what `NewMerkleTree` returns for sealed leaves, what `Append` of sealed leaves
makes of such a tree, and such a tree after further allocations. Arrays are
written by the package only. -/
inductive mem.IsTree (grow : Nat → Nat) (f : Hasher) : Mem → mem.MerkleTree → Prop
  | new (m : Mem) (leaves : List mem.Leaf) (t : mem.MerkleTree) (m' : Mem) :
      (∀ l ∈ leaves, l.Sealed m) →
      mem.NewMerkleTree grow leaves (freshHasher f) m = .ok (.ok t, m') → mem.IsTree grow f m' t
  | append (m : Mem) (t : mem.MerkleTree) (leaves : List mem.Leaf) (t' : mem.MerkleTree)
      (m' : Mem) :
      mem.IsTree grow f m t → (∀ l ∈ leaves, l.Sealed m) →
      t.Append grow leaves m = .ok (t', m') → mem.IsTree grow f m' t'
  | alloc (m : Mem) (t : mem.MerkleTree) (more : Mem) :
      mem.IsTree grow f m t → mem.IsTree grow f (m ++ more) t

/-- The bytes of the root hash of the tree `NewMerkleTree` builds: the two calls
one after the other. -/
def mem.rootHashOf (grow : Nat → Nat) (leaves : List mem.Leaf) (hasher : GoHasher) (m : Mem) :
    Run Bytes := do
  let r ← mem.NewMerkleTree grow leaves hasher m
  match r.1 with
  | .error _ => .panic
  | .ok t => do
    let h ← t.Hash grow r.2
    pure (Mem.read h.2 h.1)

/-- The error `VerifyProof` returns on the tree `NewMerkleTree` builds: the two
calls one after the other. -/
def mem.verifyOn (grow : Nat → Nat) (leaves : List mem.Leaf) (hasher : GoHasher)
    (proof : mem.Proof) (m : Mem) : Run (Option Error) := do
  let r ← mem.NewMerkleTree grow leaves hasher m
  match r.1 with
  | .error _ => .panic
  | .ok t => do
    let e ← t.VerifyProof grow proof r.2
    pure e.1

/-! ## Concrete inputs -/

/-- An injective hasher with non-empty outputs: the input behind a zero byte. -/
def tagHasher : Hasher := fun b => 0 :: b

/-- A hasher whose output is always empty. -/
def emptyHasher : Hasher := fun _ => []

/-- The leaves `NewLeaf [0]`, ..., `NewLeaf [n - 1]`. -/
def leavesUpTo (n : Nat) : List Leaf :=
  (List.range n).map (fun i => NewLeaf [UInt8.ofNat i])

/-- A leaf that carries a cached hash which is not the hash of its content under
`tagHasher`, as left behind by a tree built with the hasher that returns `[9]`. -/
def staleLeaf : Leaf :=
  { content := [1], cachedHash := [9], hashFunc := some (fun _ => [9]) }

/-- The leaf node for content `[i]` in a tree built with `tagHasher`. -/
def tagLeaf (i : UInt8) : node := .Leaf ((NewLeaf [i]).setHashFunc tagHasher)

/-- The tree `NewMerkleTree (leavesUpTo 5) tagHasher` returns; the unpaired fifth
leaf is paired with itself and its parent with a stand-in. -/
def exampleTree : MerkleTree :=
  { root :=
      newNonLeaf
        (newNonLeaf (newNonLeaf (tagLeaf 0) (tagLeaf 1) tagHasher)
          (newNonLeaf (tagLeaf 2) (tagLeaf 3) tagHasher) tagHasher)
        (newNonLeaf (newNonLeaf (tagLeaf 4) (tagLeaf 4) tagHasher)
          (.nonLeaf .nil .nil [0, 0, 4, 0, 4] none) tagHasher)
        tagHasher
    leaves := (leavesUpTo 5).map (Leaf.setHashFunc tagHasher)
    hasher := tagHasher }

/-- The tree `NewMerkleTree (List.replicate 5 staleLeaf) emptyHasher` returns: the
leaves keep their cached hash, the stand-in carries the empty hash. -/
def staleTree : MerkleTree :=
  { root :=
      newNonLeaf
        (newNonLeaf
          (newNonLeaf (.Leaf (staleLeaf.setHashFunc emptyHasher))
            (.Leaf (staleLeaf.setHashFunc emptyHasher)) emptyHasher)
          (newNonLeaf (.Leaf (staleLeaf.setHashFunc emptyHasher))
            (.Leaf (staleLeaf.setHashFunc emptyHasher)) emptyHasher) emptyHasher)
        (newNonLeaf
          (newNonLeaf (.Leaf (staleLeaf.setHashFunc emptyHasher))
            (.Leaf (staleLeaf.setHashFunc emptyHasher)) emptyHasher)
          (.nonLeaf .nil .nil [] none) emptyHasher)
        emptyHasher
    leaves := List.replicate 5 (staleLeaf.setHashFunc emptyHasher)
    hasher := emptyHasher }

/-- The tree `NewMerkleTree (leavesUpTo 5) emptyHasher` returns: every hash is
empty, so the stand-in carries the empty hash. -/
def hollowTree : MerkleTree :=
  { root :=
      newNonLeaf
        (newNonLeaf
          (newNonLeaf (.Leaf ((NewLeaf [0]).setHashFunc emptyHasher))
            (.Leaf ((NewLeaf [1]).setHashFunc emptyHasher)) emptyHasher)
          (newNonLeaf (.Leaf ((NewLeaf [2]).setHashFunc emptyHasher))
            (.Leaf ((NewLeaf [3]).setHashFunc emptyHasher)) emptyHasher) emptyHasher)
        (newNonLeaf
          (newNonLeaf (.Leaf ((NewLeaf [4]).setHashFunc emptyHasher))
            (.Leaf ((NewLeaf [4]).setHashFunc emptyHasher)) emptyHasher)
          (.nonLeaf .nil .nil [] none) emptyHasher)
        emptyHasher
    leaves := (leavesUpTo 5).map (Leaf.setHashFunc emptyHasher)
    hasher := emptyHasher }

/-- Five arrays of one byte, the contents of `cellLeaves`. -/
def cellMem : Mem := [[0], [1], [2], [3], [4]]

/-- Five leaves fresh from `NewLeaf`, each with an array of its own. -/
def cellLeaves : List mem.Leaf :=
  [mem.NewLeaf ⟨0, 0, 1, 1⟩, mem.NewLeaf ⟨1, 0, 1, 1⟩, mem.NewLeaf ⟨2, 0, 1, 1⟩,
    mem.NewLeaf ⟨3, 0, 1, 1⟩, mem.NewLeaf ⟨4, 0, 1, 1⟩]

/-- Four leaves with the contents `[1]`, `[2]`, `[3]`, `[4]` in the arrays 0 to 3. -/
def fourLeaves : List mem.Leaf :=
  [mem.NewLeaf ⟨0, 0, 1, 1⟩, mem.NewLeaf ⟨1, 0, 1, 1⟩, mem.NewLeaf ⟨2, 0, 1, 1⟩,
    mem.NewLeaf ⟨3, 0, 1, 1⟩]

/-- The contents of `fourLeaves` and one buffer of nine bytes that holds the
proof for index 1 under `tagHasher`: the leaf hash `[0, 2]`, then the siblings
`[0, 1]` and `[0, 0, 3, 0, 4]`. -/
def sharedMem : Mem := [[1], [2], [3], [4], [0, 2, 0, 1, 0, 0, 3, 0, 4]]

/-- The proof for index 1 cut from the buffer: `buf[0:2]`, `buf[2:4]`, `buf[4:9]`,
each with the capacity that is left to the end of the buffer. -/
def sharedProof : mem.Proof :=
  mem.NewProof 1 ⟨4, 0, 2, 9⟩ [⟨4, 2, 2, 7⟩, ⟨4, 4, 5, 5⟩]

/-- The contents of `fourLeaves` and the same proof in three arrays. -/
def apartMem : Mem := [[1], [2], [3], [4], [0, 2], [0, 1], [0, 0, 3, 0, 4]]

/-- The proof for index 1 with a slice of its own array for each hash. -/
def apartProof : mem.Proof :=
  mem.NewProof 1 ⟨4, 0, 2, 2⟩ [⟨5, 0, 2, 2⟩, ⟨6, 0, 5, 5⟩]

/-- One buffer `[1, 3, 2]`. -/
def crossedMem : Mem := [[1, 3, 2]]

/-- Three leaves with the contents `[1]`, `[2]`, `[3]` cut from the buffer of
`crossedMem`: `buf[0:1]`, `buf[2:3]` and `buf[1:2]`. -/
def crossedLeaves : List mem.Leaf :=
  [mem.NewLeaf ⟨0, 0, 1, 3⟩, mem.NewLeaf ⟨0, 2, 1, 1⟩, mem.NewLeaf ⟨0, 1, 1, 2⟩]

/-- Two arrays with the same byte. -/
def twinMem : Mem := [[1], [1]]

/-- The tree `NewMerkleTree` builds over the one leaf whose content is the first
array of `twinMem`, with `freshHasher tagHasher`. -/
def twinTree : mem.MerkleTree :=
  { root :=
      mem.newNonLeaf
        (.Leaf ((mem.NewLeaf ⟨0, 0, 1, 1⟩).setHashFunc (freshHasher tagHasher)))
        (.Leaf ((mem.NewLeaf ⟨0, 0, 1, 1⟩).setHashFunc (freshHasher tagHasher)))
        (freshHasher tagHasher)
    leaves := [(mem.NewLeaf ⟨0, 0, 1, 1⟩).setHashFunc (freshHasher tagHasher)]
    hasher := freshHasher tagHasher }

/-- The proof `exampleTree.GenerateProof 4` returns. -/
def exampleProof : Proof :=
  NewProof 4 [0, 4] [[0, 4], [0, 0, 4, 0, 4], [0, 0, 0, 0, 0, 1, 0, 0, 2, 0, 3]]

/-! ## Outcomes -/

@[simp] theorem Run.ok_bind {α β : Type} (a : α) (f : α → Run β) :
    (Run.ok a >>= f) = f a := rfl

@[simp] theorem Run.pure_bind {α β : Type} (a : α) (f : α → Run β) :
    ((pure a : Run α) >>= f) = f a := rfl

@[simp] theorem Run.panic_bind {α β : Type} (f : α → Run β) :
    ((Run.panic : Run α) >>= f) = Run.panic := rfl

@[simp] theorem Run.outOfFuel_bind {α β : Type} (f : α → Run β) :
    ((Run.outOfFuel : Run α) >>= f) = Run.outOfFuel := rfl

@[simp] theorem Run.pure_eq_ok {α : Type} (a : α) : (pure a : Run α) = Run.ok a := rfl

theorem Run.bind_eq_ok {α β : Type} {x : Run α} {f : α → Run β} {b : β}
    (h : (x >>= f) = Run.ok b) : ∃ a, x = Run.ok a ∧ f a = Run.ok b := by
  cases x with
  | ok a => exact ⟨a, rfl, h⟩
  | panic => cases h
  | outOfFuel => cases h

/-! ## nearestSmallerPowerOf2 -/

theorem nearestSmallerPowerOf2.loop_spec (m : Nat) :
    ∀ (fuel j : Nat), 2 ^ j ≤ m → m < fuel + 2 ^ j →
      ∃ J, nearestSmallerPowerOf2.loop (m : Int) fuel ((2 ^ j : Nat) : Int)
          = .ok ((2 ^ J : Nat) : Int) ∧ 2 ^ J ≤ m ∧ m < 2 ^ (J + 1) := by
  intro fuel
  induction fuel with
  | zero => intro j h1 h2; omega
  | succ fuel ih =>
    intro j h1 h2
    have hdiv : Int.tdiv (m : Int) 2 = ((m / 2 : Nat) : Int) := by
      rw [Int.ofNat_tdiv]; rfl
    unfold nearestSmallerPowerOf2.loop
    rw [hdiv]
    by_cases hc : 2 ^ j ≤ m / 2
    · have hc' : ((2 ^ j : Nat) : Int) ≤ ((m / 2 : Nat) : Int) := by exact_mod_cast hc
      rw [if_pos hc']
      have hp : 2 ^ (j + 1) = 2 ^ j * 2 := by ring
      have h3 : 2 ^ (j + 1) ≤ m := by omega
      have h4 : m < fuel + 2 ^ (j + 1) := by
        have := Nat.one_le_two_pow (n := j)
        omega
      obtain ⟨J, hJ, hb⟩ := ih (j + 1) h3 h4
      refine ⟨J, ?_, hb⟩
      rw [← hJ, hp]
      push_cast
      rfl
    · have hc' : ¬ ((2 ^ j : Nat) : Int) ≤ ((m / 2 : Nat) : Int) := by
        intro h; exact hc (by exact_mod_cast h)
      rw [if_neg hc']
      refine ⟨j, rfl, h1, ?_⟩
      have hp : 2 ^ (j + 1) = 2 ^ j * 2 := by ring
      omega

/-- For `2 ^ k < n ≤ 2 ^ (k + 1)` the result is `2 ^ k`. -/
theorem nearestSmallerPowerOf2_eq (k n : Nat) (h1 : 2 ^ k < n) (h2 : n ≤ 2 ^ (k + 1)) :
    nearestSmallerPowerOf2 (n : Int) = .ok ((2 ^ k : Nat) : Int) := by
  have hk := Nat.one_le_two_pow (n := k)
  obtain ⟨J, hJ, hb1, hb2⟩ :=
    nearestSmallerPowerOf2.loop_spec n (n + 1) 0 (by simp; omega) (by omega)
  unfold nearestSmallerPowerOf2
  have hn : ¬ ((n : Int) < 1) := by omega
  rw [if_neg hn]
  have h0 : ((2 ^ 0 : Nat) : Int) = 1 := by norm_num
  rw [h0] at hJ
  have ht : (n : Int).toNat + 1 = n + 1 := by simp
  rw [ht, hJ]
  simp only [Run.ok_bind]
  have hJk : k < J + 1 := by
    by_contra hcon
    have : 2 ^ (J + 1) ≤ 2 ^ k := Nat.pow_le_pow_right (by norm_num) (by omega)
    omega
  have hJk2 : J ≤ k + 1 := by
    by_contra hcon
    have : 2 ^ (k + 2) ≤ 2 ^ J := Nat.pow_le_pow_right (by norm_num) (by omega)
    have hp : 2 ^ (k + 2) = 2 ^ (k + 1) * 2 := by ring
    have := Nat.one_le_two_pow (n := k + 1)
    omega
  by_cases he : 2 ^ J = n
  · have he' : ((2 ^ J : Nat) : Int) = (n : Int) := by exact_mod_cast he
    rw [if_pos he']
    have hJ1 : J = k + 1 := by
      by_contra hcon
      have hJle : J ≤ k := by omega
      have : 2 ^ J ≤ 2 ^ k := Nat.pow_le_pow_right (by norm_num) hJle
      omega
    subst hJ1
    congr 1
    have hp : 2 ^ (k + 1) = 2 ^ k * 2 := by ring
    have hq : 2 ^ (k + 1) / 2 = 2 ^ k := by omega
    have hc := Int.ofNat_tdiv (2 ^ (k + 1)) 2
    rw [hq] at hc
    exact hc.symm
  · have he' : ¬ ((2 ^ J : Nat) : Int) = (n : Int) := by
      intro h; exact he (by exact_mod_cast h)
    rw [if_neg he']
    have hJ1 : J = k := by
      by_contra hcon
      have hJle : J = k + 1 := by omega
      subst hJle
      omega
    subst hJ1
    rfl

/-- The function returns on every input. -/
theorem nearestSmallerPowerOf2_total (n : Int) : ∃ p, nearestSmallerPowerOf2 n = .ok p := by
  unfold nearestSmallerPowerOf2
  by_cases hn : n < 1
  · rw [if_pos hn]; exact ⟨0, rfl⟩
  · rw [if_neg hn]
    obtain ⟨m, rfl⟩ : ∃ m : Nat, n = (m : Int) := ⟨n.toNat, by omega⟩
    obtain ⟨J, hJ, -, -⟩ :=
      nearestSmallerPowerOf2.loop_spec m (m + 1) 0 (by simp; omega) (by omega)
    have h0 : ((2 ^ 0 : Nat) : Int) = 1 := by norm_num
    rw [h0] at hJ
    have ht : (m : Int).toNat + 1 = m + 1 := by simp
    rw [ht, hJ]
    simp only [Run.ok_bind]
    split
    · exact ⟨_, rfl⟩
    · exact ⟨_, rfl⟩

/-! ## The pairing loop of buildRoot -/

@[simp] theorem node.isNil_nil : node.nil.isNil = true := rfl

@[simp] theorem node.isNil_Leaf (l : merkletree.Leaf) : (node.Leaf l).isNil = false := rfl

@[simp] theorem node.isNil_nonLeaf (L R : node) (c : Bytes) (f : Option Hasher) :
    (node.nonLeaf L R c f).isNil = false := rfl

@[simp] theorem node.isNil_newNonLeaf (L R : node) (f : Hasher) :
    (newNonLeaf L R f).isNil = false := rfl

theorem Shape.not_nil {hasher : Hasher} {k : Nat} {ls : List Leaf} {n : node}
    (hs : Shape hasher k ls n) : n.isNil = false := by
  cases hs <;> rfl

theorem Shape.length_bounds {hasher : Hasher} {k : Nat} {ls : List Leaf} {n : node}
    (hs : Shape hasher k ls n) : 1 ≤ ls.length ∧ ls.length ≤ 2 ^ k := by
  induction hs with
  | leaf l _ => simp
  | full k ls₁ ls₂ L R h1 _ _ ih1 ih2 =>
    have hp : 2 ^ (k + 1) = 2 ^ k * 2 := by ring
    simp only [List.length_append]
    omega
  | selfPair l _ => simp
  | standIn k ls L c _ _ ih =>
    have hp : 2 ^ (k + 2) = 2 ^ (k + 1) * 2 := by ring
    omega

theorem Shape.hasChildren_zero {hasher : Hasher} {ls : List Leaf} {n : node}
    (hs : Shape hasher 0 ls n) : n.hasChildren = .ok false := by
  cases hs; rfl

theorem Shape.hasChildren_succ {hasher : Hasher} {k : Nat} {ls : List Leaf} {n : node}
    (hs : Shape hasher (k + 1) ls n) : n.hasChildren = .ok true := by
  cases hs with
  | full _ ls₁ ls₂ L R _ hL hR =>
    simp [newNonLeaf, node.hasChildren, hL.not_nil, hR.not_nil]
  | selfPair l _ => rfl
  | standIn _ _ L c hL _ =>
    simp [newNonLeaf, node.hasChildren, hL.not_nil]

theorem buildRoot.step_pair (hasher : Hasher) (acc : List node) (a b : node)
    (ha : a.isNil = false) (hb : b.isNil = false) :
    buildRoot.step hasher (buildRoot.step hasher (node.nil, node.nil, acc) a) b
      = (node.nil, node.nil, acc ++ [newNonLeaf a b hasher]) := by
  simp [buildRoot.step, ha, hb]

theorem buildRoot.step_single (hasher : Hasher) (acc : List node) (a : node)
    (ha : a.isNil = false) :
    buildRoot.step hasher (node.nil, node.nil, acc) a = (a, node.nil, acc) := by
  simp [buildRoot.step, ha]

/-- On a level without nil entries the loop of `buildRoot` followed by the
treatment of an unpaired node computes `pairNodes`. -/
theorem buildRoot.finish_foldl (hasher : Hasher) :
    ∀ (nodes : List node) (acc : List node), (∀ n ∈ nodes, n.isNil = false) →
      buildRoot.finish hasher (nodes.foldl (buildRoot.step hasher) (node.nil, node.nil, acc))
        = (pairNodes hasher nodes >>= fun ps => Run.ok (acc ++ ps))
  | [], acc, _ => by
    simp [buildRoot.finish, pairNodes]
  | [a], acc, h => by
    have ha : a.isNil = false := h a (by simp)
    simp only [List.foldl, buildRoot.step_single hasher acc a ha]
    simp only [buildRoot.finish, pairNodes, ha, node.isNil_nil]
    cases a.hasChildren with
    | ok hc =>
      cases hc with
      | true =>
        simp only [Run.ok_bind, Bool.not_false, Bool.and_self, if_true]
        cases a.Hash <;> simp
      | false => simp
    | panic => simp
    | outOfFuel => simp
  | a :: b :: rest, acc, h => by
    have ha : a.isNil = false := h a (by simp)
    have hb : b.isNil = false := h b (by simp)
    have hr : ∀ n ∈ rest, n.isNil = false := fun n hn => h n (by simp [hn])
    simp only [List.foldl]
    rw [buildRoot.step_pair hasher acc a b ha hb, buildRoot.finish_foldl hasher rest _ hr]
    simp only [pairNodes]
    cases pairNodes hasher rest <;> simp

theorem pairNodes_length (hasher : Hasher) :
    ∀ (nodes ps : List node), pairNodes hasher nodes = .ok ps →
      ps.length = (nodes.length + 1) / 2
  | [], ps, h => by
    simp only [pairNodes, Run.ok.injEq] at h
    subst h; rfl
  | [a], ps, h => by
    simp only [pairNodes] at h
    obtain ⟨hc, -, h⟩ := Run.bind_eq_ok h
    cases hc with
    | true =>
      simp only [if_true] at h
      obtain ⟨c, -, h⟩ := Run.bind_eq_ok h
      simp only [Run.pure_eq_ok, Run.ok_bind, Run.ok.injEq] at h
      subst h; simp
    | false =>
      simp only [Bool.false_eq_true, if_false, Run.pure_eq_ok, Run.ok_bind, Run.ok.injEq] at h
      subst h; simp
  | a :: b :: rest, ps, h => by
    simp only [pairNodes] at h
    obtain ⟨qs, hq, h⟩ := Run.bind_eq_ok h
    simp only [Run.pure_eq_ok, Run.ok.injEq] at h
    subst h
    have := pairNodes_length hasher rest qs hq
    simp only [List.length_cons, this]
    omega

theorem LevelOK.nodes_not_nil {hasher : Hasher} {k : Nat} {ls : List Leaf} {nodes : List node}
    (h : LevelOK hasher k ls nodes) : ∀ n ∈ nodes, n.isNil = false := by
  induction h with
  | nil => intro n hn; cases hn
  | last ls n hs =>
    intro m hm
    simp only [List.mem_singleton] at hm
    subst hm; exact hs.not_nil
  | cons ls₁ ls₂ n rest _ hs _ _ ih =>
    intro m hm
    rcases List.mem_cons.mp hm with rfl | hm
    · exact hs.not_nil
    · exact ih m hm

/-- Pairing level `k` gives level `k + 1` over the same leaves. -/
theorem pairNodes_level (hasher : Hasher) (k : Nat) :
    ∀ (nodes : List node) (ls : List Leaf) (ps : List node),
      LevelOK hasher k ls nodes → pairNodes hasher nodes = .ok ps →
      LevelOK hasher (k + 1) ls ps
  | [], ls, ps, hl, h => by
    simp only [pairNodes, Run.ok.injEq] at h
    subst h
    cases hl
    exact LevelOK.nil
  | [a], ls, ps, hl, h => by
    have hs : Shape hasher k ls a := by
      cases hl with
      | last _ _ hs => exact hs
      | cons _ _ _ _ _ _ hne _ => exact absurd rfl hne
    simp only [pairNodes] at h
    cases k with
    | zero =>
      rw [hs.hasChildren_zero] at h
      simp only [Run.ok_bind, Bool.false_eq_true, if_false, Run.pure_eq_ok, Run.ok.injEq] at h
      subst h
      cases hs with
      | leaf l hf => exact LevelOK.last _ _ (Shape.selfPair l hf)
    | succ k =>
      rw [hs.hasChildren_succ] at h
      simp only [Run.ok_bind, if_true] at h
      obtain ⟨c, hc, h⟩ := Run.bind_eq_ok h
      simp only [Run.pure_eq_ok, Run.ok_bind, Run.ok.injEq] at h
      subst h
      exact LevelOK.last _ _ (Shape.standIn k ls a c hs hc)
  | a :: b :: rest, ls, ps, hl, h => by
    simp only [pairNodes] at h
    obtain ⟨qs, hq, h⟩ := Run.bind_eq_ok h
    simp only [Run.pure_eq_ok, Run.ok.injEq] at h
    subst h
    cases hl with
    | cons ls₁ ls₂ _ _ hlen hsa _ hrest =>
      cases hrest with
      | last _ _ hsb =>
        simp only [pairNodes, Run.ok.injEq] at hq
        subst hq
        exact LevelOK.last _ _ (Shape.full k ls₁ ls₂ a b hlen hsa hsb)
      | cons ls₃ ls₄ _ _ hlen3 hsb hne hrest2 =>
        have ih := pairNodes_level hasher k rest ls₄ qs hrest2 hq
        have hqne : qs ≠ [] := by
          intro hq0
          have hlen := pairNodes_length hasher rest qs hq
          rw [hq0] at hlen
          have : rest.length ≠ 0 := fun h0 => hne (List.length_eq_zero.mp h0)
          simp only [List.length_nil] at hlen
          omega
        rw [← List.append_assoc]
        refine LevelOK.cons _ _ _ _ ?_ (Shape.full k ls₁ ls₃ a b hlen hsa hsb) hqne ih
        rw [List.length_append, hlen, hlen3]
        ring

/-! ## Hashes of the nodes of a shaped tree -/

theorem Leaf.Hash_eq {hasher : Hasher} {l : merkletree.Leaf} (h : l.hashFunc = some hasher) :
    l.Hash = .ok (l.hashWith hasher) := by
  unfold merkletree.Leaf.Hash merkletree.Leaf.hashWith
  rw [h]
  split <;> rfl

theorem Leaf.hashWith_ne_nil {hasher : Hasher} (hne : ∀ b, hasher b ≠ [])
    (l : merkletree.Leaf) : l.hashWith hasher ≠ [] := by
  unfold merkletree.Leaf.hashWith
  split
  · rename_i hpos
    intro h
    rw [h] at hpos
    simp at hpos
  · exact hne _

theorem Leaf.hashWith_setHashFunc (hasher f : Hasher) (l : merkletree.Leaf) :
    (l.setHashFunc f).hashWith hasher = l.hashWith hasher := rfl

theorem Hash_newNonLeaf (L R : node) (hasher : Hasher) :
    (newNonLeaf L R hasher).Hash
      = (L.Hash >>= fun lh => R.Hash >>= fun rh => Run.ok (hasher (lh ++ rh))) := by
  simp [newNonLeaf, node.Hash]

theorem Hash_standIn (c : Bytes) :
    (node.nonLeaf .nil .nil c none).Hash = if c.length > 0 then .ok c else .panic := by
  simp only [node.Hash]
  split <;> rfl

/-- With a hasher whose outputs are non-empty every node of a shaped tree has a
hash, and it is non-empty. -/
theorem Shape.hash_ok {hasher : Hasher} (hne : ∀ b, hasher b ≠ []) {k : Nat}
    {ls : List Leaf} {n : node} (hs : Shape hasher k ls n) :
    ∃ c, n.Hash = .ok c ∧ c ≠ [] := by
  induction hs with
  | leaf l hf => exact ⟨_, Leaf.Hash_eq hf, Leaf.hashWith_ne_nil hne l⟩
  | full k ls₁ ls₂ L R _ _ _ ih1 ih2 =>
    obtain ⟨c1, h1, -⟩ := ih1
    obtain ⟨c2, h2, -⟩ := ih2
    exact ⟨_, by rw [Hash_newNonLeaf, h1, h2]; rfl, hne _⟩
  | selfPair l hf =>
    have h1 : (node.Leaf l).Hash = .ok (l.hashWith hasher) := Leaf.Hash_eq hf
    exact ⟨_, by rw [Hash_newNonLeaf, h1]; rfl, hne _⟩
  | standIn k ls L c _ hc ih =>
    obtain ⟨c1, h1, hc1⟩ := ih
    have hcc : c = c1 := by
      rw [hc] at h1
      exact Run.ok.inj h1
    subst hcc
    have hpos : c.length > 0 := List.length_pos.mpr hc1
    have h2 : (node.nonLeaf .nil .nil c none).Hash = .ok c := by
      rw [Hash_standIn, if_pos hpos]
    exact ⟨_, by rw [Hash_newNonLeaf, hc, h2]; rfl, hne _⟩

/-! ## buildRoot produces a shaped tree -/

theorem LevelOK.length_pos {hasher : Hasher} {k : Nat} {ls : List Leaf} {nodes : List node}
    (h : LevelOK hasher k ls nodes) (hne : nodes ≠ []) : 1 ≤ ls.length := by
  cases h with
  | nil => exact absurd rfl hne
  | last _ _ hs => exact hs.length_bounds.1
  | cons ls₁ ls₂ _ _ hlen _ _ _ =>
    have := Nat.one_le_two_pow (n := k)
    simp only [List.length_append]
    omega

theorem buildRoot_succ_pair (hasher : Hasher) (fuel : Nat) (a b : node) (rest : List node)
    (hnil : ∀ n ∈ a :: b :: rest, n.isNil = false) :
    buildRoot (fuel + 1) (a :: b :: rest) hasher
      = (pairNodes hasher (a :: b :: rest) >>= fun ps => buildRoot fuel ps hasher) := by
  simp only [buildRoot]
  rw [buildRoot.finish_foldl hasher (a :: b :: rest) [] hnil]
  cases pairNodes hasher (a :: b :: rest) <;> simp

/-- The node `buildRoot` returns covers all the leaves of the level it is given,
at a depth `d ≥ 1` that is minimal: `d = 1` or more than `2 ^ (d - 1)` leaves. -/
theorem buildRoot_shape (hasher : Hasher) :
    ∀ (fuel k : Nat) (ls : List Leaf) (nodes : List node) (root : node),
      LevelOK hasher k ls nodes → nodes ≠ [] → (k = 0 ∨ 2 ^ (k - 1) < ls.length) →
      buildRoot fuel nodes hasher = .ok root →
      ∃ d, Shape hasher d ls root ∧ 1 ≤ d ∧ (d = 1 ∨ 2 ^ (d - 1) < ls.length) := by
  intro fuel
  induction fuel with
  | zero =>
    intro k ls nodes root _ _ _ h
    simp [buildRoot] at h
  | succ fuel ih =>
    intro k ls nodes root hl hne hk h
    match nodes, hl, hne, h with
    | [a], hl, _, h =>
      have hs : Shape hasher k ls a := by
        cases hl with
        | last _ _ hs => exact hs
        | cons _ _ _ _ _ _ hne _ => exact absurd rfl hne
      simp only [buildRoot] at h
      cases k with
      | zero =>
        rw [hs.hasChildren_zero] at h
        simp only [Run.ok_bind, Bool.false_eq_true, if_false, Run.pure_eq_ok,
          Run.ok.injEq] at h
        subst h
        cases hs with
        | leaf l hf => exact ⟨1, Shape.selfPair l hf, le_refl _, Or.inl rfl⟩
      | succ k =>
        rw [hs.hasChildren_succ] at h
        simp only [Run.ok_bind, if_true, Run.pure_eq_ok, Run.ok.injEq] at h
        subst h
        refine ⟨k + 1, hs, by omega, ?_⟩
        rcases hk with hk | hk
        · omega
        · right; simpa using hk
    | a :: b :: rest, hl, _, h =>
      rw [buildRoot_succ_pair hasher fuel a b rest hl.nodes_not_nil] at h
      obtain ⟨ps, hps, h⟩ := Run.bind_eq_ok h
      have hl2 := pairNodes_level hasher k _ ls ps hl hps
      have hlen := pairNodes_length hasher _ ps hps
      have hpne : ps ≠ [] := by
        intro h0
        rw [h0] at hlen
        simp only [List.length_nil, List.length_cons] at hlen
        omega
      have hbig : 2 ^ k < ls.length := by
        cases hl with
        | cons ls₁ ls₂ _ _ hlen1 _ hne2 hrest =>
          have := hrest.length_pos hne2
          simp only [List.length_append]
          omega
      exact ih (k + 1) ls ps root hl2 hpne (Or.inr (by simpa using hbig)) h

theorem pairNodes_total {hasher : Hasher} (hne : ∀ b, hasher b ≠ []) (k : Nat) :
    ∀ (nodes : List node) (ls : List Leaf), LevelOK hasher k ls nodes →
      ∃ ps, pairNodes hasher nodes = .ok ps
  | [], _, _ => ⟨[], rfl⟩
  | [a], ls, hl => by
    have hs : Shape hasher k ls a := by
      cases hl with
      | last _ _ hs => exact hs
      | cons _ _ _ _ _ _ hne _ => exact absurd rfl hne
    obtain ⟨c, hc, -⟩ := hs.hash_ok hne
    simp only [pairNodes]
    cases k with
    | zero =>
      rw [hs.hasChildren_zero]
      exact ⟨_, rfl⟩
    | succ k =>
      rw [hs.hasChildren_succ]
      simp only [Run.ok_bind, if_true, hc]
      exact ⟨_, rfl⟩
  | a :: b :: rest, ls, hl => by
    have hrest : ∃ ls', LevelOK hasher k ls' rest := by
      cases hl with
      | cons ls₁ ls₂ _ _ _ _ _ hr =>
        cases hr with
        | last _ _ _ => exact ⟨[], LevelOK.nil⟩
        | cons ls₃ ls₄ _ _ _ _ _ hr2 => exact ⟨ls₄, hr2⟩
    obtain ⟨ls', hl'⟩ := hrest
    obtain ⟨qs, hq⟩ := pairNodes_total hne k rest ls' hl'
    simp only [pairNodes, hq]
    exact ⟨_, rfl⟩

/-- With a hasher whose outputs are non-empty, `buildRoot` returns a node on
every non-empty level as soon as the budget is at least the level's size. -/
theorem buildRoot_total {hasher : Hasher} (hne : ∀ b, hasher b ≠ []) :
    ∀ (fuel k : Nat) (ls : List Leaf) (nodes : List node),
      LevelOK hasher k ls nodes → nodes ≠ [] → nodes.length ≤ fuel →
      ∃ root, buildRoot fuel nodes hasher = .ok root := by
  intro fuel
  induction fuel with
  | zero =>
    intro k ls nodes _ hn hlen
    have : nodes.length ≠ 0 := fun h0 => hn (List.length_eq_zero.mp h0)
    omega
  | succ fuel ih =>
    intro k ls nodes hl hn hlen
    match nodes, hl, hn, hlen with
    | [a], hl, _, _ =>
      have hs : Shape hasher k ls a := by
        cases hl with
        | last _ _ hs => exact hs
        | cons _ _ _ _ _ _ hne _ => exact absurd rfl hne
      simp only [buildRoot]
      cases k with
      | zero =>
        rw [hs.hasChildren_zero]
        exact ⟨_, rfl⟩
      | succ k =>
        rw [hs.hasChildren_succ]
        exact ⟨_, rfl⟩
    | a :: b :: rest, hl, _, hlen =>
      rw [buildRoot_succ_pair hasher fuel a b rest hl.nodes_not_nil]
      obtain ⟨ps, hps⟩ := pairNodes_total hne k _ ls hl
      rw [hps]
      simp only [Run.ok_bind]
      have hl2 := pairNodes_level hasher k _ ls ps hl hps
      have hlen2 := pairNodes_length hasher _ ps hps
      simp only [List.length_cons] at hlen hlen2
      have hpne : ps ≠ [] := by
        intro h0
        rw [h0] at hlen2
        simp only [List.length_nil] at hlen2
        omega
      exact ih (k + 1) ls ps hl2 hpne (by omega)

theorem LevelOK_leaves (hasher : Hasher) :
    ∀ (ls : List Leaf), (∀ l ∈ ls, l.hashFunc = some hasher) →
      LevelOK hasher 0 ls (ls.map node.Leaf)
  | [], _ => LevelOK.nil
  | [l], h => LevelOK.last _ _ (Shape.leaf l (h l (by simp)))
  | l :: l' :: rest, h => by
    have ih := LevelOK_leaves hasher (l' :: rest) (fun x hx => h x (by simp [hx]))
    exact LevelOK.cons [l] (l' :: rest) (node.Leaf l) _ rfl
      (Shape.leaf l (h l (by simp))) (by simp) ih

theorem setHashFunc_mem (hasher : Hasher) (leaves : List Leaf) :
    ∀ l ∈ leaves.map (Leaf.setHashFunc hasher), l.hashFunc = some hasher := by
  intro l hl
  obtain ⟨l', -, rfl⟩ := List.mem_map.mp hl
  rfl

/-- What `NewMerkleTree` returns when it returns a tree. -/
theorem NewMerkleTree_shape {leaves : List Leaf} {hasher : Hasher} {t : MerkleTree}
    (h : NewMerkleTree leaves hasher = .ok (.ok t)) :
    leaves ≠ [] ∧ t.leaves = leaves.map (Leaf.setHashFunc hasher) ∧ t.hasher = hasher ∧
      ∃ d, Shape hasher d t.leaves t.root ∧ 1 ≤ d ∧ (d = 1 ∨ 2 ^ (d - 1) < t.leaves.length) := by
  unfold NewMerkleTree at h
  by_cases h0 : leaves.length = 0
  · rw [if_pos h0] at h
    cases h
  · rw [if_neg h0] at h
    obtain ⟨root, hroot, h⟩ := Run.bind_eq_ok h
    simp only [Run.pure_eq_ok, Run.ok.injEq, Except.ok.injEq] at h
    subst h
    have hne : leaves ≠ [] := fun hn => h0 (by rw [hn]; rfl)
    refine ⟨hne, rfl, rfl, ?_⟩
    have hl := LevelOK_leaves hasher _ (setHashFunc_mem hasher leaves)
    exact buildRoot_shape hasher _ 0 _ _ root hl (by simpa using hne) (Or.inl rfl) hroot

/-- With a hasher whose outputs are non-empty `NewMerkleTree` returns a tree on
every non-empty list of leaves. -/
theorem NewMerkleTree_total {leaves : List Leaf} {hasher : Hasher}
    (hne : ∀ b, hasher b ≠ []) (hl : leaves ≠ []) :
    ∃ t, NewMerkleTree leaves hasher = .ok (.ok t) := by
  unfold NewMerkleTree
  have h0 : ¬ leaves.length = 0 := fun h => hl (List.length_eq_zero.mp h)
  rw [if_neg h0]
  have hlv := LevelOK_leaves hasher _ (setHashFunc_mem hasher leaves)
  obtain ⟨root, hroot⟩ := buildRoot_total hne
    ((leaves.map (Leaf.setHashFunc hasher)).length + 1) 0 _ _ hlv (by simpa using hl)
    (by simp)
  simp only [hroot]
  exact ⟨_, rfl⟩

/-! ## collectSiblingsHashes on a shaped tree -/

theorem Shape.emptyNonLeafRight_false {hasher : Hasher} {k : Nat} {ls : List Leaf} {n : node}
    (hs : Shape hasher k ls n) :
    collectSiblingsHashes.emptyNonLeafRight n = .ok false := by
  cases k with
  | zero => cases hs; rfl
  | succ k =>
    have hc := hs.hasChildren_succ
    cases hs <;> simp only [newNonLeaf, collectSiblingsHashes.emptyNonLeafRight] at * <;>
      rw [hc] <;> rfl

theorem emptyNonLeafRight_standIn (c : Bytes) :
    collectSiblingsHashes.emptyNonLeafRight (node.nonLeaf .nil .nil c none) = .ok true := rfl

/-- On a shaped tree `collectSiblingsHashes` descends by comparing the offset
with `2 ^ (k - 1)`: it appends the sibling hashes of `sibsOf`, then the hash of
the sibling it was handed. -/
theorem collectSiblingsHashes_eq (hasher : Hasher) {k : Nat} {ls : List Leaf} {n : node}
    (hs : Shape hasher k ls n) :
    ∀ (t : Nat) (sib : node) (acc : List Bytes), t < ls.length →
      (k = 0 → sib.isNil = false) →
      collectSiblingsHashes n sib acc (ls.length : Int) (t : Int)
        = (sibsOf k n t >>= fun below =>
            if sib.isNil then Run.ok (acc ++ below)
            else sib.Hash >>= fun h => Run.ok (acc ++ below ++ [h])) := by
  induction hs with
  | leaf l hf =>
    intro t sib acc _ hsib
    simp only [collectSiblingsHashes, sibsOf, Run.ok_bind, hsib rfl, Bool.false_eq_true,
      if_false, List.append_nil, Run.pure_eq_ok]
  | full k ls₁ ls₂ L R hlen hL hR ihL ihR =>
    intro t sib acc ht _
    have hb2 := hR.length_bounds
    have hp : 2 ^ (k + 1) = 2 ^ k * 2 := by ring
    have hnear : nearestSmallerPowerOf2 ((ls₁ ++ ls₂).length : Int)
        = .ok ((2 ^ k : Nat) : Int) :=
      nearestSmallerPowerOf2_eq k _ (by simp only [List.length_append]; omega)
        (by simp only [List.length_append]; omega)
    simp only [newNonLeaf, collectSiblingsHashes, sibsOf, hnear, Run.ok_bind,
      hR.emptyNonLeafRight_false, Bool.false_eq_true, if_false]
    simp only [List.length_append] at ht
    by_cases hlt : t < 2 ^ k
    · have hge : ((2 ^ k : Nat) : Int) ≥ (t : Int) + 1 := by omega
      rw [if_pos hge, if_pos hlt]
      have ih := ihL t R acc (by omega) (fun _ => hR.not_nil)
      rw [hlen] at ih
      rw [ih, hR.not_nil]
      cases sibsOf k L t <;> simp
      cases R.Hash <;> simp
    · have hge : ¬ ((2 ^ k : Nat) : Int) ≥ (t : Int) + 1 := by omega
      rw [if_neg hge, if_neg hlt]
      have e1 : ((ls₁ ++ ls₂).length : Int) - ((2 ^ k : Nat) : Int) = (ls₂.length : Int) := by
        simp only [List.length_append, hlen]
        push_cast
        ring
      have e2 : (t : Int) - ((2 ^ k : Nat) : Int) = ((t - 2 ^ k : Nat) : Int) := by
        omega
      rw [e1, e2, ihR (t - 2 ^ k) L acc (by omega) (fun _ => hL.not_nil), hL.not_nil]
      cases sibsOf k R (t - 2 ^ k) <;> simp
      cases L.Hash <;> simp
  | selfPair l hf =>
    intro t sib acc ht _
    have ht0 : t = 0 := by simpa using ht
    subst ht0
    have hnear : nearestSmallerPowerOf2 (([l] : List Leaf).length : Int) = .ok 0 := by
      have h1 : nearestSmallerPowerOf2 ((1 : Nat) : Int) = .ok 0 := by decide
      exact h1
    simp only [newNonLeaf, collectSiblingsHashes, sibsOf, hnear, Run.ok_bind]
    have he : collectSiblingsHashes.emptyNonLeafRight (node.Leaf l) = .ok false := rfl
    rw [he]
    simp only [Run.ok_bind, Bool.false_eq_true, if_false]
    have hge : ¬ ((0 : Int) ≥ ((0 : Nat) : Int) + 1) := by omega
    rw [if_neg hge]
    cases (node.Leaf l).Hash <;> simp
  | standIn k ls L c hL hc ih =>
    intro t sib acc ht _
    obtain ⟨p, hp⟩ := nearestSmallerPowerOf2_total (ls.length : Int)
    have hb := hL.length_bounds
    have hlt : t < 2 ^ (k + 1) := by omega
    simp only [newNonLeaf, collectSiblingsHashes, sibsOf, hp, Run.ok_bind,
      emptyNonLeafRight_standIn, if_true, if_pos hlt]
    rw [ih t _ acc ht (fun h => by omega)]
    simp only [node.isNil_nonLeaf, Bool.false_eq_true, if_false]
    cases sibsOf (k + 1) L t <;> simp
    cases (node.nonLeaf node.nil node.nil c none).Hash <;> simp

/-! ## The verification loop and the bit-indexed fold -/

theorem land_shiftRight_eq_zero_iff (t i : Nat) :
    Int.land ((t : Int) >>> i) 1 = 0 ↔ t.testBit i = false := by
  have h1 : ((t : Int) >>> i) = ((t >>> i : Nat) : Int) := rfl
  have h2 : Int.land ((t >>> i : Nat) : Int) 1 = (((t >>> i) &&& 1 : Nat) : Int) := rfl
  rw [h1, h2, Nat.and_one_is_mod, Nat.shiftRight_eq_div_pow, Nat.testBit_to_div_mod]
  constructor
  · intro h
    have : t / 2 ^ i % 2 = 0 := by exact_mod_cast h
    simp [this]
  · intro h
    have : t / 2 ^ i % 2 ≠ 1 := by simpa using h
    have : t / 2 ^ i % 2 = 0 := by omega
    exact_mod_cast this

/-- The loop of `VerifyProof` is the bit-indexed fold of the specification. -/
theorem VerifyProof.loop_eq_foldSiblings (hasher : Hasher) (t : Nat) :
    ∀ (siblings : List Bytes) (i : Nat) (current : Bytes),
      VerifyProof.loop hasher (t : Int) i current siblings
        = foldSiblings hasher t i current siblings
  | [], _, _ => rfl
  | s :: rest, i, current => by
    unfold VerifyProof.loop foldSiblings
    by_cases hb : t.testBit i = false
    · rw [if_pos ((land_shiftRight_eq_zero_iff t i).mpr hb), hb]
      exact VerifyProof.loop_eq_foldSiblings hasher t rest (i + 1) _
    · rw [if_neg (fun h => hb ((land_shiftRight_eq_zero_iff t i).mp h))]
      have hb' : t.testBit i = true := by simpa using hb
      rw [hb']
      exact VerifyProof.loop_eq_foldSiblings hasher t rest (i + 1) _

theorem foldSiblings_append_singleton (hasher : Hasher) (t : Nat) (s : Bytes) :
    ∀ (siblings : List Bytes) (i : Nat) (current : Bytes),
      foldSiblings hasher t i current (siblings ++ [s])
        = if t.testBit (i + siblings.length)
          then hasher (s ++ foldSiblings hasher t i current siblings)
          else hasher (foldSiblings hasher t i current siblings ++ s)
  | [], i, current => by simp [foldSiblings]
  | x :: rest, i, current => by
    have ih := foldSiblings_append_singleton hasher t s rest (i + 1)
      (if t.testBit i then hasher (x ++ current) else hasher (current ++ x))
    have e : i + 1 + rest.length = i + (rest.length + 1) := by omega
    rw [e] at ih
    exact ih

theorem foldSiblings_congr (hasher : Hasher) (t t' : Nat) :
    ∀ (siblings : List Bytes) (i : Nat) (current : Bytes),
      (∀ j, i ≤ j → j < i + siblings.length → t.testBit j = t'.testBit j) →
      foldSiblings hasher t i current siblings = foldSiblings hasher t' i current siblings
  | [], _, _, _ => rfl
  | x :: rest, i, current, h => by
    simp only [foldSiblings]
    rw [h i (le_refl _) (by simp)]
    exact foldSiblings_congr hasher t t' rest (i + 1) _
      (fun j h1 h2 => h j (by omega) (by simp only [List.length_cons]; omega))

/-- On a shaped tree the hash of a node is the bit-indexed fold of the sibling
hashes `sibsOf` lists, started at the hash of the leaf at the offset. -/
theorem Shape.hash_eq_fold {hasher : Hasher} {k : Nat} {ls : List Leaf} {n : node}
    (hs : Shape hasher k ls n) :
    ∀ (t : Nat) (b : List Bytes), t < ls.length → sibsOf k n t = .ok b →
      b.length = k ∧ ∃ l, ls[t]? = some l ∧
        n.Hash = .ok (foldSiblings hasher t 0 (l.hashWith hasher) b) := by
  induction hs with
  | leaf l hf =>
    intro t b ht hb
    have ht0 : t = 0 := by simpa using ht
    subst ht0
    simp only [sibsOf, Run.ok.injEq] at hb
    subst hb
    exact ⟨rfl, l, rfl, Leaf.Hash_eq hf⟩
  | full k ls₁ ls₂ L R hlen hL hR ihL ihR =>
    intro t b ht hb
    simp only [List.length_append] at ht
    have hb2 := hR.length_bounds
    simp only [newNonLeaf, sibsOf] at hb
    by_cases hlt : t < 2 ^ k
    · rw [if_pos hlt] at hb
      obtain ⟨b', hb', hb⟩ := Run.bind_eq_ok hb
      obtain ⟨hR', hRh, hb⟩ := Run.bind_eq_ok hb
      simp only [Run.pure_eq_ok, Run.ok.injEq] at hb
      subst hb
      obtain ⟨hlen', l, hl, hLh⟩ := ihL t b' (by omega) hb'
      refine ⟨by simp [hlen'], l, ?_, ?_⟩
      · rw [List.getElem?_append_left (by omega)]
        exact hl
      · rw [Hash_newNonLeaf, hLh, hRh, foldSiblings_append_singleton, hlen']
        simp only [Run.ok_bind, Nat.zero_add, Nat.testBit_lt_two_pow hlt,
          Bool.false_eq_true, if_false]
    · rw [if_neg hlt] at hb
      obtain ⟨b', hb', hb⟩ := Run.bind_eq_ok hb
      obtain ⟨hL', hLh, hb⟩ := Run.bind_eq_ok hb
      simp only [Run.pure_eq_ok, Run.ok.injEq] at hb
      subst hb
      obtain ⟨hlen', l, hl, hRh⟩ := ihR (t - 2 ^ k) b' (by omega) hb'
      have ht' : t = 2 ^ k + (t - 2 ^ k) := by omega
      have hbit : t.testBit k = true := by
        rw [ht', Nat.testBit_two_pow_add_eq, Nat.testBit_lt_two_pow (by omega)]
        rfl
      refine ⟨by simp [hlen'], l, ?_, ?_⟩
      · rw [List.getElem?_append_right (by omega), hlen]
        exact hl
      · rw [Hash_newNonLeaf, hLh, hRh, foldSiblings_append_singleton, hlen']
        simp only [Run.ok_bind, Nat.zero_add, hbit, if_true]
        rw [foldSiblings_congr hasher t (t - 2 ^ k) b' 0 _ (fun j _ hj => by
          rw [ht', Nat.testBit_two_pow_add_gt (by omega)]
          congr 1
          omega)]
  | selfPair l hf =>
    intro t b ht hb
    have ht0 : t = 0 := by simpa using ht
    subst ht0
    have h1 : (node.Leaf l).Hash = .ok (l.hashWith hasher) := Leaf.Hash_eq hf
    simp only [newNonLeaf, sibsOf, pow_zero, Nat.lt_one_iff, if_true, Run.ok_bind, h1,
      Run.pure_eq_ok, List.nil_append, Run.ok.injEq] at hb
    subst hb
    refine ⟨rfl, l, rfl, ?_⟩
    rw [Hash_newNonLeaf, h1]
    rfl
  | standIn k ls L c hL hc ih =>
    intro t b ht hb
    have hbd := hL.length_bounds
    have hlt : t < 2 ^ (k + 1) := by omega
    simp only [newNonLeaf, sibsOf, if_pos hlt] at hb
    obtain ⟨b', hb', hb⟩ := Run.bind_eq_ok hb
    obtain ⟨hS, hSh, hb⟩ := Run.bind_eq_ok hb
    simp only [Run.pure_eq_ok, Run.ok.injEq] at hb
    subst hb
    obtain ⟨hlen', l, hl, hLh⟩ := ih t b' ht hb'
    have hcS : hS = c := by
      rw [Hash_standIn] at hSh
      split at hSh
      · exact (Run.ok.inj hSh).symm
      · cases hSh
    subst hcS
    have hfold : foldSiblings hasher t 0 (l.hashWith hasher) b' = hS := by
      rw [hc] at hLh
      exact (Run.ok.inj hLh).symm
    refine ⟨by simp [hlen'], l, hl, ?_⟩
    rw [Hash_newNonLeaf, hc, hSh, foldSiblings_append_singleton, hlen']
    simp only [Run.ok_bind, Nat.zero_add, Nat.testBit_lt_two_pow hlt, Bool.false_eq_true,
      if_false, hfold]

/-- When the node has a hash, `sibsOf` returns a list for every offset. -/
theorem Shape.sibsOf_total {hasher : Hasher} {k : Nat} {ls : List Leaf} {n : node}
    (hs : Shape hasher k ls n) :
    ∀ (t : Nat), t < ls.length → (∃ c, n.Hash = .ok c) → ∃ b, sibsOf k n t = .ok b := by
  induction hs with
  | leaf l hf => intro t _ _; exact ⟨[], rfl⟩
  | full k ls₁ ls₂ L R hlen hL hR ihL ihR =>
    intro t ht hc
    obtain ⟨c, hc⟩ := hc
    rw [Hash_newNonLeaf] at hc
    obtain ⟨cl, hcl, hc⟩ := Run.bind_eq_ok hc
    obtain ⟨cr, hcr, -⟩ := Run.bind_eq_ok hc
    simp only [List.length_append] at ht
    simp only [newNonLeaf, sibsOf]
    by_cases hlt : t < 2 ^ k
    · obtain ⟨b, hb⟩ := ihL t (by omega) ⟨cl, hcl⟩
      rw [if_pos hlt, hb, hcr]
      exact ⟨_, rfl⟩
    · obtain ⟨b, hb⟩ := ihR (t - 2 ^ k) (by omega) ⟨cr, hcr⟩
      rw [if_neg hlt, hb, hcl]
      exact ⟨_, rfl⟩
  | selfPair l hf =>
    intro t _ _
    have h1 : (node.Leaf l).Hash = .ok (l.hashWith hasher) := Leaf.Hash_eq hf
    simp only [newNonLeaf, sibsOf, h1]
    split <;> exact ⟨_, rfl⟩
  | standIn k ls L c hL hcL ih =>
    intro t ht hc
    obtain ⟨c', hc⟩ := hc
    rw [Hash_newNonLeaf] at hc
    obtain ⟨cl, hcl, hc⟩ := Run.bind_eq_ok hc
    obtain ⟨cr, hcr, -⟩ := Run.bind_eq_ok hc
    have hbd := hL.length_bounds
    have hlt : t < 2 ^ (k + 1) := by omega
    obtain ⟨b, hb⟩ := ih t ht ⟨cl, hcl⟩
    simp only [newNonLeaf, sibsOf, if_pos hlt, hb, hcr]
    exact ⟨_, rfl⟩

/-! ## Trees: GenerateProof and VerifyProof -/

theorem Shape.leaves_hashFunc {hasher : Hasher} {k : Nat} {ls : List Leaf} {n : node}
    (hs : Shape hasher k ls n) : ∀ l ∈ ls, l.hashFunc = some hasher := by
  induction hs with
  | leaf l hf =>
    intro x hx
    rw [List.mem_singleton.mp hx]; exact hf
  | full k ls₁ ls₂ L R _ _ _ ih1 ih2 =>
    intro x hx
    rcases List.mem_append.mp hx with h | h
    · exact ih1 x h
    · exact ih2 x h
  | selfPair l hf =>
    intro x hx
    rw [List.mem_singleton.mp hx]; exact hf
  | standIn k ls L c _ _ ih => exact ih

theorem MerkleTree.leafHashAt_eq {hasher : Hasher} {mt : MerkleTree} {n : Nat} {l : Leaf}
    (hf : ∀ l ∈ mt.leaves, l.hashFunc = some hasher) (hl : mt.leaves[n]? = some l) :
    mt.leafHashAt (n : Int) = .ok (l.hashWith hasher) := by
  unfold MerkleTree.leafHashAt
  have h0 : ¬ ((n : Int) < 0) := by omega
  rw [if_neg h0]
  simp only [Int.toNat_ofNat, hl]
  exact Leaf.Hash_eq (hf l (List.getElem?_mem hl))

/-- The function `VerifyProof` with its loop written as the bit-indexed fold. -/
theorem MerkleTree.VerifyProof_eq (mt : MerkleTree) (proof : Proof) :
    mt.VerifyProof proof =
      if proof.leafIndex < 0 ∨ proof.leafIndex ≥ mt.leaves.length then
        .ok (some .leafIndexOutOfBound)
      else
        mt.leafHashAt proof.leafIndex >>= fun leafHash =>
          if proof.leafHash ≠ leafHash then .ok (some .leafHashMismatch)
          else mt.root.Hash >>= fun rootHash =>
            if foldSiblings mt.hasher proof.leafIndex.toNat 0 proof.leafHash
                proof.siblingHashes ≠ rootHash
            then .ok (some .wrongProof) else .ok none := by
  unfold MerkleTree.VerifyProof
  by_cases hc : proof.leafIndex < 0 ∨ proof.leafIndex ≥ mt.leaves.length
  · rw [if_pos hc, if_pos hc]
  · rw [if_neg hc, if_neg hc]
    have hnn : 0 ≤ proof.leafIndex := by omega
    have hcast : proof.leafIndex = ((proof.leafIndex.toNat : Nat) : Int) :=
      (Int.toNat_of_nonneg hnn).symm
    have hloop : VerifyProof.loop mt.hasher proof.leafIndex 0 proof.leafHash
        proof.siblingHashes
        = foldSiblings mt.hasher proof.leafIndex.toNat 0 proof.leafHash
            proof.siblingHashes := by
      conv_lhs => rw [hcast]
      exact VerifyProof.loop_eq_foldSiblings _ _ _ _ _
    simp only [hloop]
    rfl

/-- The function `VerifyProof` returns nil exactly when the index is in range, the leaf hash
is the tree's and the fold reaches the root hash. -/
theorem MerkleTree.VerifyProof_ok_iff (mt : MerkleTree) (proof : Proof) :
    mt.VerifyProof proof = .ok none ↔
      (0 ≤ proof.leafIndex ∧ proof.leafIndex < mt.leaves.length ∧
        mt.leafHashAt proof.leafIndex = .ok proof.leafHash ∧
        mt.Hash = .ok (foldSiblings mt.hasher proof.leafIndex.toNat 0 proof.leafHash
          proof.siblingHashes)) := by
  rw [MerkleTree.VerifyProof_eq]
  unfold MerkleTree.Hash
  by_cases hc : proof.leafIndex < 0 ∨ proof.leafIndex ≥ mt.leaves.length
  · rw [if_pos hc]
    constructor
    · intro h; cases h
    · intro h; omega
  · rw [if_neg hc]
    have h0 : 0 ≤ proof.leafIndex := by omega
    have h1 : proof.leafIndex < mt.leaves.length := by omega
    cases hlh : mt.leafHashAt proof.leafIndex with
    | ok lh =>
      simp only [Run.ok_bind]
      by_cases he : proof.leafHash = lh
      · subst he
        simp only [ne_eq, not_true_eq_false, if_false]
        cases hrh : mt.root.Hash with
        | ok rh =>
          simp only [Run.ok_bind]
          by_cases hf : foldSiblings mt.hasher proof.leafIndex.toNat 0 proof.leafHash
              proof.siblingHashes = rh
          · simp [hf, h0, h1]
          · simp only [hf, not_false_eq_true, if_true]
            constructor
            · intro h; cases h
            · intro h
              exact absurd (Run.ok.inj h.2.2.2).symm hf
        | panic => simp
        | outOfFuel => simp
      · simp only [ne_eq, he, not_false_eq_true, if_true]
        constructor
        · intro h; cases h
        · intro h
          exact absurd (Run.ok.inj h.2.2.1).symm he
    | panic => simp
    | outOfFuel => simp

/-- The function `GenerateProof` on a tree whose root is shaped: the siblings are those of
`sibsOf`, the leaf hash is the hash of the leaf at the index. -/
theorem MerkleTree.GenerateProof_eq {hasher : Hasher} {mt : MerkleTree} {d n : Nat} {l : Leaf}
    (hs : Shape hasher d mt.leaves mt.root) (hd : 1 ≤ d) (hl : mt.leaves[n]? = some l) :
    mt.GenerateProof (n : Int)
      = (sibsOf d mt.root n >>= fun b =>
          Run.ok (.ok (NewProof (n : Int) (l.hashWith hasher) b))) := by
  have hn : n < mt.leaves.length := by
    by_contra hcon
    rw [List.getElem?_eq_none (by omega)] at hl
    cases hl
  unfold MerkleTree.GenerateProof
  have hc : ¬ ((n : Int) < 0 ∨ (n : Int) ≥ mt.leaves.length) := by omega
  rw [if_neg hc, collectSiblingsHashes_eq hasher hs n .nil [] hn (fun h => by omega),
    MerkleTree.leafHashAt_eq hs.leaves_hashFunc hl]
  cases sibsOf d mt.root n <;> simp

/-- A proof that `GenerateProof` returns on a shaped tree is accepted. -/
theorem MerkleTree.roundtrip {hasher : Hasher} {mt : MerkleTree} {d n : Nat} {p : Proof}
    (hs : Shape hasher d mt.leaves mt.root) (hd : 1 ≤ d) (hh : mt.hasher = hasher)
    (hn : n < mt.leaves.length) (hp : mt.GenerateProof (n : Int) = .ok (.ok p)) :
    mt.VerifyProof p = .ok none := by
  obtain ⟨l, hl⟩ : ∃ l, mt.leaves[n]? = some l := ⟨mt.leaves[n], List.getElem?_eq_getElem hn⟩
  rw [MerkleTree.GenerateProof_eq hs hd hl] at hp
  obtain ⟨b, hb, hp⟩ := Run.bind_eq_ok hp
  simp only [Run.ok.injEq, Except.ok.injEq] at hp
  subst hp
  obtain ⟨-, l', hl', hroot⟩ := hs.hash_eq_fold n b hn hb
  rw [hl] at hl'
  cases hl'
  rw [MerkleTree.VerifyProof_ok_iff]
  refine ⟨by simp [NewProof], by simp [NewProof, hn], ?_, ?_⟩
  · exact MerkleTree.leafHashAt_eq hs.leaves_hashFunc hl
  · simp only [MerkleTree.Hash, NewProof, Int.toNat_ofNat, hh]
    exact hroot

/-- With a hasher whose outputs are non-empty `GenerateProof` returns a proof for
every index in range of a shaped tree. -/
theorem MerkleTree.GenerateProof_total {hasher : Hasher} (hne : ∀ b, hasher b ≠ [])
    {mt : MerkleTree} {d n : Nat}
    (hs : Shape hasher d mt.leaves mt.root) (hd : 1 ≤ d) (hn : n < mt.leaves.length) :
    ∃ p, mt.GenerateProof (n : Int) = .ok (.ok p) ∧ p.leafIndex = n ∧
      mt.leafHashAt (n : Int) = .ok p.leafHash := by
  obtain ⟨l, hl⟩ : ∃ l, mt.leaves[n]? = some l := ⟨mt.leaves[n], List.getElem?_eq_getElem hn⟩
  obtain ⟨c, hc, -⟩ := hs.hash_ok hne
  obtain ⟨b, hb⟩ := hs.sibsOf_total n hn ⟨c, hc⟩
  refine ⟨NewProof (n : Int) (l.hashWith hasher) b, ?_, rfl, ?_⟩
  · rw [MerkleTree.GenerateProof_eq hs hd hl, hb]
    rfl
  · exact MerkleTree.leafHashAt_eq hs.leaves_hashFunc hl

/-! ## The reference layers -/

theorem refPair_length (hasher : Hasher) :
    ∀ (xs : List Bytes), (refPair hasher xs).length = (xs.length + 1) / 2
  | [] => rfl
  | [_] => by simp [refPair]
  | _ :: _ :: rest => by
    simp only [refPair, List.length_cons, refPair_length hasher rest]
    omega

theorem refPair_append (hasher : Hasher) (ys : List Bytes) :
    ∀ (xs : List Bytes) (m : Nat), xs.length = 2 * m →
      refPair hasher (xs ++ ys) = refPair hasher xs ++ refPair hasher ys
  | [], _, _ => rfl
  | [_], m, h => by
    simp only [List.length_singleton] at h
    omega
  | a :: b :: rest, m, h => by
    simp only [List.length_cons] at h
    have ih := refPair_append hasher ys rest (m - 1) (by omega)
    show refPair hasher (a :: b :: (rest ++ ys)) = _
    simp only [refPair, ih, List.cons_append]

theorem refLayer_length_of_mul (hasher : Hasher) (xs : List Bytes) :
    ∀ (k m : Nat), xs.length = 2 ^ k * m → (refLayer hasher xs k).length = m
  | 0, m, h => by simpa [refLayer] using h
  | k + 1, m, h => by
    have hp : 2 ^ (k + 1) * m = 2 ^ k * (2 * m) := by ring
    have ih := refLayer_length_of_mul hasher xs k (2 * m) (by rw [h, hp])
    simp only [refLayer, refPair_length, ih]
    omega

theorem refLayer_append (hasher : Hasher) (xs ys : List Bytes) :
    ∀ (k m : Nat), xs.length = 2 ^ k * m →
      refLayer hasher (xs ++ ys) k = refLayer hasher xs k ++ refLayer hasher ys k
  | 0, _, _ => rfl
  | k + 1, m, h => by
    have hp : 2 ^ (k + 1) * m = 2 ^ k * (2 * m) := by ring
    have h' : xs.length = 2 ^ k * (2 * m) := by rw [h, hp]
    simp only [refLayer]
    rw [refLayer_append hasher xs ys k (2 * m) h',
      refPair_append hasher _ _ m (refLayer_length_of_mul hasher xs k (2 * m) h')]

theorem refLayer_length_ge (hasher : Hasher) (xs : List Bytes) :
    ∀ (j : Nat), xs.length ≤ (refLayer hasher xs j).length * 2 ^ j
  | 0 => by simp [refLayer]
  | j + 1 => by
    have ih := refLayer_length_ge hasher xs j
    simp only [refLayer, refPair_length]
    have hp : 2 ^ (j + 1) = 2 * 2 ^ j := by ring
    rw [hp, ← Nat.mul_assoc]
    have h2 : (refLayer hasher xs j).length ≤ ((refLayer hasher xs j).length + 1) / 2 * 2 := by
      omega
    calc xs.length ≤ (refLayer hasher xs j).length * 2 ^ j := ih
      _ ≤ (((refLayer hasher xs j).length + 1) / 2 * 2) * 2 ^ j :=
        Nat.mul_le_mul_right _ h2

/-- The hash of a shaped node is the single element of reference layer `k` over
the hashes of the leaves it covers. -/
theorem Shape.refLayer_eq {hasher : Hasher} {k : Nat} {ls : List Leaf} {n : node}
    (hs : Shape hasher k ls n) :
    ∀ (c : Bytes), n.Hash = .ok c →
      refLayer hasher (ls.map (Leaf.hashWith hasher)) k = [c] := by
  induction hs with
  | leaf l hf =>
    intro c hc
    have h1 : (node.Leaf l).Hash = .ok (l.hashWith hasher) := Leaf.Hash_eq hf
    rw [h1] at hc
    cases hc
    rfl
  | full k ls₁ ls₂ L R hlen hL hR ihL ihR =>
    intro c hc
    rw [Hash_newNonLeaf] at hc
    obtain ⟨c1, hc1, hc⟩ := Run.bind_eq_ok hc
    obtain ⟨c2, hc2, hc⟩ := Run.bind_eq_ok hc
    cases hc
    have hlen' : (ls₁.map (Leaf.hashWith hasher)).length = 2 ^ k * 1 := by simp [hlen]
    simp only [refLayer, List.map_append]
    rw [refLayer_append hasher _ _ k 1 hlen', ihL c1 hc1, ihR c2 hc2]
    rfl
  | selfPair l hf =>
    intro c hc
    have h1 : (node.Leaf l).Hash = .ok (l.hashWith hasher) := Leaf.Hash_eq hf
    rw [Hash_newNonLeaf, h1] at hc
    cases hc
    rfl
  | standIn k ls L c₀ hL hc₀ ih =>
    intro c hc
    rw [Hash_newNonLeaf] at hc
    obtain ⟨c1, hc1, hc⟩ := Run.bind_eq_ok hc
    obtain ⟨cS, hS, hc⟩ := Run.bind_eq_ok hc
    cases hc
    have hc1' : c1 = c₀ := by
      rw [hc₀] at hc1
      exact (Run.ok.inj hc1).symm
    subst hc1'
    have hcS : cS = c1 := by
      rw [Hash_standIn] at hS
      split at hS
      · exact (Run.ok.inj hS).symm
      · cases hS
    subst hcS
    have e : refLayer hasher (ls.map (Leaf.hashWith hasher)) (k + 2)
        = refPair hasher (refLayer hasher (ls.map (Leaf.hashWith hasher)) (k + 1)) := rfl
    rw [e, ih cS hc₀]
    rfl

/-- Below the depth of the root every reference layer has more than one
element. -/
theorem refLayer_length_gt (hasher : Hasher) (xs : List Bytes) (j : Nat)
    (h : 2 ^ j < xs.length) : 1 < (refLayer hasher xs j).length := by
  have h1 := refLayer_length_ge hasher xs j
  by_contra hcon
  have h2 : (refLayer hasher xs j).length ≤ 1 := by omega
  have h3 : (refLayer hasher xs j).length * 2 ^ j ≤ 1 * 2 ^ j := Nat.mul_le_mul_right _ h2
  omega

/-- The root hash of a built tree is the first one-element reference layer after
at least one pairing step, over the hashes of the tree's leaves. -/
theorem MerkleTree.root_is_reference {leaves : List Leaf} {hasher : Hasher} {t : MerkleTree}
    {root : Bytes} (ht : NewMerkleTree leaves hasher = .ok (.ok t)) (hr : t.Hash = .ok root) :
    ∃ k, 1 ≤ k ∧ refLayer hasher (leaves.map (Leaf.hashWith hasher)) k = [root] ∧
      ∀ j, 1 ≤ j → j < k →
        (refLayer hasher (leaves.map (Leaf.hashWith hasher)) j).length ≠ 1 := by
  obtain ⟨-, hlv, -, d, hs, hd, hmin⟩ := NewMerkleTree_shape ht
  have hmap : t.leaves.map (Leaf.hashWith hasher) = leaves.map (Leaf.hashWith hasher) := by
    rw [hlv, List.map_map]
    rfl
  have href := hs.refLayer_eq root hr
  rw [hmap] at href
  refine ⟨d, hd, href, ?_⟩
  intro j hj1 hjd
  have hlen : t.leaves.length = (leaves.map (Leaf.hashWith hasher)).length := by
    rw [← hmap, List.length_map]
  rcases hmin with h1 | hbig
  · omega
  · have hpow : 2 ^ j ≤ 2 ^ (d - 1) := Nat.pow_le_pow_right (by norm_num) (by omega)
    have := refLayer_length_gt hasher (leaves.map (Leaf.hashWith hasher)) j (by omega)
    omega

/-! ## Sibling hashes and the reference layers -/

theorem xor_one_even (m : Nat) : (2 * m) ^^^ 1 = 2 * m + 1 := by
  have h1 : 2 * m = Nat.bit false m := by simp [Nat.bit_val]
  have h2 : (1 : Nat) = Nat.bit true 0 := by simp [Nat.bit_val]
  rw [h1]
  conv_lhs => rw [h2]
  rw [Nat.xor_bit]
  simp [Nat.bit_val]

theorem xor_one_odd (m : Nat) : (2 * m + 1) ^^^ 1 = 2 * m := by
  have h1 : 2 * m + 1 = Nat.bit true m := by simp [Nat.bit_val]
  have h2 : (1 : Nat) = Nat.bit true 0 := by simp [Nat.bit_val]
  rw [h1]
  conv_lhs => rw [h2]
  rw [Nat.xor_bit]
  simp [Nat.bit_val]

theorem xor_one_lt_even (q m : Nat) (h : q < 2 * m) : q ^^^ 1 < 2 * m := by
  rcases Nat.even_or_odd' q with ⟨a, rfl | rfl⟩
  · rw [xor_one_even]; omega
  · rw [xor_one_odd]; omega

theorem xor_one_add_even (q m : Nat) : (2 * m + q) ^^^ 1 = 2 * m + (q ^^^ 1) := by
  rcases Nat.even_or_odd' q with ⟨a, rfl | rfl⟩
  · have e : 2 * m + 2 * a = 2 * (m + a) := by ring
    rw [e, xor_one_even, xor_one_even]; omega
  · have e : 2 * m + (2 * a + 1) = 2 * (m + a) + 1 := by ring
    rw [e, xor_one_odd, xor_one_odd]; omega

/-- Below the top of a full left block the reference sibling is found inside the
block. -/
theorem refSibling_append_left (hasher : Hasher) (xs ys : List Bytes) (k i t : Nat)
    (hlen : xs.length = 2 ^ k) (hi : i < k) (ht : t < 2 ^ k) :
    refSibling hasher (xs ++ ys) t i = refSibling hasher xs t i := by
  have hk : 2 ^ k = 2 ^ i * (2 * 2 ^ (k - i - 1)) := by
    rw [← pow_succ', ← pow_add]
    congr 1
    omega
  have hA := refLayer_length_of_mul hasher xs i (2 * 2 ^ (k - i - 1)) (by rw [hlen, hk])
  have hq : t / 2 ^ i < 2 * 2 ^ (k - i - 1) := by
    apply Nat.div_lt_of_lt_mul
    rw [← hk]; exact ht
  have hx := xor_one_lt_even _ _ hq
  unfold refSibling
  rw [refLayer_append hasher xs ys i _ (by rw [hlen, hk]), Nat.shiftRight_eq_div_pow,
    List.getElem?_append_left (by rw [hA]; exact hx),
    List.getElem?_append_left (by rw [hA]; exact hq)]

/-- Below the top of the right block the reference sibling is the one of the
right block at the offset inside it. -/
theorem refSibling_append_right (hasher : Hasher) (xs ys : List Bytes) (k i t : Nat)
    (hlen : xs.length = 2 ^ k) (hi : i < k) :
    refSibling hasher (xs ++ ys) (2 ^ k + t) i = refSibling hasher ys t i := by
  have hk : 2 ^ k = 2 ^ i * (2 * 2 ^ (k - i - 1)) := by
    rw [← pow_succ', ← pow_add]
    congr 1
    omega
  have hA := refLayer_length_of_mul hasher xs i (2 * 2 ^ (k - i - 1)) (by rw [hlen, hk])
  have hq : (2 ^ k + t) / 2 ^ i = 2 * 2 ^ (k - i - 1) + t / 2 ^ i := by
    rw [hk, Nat.mul_add_div (Nat.pos_pow_of_pos i (by norm_num))]
  unfold refSibling
  rw [refLayer_append hasher xs ys i _ (by rw [hlen, hk]), Nat.shiftRight_eq_div_pow,
    Nat.shiftRight_eq_div_pow, hq, xor_one_add_even,
    List.getElem?_append_right (by rw [hA]; exact Nat.le_add_right _ _),
    List.getElem?_append_right (by rw [hA]; exact Nat.le_add_right _ _), hA]
  simp only [Nat.add_sub_cancel_left]

/-- The sibling hashes `sibsOf` lists are the reference siblings of the offset,
layer by layer. -/
theorem Shape.sibs_eq_ref {hasher : Hasher} {k : Nat} {ls : List Leaf} {n : node}
    (hs : Shape hasher k ls n) :
    ∀ (t : Nat) (b : List Bytes) (c : Bytes), t < ls.length → n.Hash = .ok c →
      sibsOf k n t = .ok b →
      ∀ i, i < k → b[i]? = refSibling hasher (ls.map (Leaf.hashWith hasher)) t i := by
  induction hs with
  | leaf l hf => intro t b c _ _ _ i hi; omega
  | full k ls₁ ls₂ L R hlen hL hR ihL ihR =>
    intro t b c ht hc hb i hi
    simp only [List.length_append] at ht
    have hb2 := hR.length_bounds
    rw [Hash_newNonLeaf] at hc
    obtain ⟨c1, hc1, hc⟩ := Run.bind_eq_ok hc
    obtain ⟨c2, hc2, -⟩ := Run.bind_eq_ok hc
    have hlen' : (ls₁.map (Leaf.hashWith hasher)).length = 2 ^ k := by simp [hlen]
    have htop : refLayer hasher ((ls₁ ++ ls₂).map (Leaf.hashWith hasher)) k = [c1, c2] := by
      rw [List.map_append, refLayer_append hasher _ _ k 1 (by rw [hlen']; ring),
        hL.refLayer_eq c1 hc1, hR.refLayer_eq c2 hc2]
      rfl
    simp only [newNonLeaf, sibsOf] at hb
    by_cases hlt : t < 2 ^ k
    · rw [if_pos hlt] at hb
      obtain ⟨b', hb', hb⟩ := Run.bind_eq_ok hb
      obtain ⟨hR', hRh, hb⟩ := Run.bind_eq_ok hb
      simp only [Run.pure_eq_ok, Run.ok.injEq] at hb
      subst hb
      have hbl := (hL.hash_eq_fold t b' (by omega) hb').1
      by_cases hik : i < k
      · rw [List.getElem?_append_left (by omega), List.map_append,
          refSibling_append_left hasher _ _ k i t hlen' hik hlt]
        exact ihL t b' c1 (by omega) hc1 hb' i hik
      · have hik' : i = k := by omega
        subst hik'
        have hRc : hR' = c2 := by
          rw [hc2] at hRh
          exact (Run.ok.inj hRh).symm
        rw [List.getElem?_append_right (by omega), hbl]
        unfold refSibling
        rw [htop, Nat.shiftRight_eq_div_pow, Nat.div_eq_of_lt hlt, hRc, Nat.sub_self]
        rfl
    · rw [if_neg hlt] at hb
      obtain ⟨b', hb', hb⟩ := Run.bind_eq_ok hb
      obtain ⟨hL', hLh, hb⟩ := Run.bind_eq_ok hb
      simp only [Run.pure_eq_ok, Run.ok.injEq] at hb
      subst hb
      have hbl := (hR.hash_eq_fold (t - 2 ^ k) b' (by omega) hb').1
      have ht' : t = 2 ^ k + (t - 2 ^ k) := by omega
      by_cases hik : i < k
      · rw [List.getElem?_append_left (by omega), List.map_append, ht',
          refSibling_append_right hasher _ _ k i _ hlen' hik]
        exact ihR (t - 2 ^ k) b' c2 (by omega) hc2 hb' i hik
      · have hik' : i = k := by omega
        subst hik'
        have hLc : hL' = c1 := by
          rw [hc1] at hLh
          exact (Run.ok.inj hLh).symm
        have hdiv : t / 2 ^ i = 1 := by
          have hp : 2 ^ (i + 1) = 2 ^ i * 2 := by ring
          apply Nat.div_eq_of_lt_le
          · omega
          · omega
        rw [List.getElem?_append_right (by omega), hbl]
        unfold refSibling
        rw [htop, Nat.shiftRight_eq_div_pow, hdiv, hLc, Nat.sub_self]
        rfl
  | selfPair l hf =>
    intro t b c ht _ hb i hi
    have ht0 : t = 0 := by simpa using ht
    have hi0 : i = 0 := by omega
    subst ht0 hi0
    have h1 : (node.Leaf l).Hash = .ok (l.hashWith hasher) := Leaf.Hash_eq hf
    simp only [newNonLeaf, sibsOf, pow_zero, Nat.lt_one_iff, if_true, Run.ok_bind, h1,
      Run.pure_eq_ok, List.nil_append, Run.ok.injEq] at hb
    subst hb
    rfl
  | standIn k ls L c₀ hL hc₀ ih =>
    intro t b c ht hc hb i hi
    have hbd := hL.length_bounds
    have hlt : t < 2 ^ (k + 1) := by omega
    simp only [newNonLeaf, sibsOf, if_pos hlt] at hb
    obtain ⟨b', hb', hb⟩ := Run.bind_eq_ok hb
    obtain ⟨hS, hSh, hb⟩ := Run.bind_eq_ok hb
    simp only [Run.pure_eq_ok, Run.ok.injEq] at hb
    subst hb
    have hbl := (hL.hash_eq_fold t b' ht hb').1
    have hcS : hS = c₀ := by
      rw [Hash_standIn] at hSh
      split at hSh
      · exact (Run.ok.inj hSh).symm
      · cases hSh
    by_cases hik : i < k + 1
    · rw [List.getElem?_append_left (by omega)]
      exact ih t b' c₀ ht hc₀ hb' i hik
    · have hik' : i = k + 1 := by omega
      subst hik'
      rw [List.getElem?_append_right (by omega), hbl]
      unfold refSibling
      rw [hL.refLayer_eq c₀ hc₀, Nat.shiftRight_eq_div_pow, Nat.div_eq_of_lt hlt, hcS,
        Nat.sub_self]
      rfl

/-! ## Every tree of the package is shaped -/

theorem Leaf.setHashFunc_of_eq {hasher : Hasher} {l : merkletree.Leaf}
    (h : l.hashFunc = some hasher) : l.setHashFunc hasher = l := by
  cases l
  simp only [merkletree.Leaf.setHashFunc] at *
  simp [h]

theorem MerkleTree.Append_shape {hasher : Hasher} {t t' : MerkleTree} {A : List Leaf}
    (hf : ∀ l ∈ t.leaves, l.hashFunc = some hasher) (hh : t.hasher = hasher)
    (hne : t.leaves ≠ []) (h : t.Append A = .ok t') :
    t'.leaves = t.leaves ++ A.map (Leaf.setHashFunc hasher) ∧ t'.hasher = hasher ∧
      ∃ d, Shape hasher d t'.leaves t'.root ∧ 1 ≤ d ∧
        (d = 1 ∨ 2 ^ (d - 1) < t'.leaves.length) := by
  unfold MerkleTree.Append at h
  obtain ⟨root, hroot, h⟩ := Run.bind_eq_ok h
  simp only [Run.pure_eq_ok, Run.ok.injEq] at h
  subst h
  subst hh
  refine ⟨rfl, rfl, ?_⟩
  have hall : ∀ l ∈ t.leaves ++ A.map (Leaf.setHashFunc t.hasher),
      l.hashFunc = some t.hasher := by
    intro l hl
    rcases List.mem_append.mp hl with h1 | h1
    · exact hf l h1
    · exact setHashFunc_mem t.hasher A l h1
  have hl := LevelOK_leaves t.hasher _ hall
  exact buildRoot_shape t.hasher _ 0 _ _ root hl (by simp [hne]) (Or.inl rfl) hroot

/-- Every tree has at least one leaf and a root shaped over its leaves at a
minimal depth `d ≥ 1`. -/
theorem IsTree.shape {t : MerkleTree} (ht : IsTree t) :
    t.leaves ≠ [] ∧ ∃ d, Shape t.hasher d t.leaves t.root ∧ 1 ≤ d ∧
      (d = 1 ∨ 2 ^ (d - 1) < t.leaves.length) := by
  induction ht with
  | new leaves hasher t h =>
    obtain ⟨hne, hlv, hh, d, hs, hd, hmin⟩ := NewMerkleTree_shape h
    subst hh
    refine ⟨?_, d, hs, hd, hmin⟩
    rw [hlv]
    simpa using hne
  | append t A t' _ h ih =>
    obtain ⟨hne, d, hs, _, _⟩ := ih
    obtain ⟨hlv, hh, d', hs', hd', hmin'⟩ :=
      MerkleTree.Append_shape hs.leaves_hashFunc rfl hne h
    rw [← hh] at hs'
    refine ⟨?_, d', hs', hd', hmin'⟩
    rw [hlv]
    simp [hne]

/-- The method `Append` returns exactly what `NewMerkleTree` returns on the extended leaf
list. -/
theorem IsTree.append_iff_new {t : MerkleTree} (ht : IsTree t) (A : List Leaf)
    (t' : MerkleTree) :
    t.Append A = .ok t' ↔ NewMerkleTree (t.leaves ++ A) t.hasher = .ok (.ok t') := by
  obtain ⟨hne, d, hs, -, -⟩ := ht.shape
  have hmap : (t.leaves ++ A).map (Leaf.setHashFunc t.hasher)
      = t.leaves ++ A.map (Leaf.setHashFunc t.hasher) := by
    rw [List.map_append]
    congr 1
    conv_rhs => rw [← List.map_id t.leaves]
    exact List.map_congr_left (fun l hl => Leaf.setHashFunc_of_eq (hs.leaves_hashFunc l hl))
  have h0 : ¬ (t.leaves ++ A).length = 0 := by
    intro h
    have := List.length_eq_zero.mp h
    simp [hne] at this
  unfold MerkleTree.Append NewMerkleTree
  rw [if_neg h0]
  simp only [hmap]
  cases buildRoot ((t.leaves ++ A.map (Leaf.setHashFunc t.hasher)).length + 1)
      ((t.leaves ++ A.map (Leaf.setHashFunc t.hasher)).map node.Leaf) t.hasher with
  | ok root =>
    simp only [Run.ok_bind, Run.pure_eq_ok, Run.ok.injEq, Except.ok.injEq]
  | panic => simp
  | outOfFuel => simp

theorem IsTree.leafHashAt_ok {t : MerkleTree} (ht : IsTree t) {n : Nat}
    (hn : n < t.leaves.length) :
    t.leafHashAt (n : Int) = .ok ((t.leaves[n]).hashWith t.hasher) := by
  obtain ⟨-, d, hs, -, -⟩ := ht.shape
  exact MerkleTree.leafHashAt_eq hs.leaves_hashFunc (List.getElem?_eq_getElem hn)

/-! ## Tampering with a sibling hash -/

theorem foldSiblings_ne_of_ne {hasher : Hasher} (hinj : Function.Injective hasher) (t : Nat) :
    ∀ (siblings : List Bytes) (i : Nat) (c c' : Bytes), c ≠ c' →
      foldSiblings hasher t i c siblings ≠ foldSiblings hasher t i c' siblings
  | [], _, _, _, h => h
  | s :: rest, i, c, c', h => by
    simp only [foldSiblings]
    apply foldSiblings_ne_of_ne hinj t rest (i + 1)
    split
    · intro he
      exact h (List.append_cancel_left (hinj he))
    · intro he
      exact h (List.append_cancel_right (hinj he))

/-- With an injective hasher, replacing one sibling hash by a different byte
sequence changes the result of the fold. -/
theorem foldSiblings_set_ne {hasher : Hasher} (hinj : Function.Injective hasher) (t : Nat)
    (s' : Bytes) :
    ∀ (siblings : List Bytes) (j i : Nat) (c : Bytes), j < siblings.length →
      siblings[j]? ≠ some s' →
      foldSiblings hasher t i c (siblings.set j s') ≠ foldSiblings hasher t i c siblings
  | [], _, _, _, hj, _ => by simp at hj
  | s :: rest, 0, i, c, _, hs => by
    have hne : s' ≠ s := by
      intro h
      apply hs
      simp [h]
    simp only [List.set_cons_zero, foldSiblings]
    apply foldSiblings_ne_of_ne hinj t rest (i + 1)
    split
    · intro he
      exact hne (List.append_cancel_right (hinj he))
    · intro he
      exact hne (List.append_cancel_left (hinj he))
  | s :: rest, j + 1, i, c, hj, hs => by
    simp only [List.set_cons_succ, foldSiblings]
    apply foldSiblings_set_ne hinj t s' rest j (i + 1)
    · simpa using hj
    · simpa using hs

/-! ## The recursion budget of buildRoot -/

theorem Leaf.leafHash_ne_outOfFuel (l : merkletree.Leaf) : l.Hash ≠ .outOfFuel := by
  unfold merkletree.Leaf.Hash
  split
  · intro h; cases h
  · split <;> intro h <;> cases h

theorem node.Hash_ne_outOfFuel : ∀ (n : node), n.Hash ≠ .outOfFuel
  | .nil => by intro h; cases h
  | .Leaf l => Leaf.leafHash_ne_outOfFuel l
  | .nonLeaf left right c f => by
    have hl := node.Hash_ne_outOfFuel left
    have hr := node.Hash_ne_outOfFuel right
    simp only [node.Hash]
    split
    · intro h; cases h
    · cases hL : left.Hash with
      | ok lh =>
        cases hR : right.Hash with
        | ok rh => cases f <;> simp
        | panic => simp
        | outOfFuel => exact absurd hR hr
      | panic => simp
      | outOfFuel => exact absurd hL hl

theorem node.hasChildren_ne_outOfFuel (n : node) : n.hasChildren ≠ .outOfFuel := by
  cases n <;> intro h <;> cases h

theorem pairNodes_ne_outOfFuel (hasher : Hasher) :
    ∀ (nodes : List node), pairNodes hasher nodes ≠ .outOfFuel
  | [] => by intro h; cases h
  | [a] => by
    have h1 := node.hasChildren_ne_outOfFuel a
    have h2 := node.Hash_ne_outOfFuel a
    simp only [pairNodes]
    cases hc : a.hasChildren with
    | ok b =>
      cases b with
      | true =>
        simp only [Run.ok_bind, if_true]
        cases hh : a.Hash with
        | ok c => simp
        | panic => simp
        | outOfFuel => exact absurd hh h2
      | false => simp
    | panic => simp
    | outOfFuel => exact absurd hc h1
  | a :: b :: rest => by
    have ih := pairNodes_ne_outOfFuel hasher rest
    simp only [pairNodes]
    cases hp : pairNodes hasher rest with
    | ok ps => simp
    | panic => simp
    | outOfFuel => exact absurd hp ih

/-- On the empty level `buildRoot` exhausts every budget: the Go recursion calls
itself on the empty level again and never returns. -/
theorem buildRoot_nil (hasher : Hasher) : ∀ (fuel : Nat), buildRoot fuel [] hasher = .outOfFuel
  | 0 => rfl
  | fuel + 1 => by
    have ih := buildRoot_nil hasher fuel
    simp only [buildRoot, List.foldl, buildRoot.finish, node.isNil_nil]
    simpa using ih

/-- A result reached within the budget is the result for every larger budget. -/
theorem buildRoot_mono (hasher : Hasher) :
    ∀ (fuel : Nat) (nodes : List node) (r : Run node),
      buildRoot fuel nodes hasher = r → r ≠ .outOfFuel →
      buildRoot (fuel + 1) nodes hasher = r := by
  intro fuel
  induction fuel with
  | zero =>
    intro nodes r h hr
    simp only [buildRoot] at h
    exact absurd h.symm hr
  | succ fuel ih =>
    intro nodes r h hr
    match nodes, h with
    | [], h =>
      rw [buildRoot_nil] at h
      exact absurd h.symm hr
    | [a], h =>
      simp only [buildRoot] at h ⊢
      exact h
    | a :: b :: rest, h =>
      simp only [buildRoot] at h ⊢
      cases hf : buildRoot.finish hasher
          (List.foldl (buildRoot.step hasher) (node.nil, node.nil, []) (a :: b :: rest)) with
      | ok ps =>
        rw [hf] at h
        simp only [Run.ok_bind] at h ⊢
        exact ih ps r h hr
      | panic =>
        rw [hf] at h
        exact h
      | outOfFuel =>
        rw [hf] at h
        exact h

/-- On a level of shaped nodes `buildRoot` never exhausts a budget that is at
least the size of the level, whatever the hasher returns. -/
theorem buildRoot_ne_outOfFuel (hasher : Hasher) :
    ∀ (fuel k : Nat) (ls : List Leaf) (nodes : List node),
      LevelOK hasher k ls nodes → nodes ≠ [] → nodes.length ≤ fuel →
      buildRoot fuel nodes hasher ≠ .outOfFuel := by
  intro fuel
  induction fuel with
  | zero =>
    intro k ls nodes _ hn hlen
    have : nodes.length ≠ 0 := fun h0 => hn (List.length_eq_zero.mp h0)
    omega
  | succ fuel ih =>
    intro k ls nodes hl hn hlen
    match nodes, hl, hn, hlen with
    | [a], hl, _, _ =>
      have h1 := node.hasChildren_ne_outOfFuel a
      simp only [buildRoot]
      cases hc : a.hasChildren with
      | ok b => cases b <;> simp
      | panic => simp
      | outOfFuel => exact absurd hc h1
    | a :: b :: rest, hl, _, hlen =>
      rw [buildRoot_succ_pair hasher fuel a b rest hl.nodes_not_nil]
      cases hps : pairNodes hasher (a :: b :: rest) with
      | ok ps =>
        simp only [Run.ok_bind]
        have hl2 := pairNodes_level hasher k _ ls ps hl hps
        have hlen2 := pairNodes_length hasher _ ps hps
        simp only [List.length_cons] at hlen hlen2
        have hpne : ps ≠ [] := by
          intro h0
          rw [h0] at hlen2
          simp only [List.length_nil] at hlen2
          omega
        exact ih (k + 1) ls ps hl2 hpne (by omega)
      | panic => simp
      | outOfFuel => exact absurd hps (pairNodes_ne_outOfFuel hasher _)

/-- The budget `NewMerkleTree` gives `buildRoot` is never exhausted. -/
theorem NewMerkleTree_ne_outOfFuel (leaves : List Leaf) (hasher : Hasher) :
    NewMerkleTree leaves hasher ≠ .outOfFuel := by
  unfold NewMerkleTree
  by_cases h0 : leaves.length = 0
  · rw [if_pos h0]
    intro h; cases h
  · rw [if_neg h0]
    have hne : leaves ≠ [] := fun hn => h0 (by rw [hn]; rfl)
    have hlv := LevelOK_leaves hasher _ (setHashFunc_mem hasher leaves)
    have hb := buildRoot_ne_outOfFuel hasher
      ((leaves.map (Leaf.setHashFunc hasher)).length + 1) 0 _ _ hlv (by simpa using hne)
      (by simp)
    intro h
    apply hb
    cases hr : buildRoot ((leaves.map (Leaf.setHashFunc hasher)).length + 1)
        ((leaves.map (Leaf.setHashFunc hasher)).map node.Leaf) hasher with
    | ok root =>
      simp only [hr] at h
      cases h
    | panic =>
      simp only [hr] at h
      cases h
    | outOfFuel => rfl

/-! ## Facts about the concrete inputs -/

theorem tagHasher_ne_nil : ∀ b, tagHasher b ≠ [] := by
  intro b h
  cases h

theorem tagHasher_injective : Function.Injective tagHasher := by
  intro a b h
  exact List.tail_eq_of_cons_eq h

theorem leavesUpTo_five_ne_nil : leavesUpTo 5 ≠ [] :=
  List.ne_nil_of_length_pos (by decide)

theorem exampleTree_built : NewMerkleTree (leavesUpTo 5) tagHasher = .ok (.ok exampleTree) :=
  rfl

theorem exampleTree_isTree : IsTree exampleTree :=
  IsTree.new _ _ _ exampleTree_built

theorem exampleTree_generateProof : exampleTree.GenerateProof 4 = .ok (.ok exampleProof) :=
  rfl

/-- A shaped node of depth 1 over a single leaf has a hash, whatever the
hasher returns. -/
theorem Shape.hash_ok_single {hasher : Hasher} {k : Nat} {ls : List Leaf} {n : node}
    (hs : Shape hasher k ls n) (hk : k = 1) (hl : ls.length = 1) : ∃ c, n.Hash = .ok c := by
  cases hs with
  | leaf l hf => omega
  | full k' ls₁ ls₂ L R hlen hL hR =>
    have hb := hR.length_bounds
    have hk' : k' = 0 := by omega
    subst hk'
    simp only [List.length_append, hlen] at hl
    omega
  | selfPair l hf =>
    have h1 : (node.Leaf l).Hash = .ok (l.hashWith hasher) := Leaf.Hash_eq hf
    exact ⟨_, by rw [Hash_newNonLeaf, h1]; rfl⟩
  | standIn k' ls L c hL hc => omega

theorem NewMerkleTree_congr {L₁ L₂ : List Leaf} (hasher : Hasher)
    (h : L₁.map (Leaf.setHashFunc hasher) = L₂.map (Leaf.setHashFunc hasher)) :
    NewMerkleTree L₁ hasher = NewMerkleTree L₂ hasher := by
  have hlen : L₁.length = L₂.length := by
    have := congrArg List.length h
    simpa using this
  unfold NewMerkleTree
  simp only [hlen, h]

/-! ## The claims -/

/-- C1. Round trip: for a non-empty list of leaves, a hasher whose outputs are
non-empty and an index `0 ≤ i < leafCount`, `NewMerkleTree` returns a tree,
`GenerateProof i` returns a proof on it and `VerifyProof` of that proof on the
same tree returns nil. -/
theorem C1_roundtrip (leaves : List Leaf) (hasher : Hasher) (i : Int)
    (hl : leaves ≠ []) (hne : ∀ b, hasher b ≠ []) (h0 : 0 ≤ i) (h1 : i < leaves.length) :
    ∃ t p, NewMerkleTree leaves hasher = .ok (.ok t) ∧
      t.GenerateProof i = .ok (.ok p) ∧ t.VerifyProof p = .ok none := by
  obtain ⟨t, ht⟩ := NewMerkleTree_total hne hl
  obtain ⟨-, hlv, hh, d, hs, hd, -⟩ := NewMerkleTree_shape ht
  obtain ⟨n, rfl⟩ : ∃ n : Nat, i = (n : Int) := ⟨i.toNat, (Int.toNat_of_nonneg h0).symm⟩
  have hn : n < t.leaves.length := by
    rw [hlv, List.length_map]
    omega
  obtain ⟨p, hp, -, -⟩ := MerkleTree.GenerateProof_total hne hs hd hn
  exact ⟨t, p, ht, hp, MerkleTree.roundtrip hs hd hh hn hp⟩

/-- C1 at five leaves, `tagHasher` and index 4 (the unpaired last leaf). -/
theorem C1_roundtrip_witness :
    leavesUpTo 5 ≠ [] ∧ (∀ b, tagHasher b ≠ []) ∧ (0 : Int) ≤ 4 ∧
      (4 : Int) < (leavesUpTo 5).length ∧
      ∃ t p, NewMerkleTree (leavesUpTo 5) tagHasher = .ok (.ok t) ∧
        t.GenerateProof 4 = .ok (.ok p) ∧ t.VerifyProof p = .ok none :=
  ⟨leavesUpTo_five_ne_nil, tagHasher_ne_nil, by decide, by decide,
    C1_roundtrip (leavesUpTo 5) tagHasher 4 leavesUpTo_five_ne_nil tagHasher_ne_nil
      (by decide) (by decide)⟩

/-- C2 as stated fails on a leaf that carries a cached hash: the tree over
`staleLeaf` with `tagHasher` has root hash `[0, 9, 9]`, which is not the
reference root over `layer_0 = [tagHasher content]`. -/
theorem C2_counterexample :
    [staleLeaf] ≠ [] ∧ (∀ b, tagHasher b ≠ []) ∧
      ∃ t root, NewMerkleTree [staleLeaf] tagHasher = .ok (.ok t) ∧ t.Hash = .ok root ∧
        ¬ IsReferenceRoot tagHasher ([staleLeaf].map (fun l => tagHasher l.content)) root := by
  refine ⟨by simp, tagHasher_ne_nil, _, [0, 9, 9], rfl, rfl, ?_⟩
  rintro ⟨k, hk1, hk, hmin⟩
  match k, hk1, hk, hmin with
  | 1, _, hk, _ => exact absurd hk (by decide)
  | k + 2, _, _, hmin => exact hmin 1 (le_refl _) (by omega) (by decide)

/-- C3. For every tree, every index `idx` for which `GenerateProof` returns a
proof and every `k` below the length of that proof, the `k`-th sibling hash
(0-based, leaf to root) is the element of reference layer `k` over the leaf
hashes at position `(idx >> k) XOR 1` when that position exists in layer `k`,
and the element at position `idx >> k` otherwise. In particular the proof has
a first sibling, which is the hash of the adjacent leaf, or the leaf's own hash
when it is the unpaired last leaf. -/
theorem C3_siblings_are_reference (t : MerkleTree) (ht : IsTree t) (idx : Int) (p : Proof)
    (hp : t.GenerateProof idx = .ok (.ok p)) :
    (∀ k, k < p.siblingHashes.length →
      p.siblingHashes[k]? = refSibling t.hasher t.leafHashes idx.toNat k) ∧
    0 < p.siblingHashes.length ∧
    p.siblingHashes[0]? =
      (match t.leafHashes[idx.toNat ^^^ 1]? with
        | some s => some s
        | none => t.leafHashes[idx.toNat]?) := by
  obtain ⟨-, d, hs, hd, -⟩ := ht.shape
  have hrange : 0 ≤ idx ∧ idx < t.leaves.length := by
    by_contra hcon
    unfold MerkleTree.GenerateProof at hp
    rw [if_pos (by omega)] at hp
    cases hp
  obtain ⟨n, rfl⟩ : ∃ n : Nat, idx = (n : Int) :=
    ⟨idx.toNat, (Int.toNat_of_nonneg hrange.1).symm⟩
  have hn : n < t.leaves.length := by omega
  obtain ⟨l, hl⟩ : ∃ l, t.leaves[n]? = some l := ⟨t.leaves[n], List.getElem?_eq_getElem hn⟩
  have hv := MerkleTree.roundtrip hs hd rfl hn hp
  rw [MerkleTree.GenerateProof_eq hs hd hl] at hp
  obtain ⟨b, hb, hp⟩ := Run.bind_eq_ok hp
  simp only [Run.ok.injEq, Except.ok.injEq] at hp
  subst hp
  obtain ⟨hlen, l', hl', hroot⟩ := hs.hash_eq_fold n b hn hb
  have hall : ∀ k, k < b.length → b[k]? = refSibling t.hasher t.leafHashes n k := by
    intro k hk
    exact hs.sibs_eq_ref n b _ hn hroot hb k (by omega)
  have hpos : 0 < b.length := by omega
  refine ⟨?_, ?_, ?_⟩
  · simpa [NewProof] using hall
  · simpa [NewProof] using hpos
  · have h0 := hall 0 hpos
    simpa [NewProof, refSibling, refLayer] using h0

/-- C3 on the five-leaf example tree at index 4. -/
theorem C3_siblings_are_reference_witness :
    IsTree exampleTree ∧ exampleTree.GenerateProof 4 = .ok (.ok exampleProof) ∧
      (∀ k, k < exampleProof.siblingHashes.length →
        exampleProof.siblingHashes[k]?
          = refSibling exampleTree.hasher exampleTree.leafHashes (4 : Int).toNat k) ∧
      0 < exampleProof.siblingHashes.length ∧
      exampleProof.siblingHashes[0]? =
        (match exampleTree.leafHashes[(4 : Int).toNat ^^^ 1]? with
          | some s => some s
          | none => exampleTree.leafHashes[(4 : Int).toNat]?) :=
  ⟨exampleTree_isTree, exampleTree_generateProof,
    C3_siblings_are_reference exampleTree exampleTree_isTree 4 exampleProof
      exampleTree_generateProof⟩

/-- C5. Tamper sensitivity: on a tree whose hasher is injective, replacing any
one sibling hash of a proof returned by `GenerateProof` by a different byte
sequence (in particular one of the same length that differs in a single byte)
makes `VerifyProof` return `wrongProof`. -/
theorem C5_tamper_is_wrongProof (t : MerkleTree) (ht : IsTree t)
    (hinj : Function.Injective t.hasher) (idx : Int) (p : Proof)
    (hp : t.GenerateProof idx = .ok (.ok p)) (j : Nat) (s' : Bytes)
    (hj : j < p.siblingHashes.length) (hs' : p.siblingHashes[j]? ≠ some s') :
    t.VerifyProof { p with siblingHashes := p.siblingHashes.set j s' }
      = .ok (some .wrongProof) := by
  obtain ⟨-, d, hs, hd, -⟩ := ht.shape
  have hrange : 0 ≤ idx ∧ idx < t.leaves.length := by
    by_contra hcon
    unfold MerkleTree.GenerateProof at hp
    rw [if_pos (by omega)] at hp
    cases hp
  obtain ⟨n, rfl⟩ : ∃ n : Nat, idx = (n : Int) :=
    ⟨idx.toNat, (Int.toNat_of_nonneg hrange.1).symm⟩
  have hn : n < t.leaves.length := by omega
  have hv := MerkleTree.roundtrip hs hd rfl hn hp
  obtain ⟨h0, h1, hleaf, hroot⟩ := (MerkleTree.VerifyProof_ok_iff t p).mp hv
  rw [MerkleTree.VerifyProof_eq]
  have hc : ¬ (p.leafIndex < 0 ∨ p.leafIndex ≥ t.leaves.length) := by omega
  simp only [if_neg hc, hleaf, Run.ok_bind, ne_eq, not_true_eq_false, if_false]
  unfold MerkleTree.Hash at hroot
  rw [hroot]
  simp only [Run.ok_bind]
  rw [if_pos (foldSiblings_set_ne hinj _ s' _ j 0 _ hj hs')]

/-- C5 on the five-leaf example tree: the second sibling of the proof for index 4
with its last byte changed from 4 to 5. -/
theorem C5_tamper_is_wrongProof_witness :
    IsTree exampleTree ∧ Function.Injective exampleTree.hasher ∧
      exampleTree.GenerateProof 4 = .ok (.ok exampleProof) ∧
      1 < exampleProof.siblingHashes.length ∧
      exampleProof.siblingHashes[1]? ≠ some [0, 0, 4, 0, 5] ∧
      exampleTree.VerifyProof
          { exampleProof with
            siblingHashes := exampleProof.siblingHashes.set 1 [0, 0, 4, 0, 5] }
        = .ok (some .wrongProof) :=
  ⟨exampleTree_isTree, tagHasher_injective, exampleTree_generateProof, by decide, by decide,
    C5_tamper_is_wrongProof exampleTree exampleTree_isTree tagHasher_injective 4 exampleProof
      exampleTree_generateProof 1 [0, 0, 4, 0, 5] (by decide) (by decide)⟩

/-- C6. Leaf mismatch takes precedence over proof mismatch: for every tree and
every proof whose index is in `[0, leafCount)` and whose leaf hash is not the
tree's hash of the leaf at that index, `VerifyProof` returns
`leafHashMismatch`, whatever the sibling list contains. -/
theorem C6_leafHashMismatch_first (t : MerkleTree) (ht : IsTree t) (p : Proof)
    (h0 : 0 ≤ p.leafIndex) (h1 : p.leafIndex < t.leaves.length)
    (hd : t.leafHashAt p.leafIndex ≠ .ok p.leafHash) :
    t.VerifyProof p = .ok (some .leafHashMismatch) := by
  have hcast : p.leafIndex = ((p.leafIndex.toNat : Nat) : Int) :=
    (Int.toNat_of_nonneg h0).symm
  have hn : p.leafIndex.toNat < t.leaves.length := by omega
  have hl := ht.leafHashAt_ok hn
  rw [← hcast] at hl
  rw [MerkleTree.VerifyProof_eq]
  have hc : ¬ (p.leafIndex < 0 ∨ p.leafIndex ≥ t.leaves.length) := by omega
  rw [if_neg hc, hl]
  simp only [Run.ok_bind]
  rw [if_pos]
  intro he
  apply hd
  rw [hl, he]

/-- C6 on the five-leaf example tree: a wrong leaf hash for index 0, with a
sibling list whose fold does not reach the root either. -/
theorem C6_leafHashMismatch_first_witness :
    IsTree exampleTree ∧ (0 : Int) ≤ (NewProof 0 [7] [[1], [2]]).leafIndex ∧
      (NewProof 0 [7] [[1], [2]]).leafIndex < exampleTree.leaves.length ∧
      exampleTree.leafHashAt (NewProof 0 [7] [[1], [2]]).leafIndex
        ≠ .ok (NewProof 0 [7] [[1], [2]]).leafHash ∧
      exampleTree.VerifyProof (NewProof 0 [7] [[1], [2]]) = .ok (some .leafHashMismatch) :=
  ⟨exampleTree_isTree, by decide, by decide, by decide,
    C6_leafHashMismatch_first exampleTree exampleTree_isTree (NewProof 0 [7] [[1], [2]])
      (by decide) (by decide) (by decide)⟩

/-- C7 as stated fails for a hasher with empty output: on the tree over five
leaves built with `emptyHasher` the index 0 is in range, and `GenerateProof 0`
panics (a stand-in with an empty cached hash is asked for its hash) instead of
returning a proof. -/
theorem C7_counterexample :
    ∃ t, NewMerkleTree (leavesUpTo 5) emptyHasher = .ok (.ok t) ∧
      (0 : Int) ≤ 0 ∧ (0 : Int) < t.leaves.length ∧ t.GenerateProof 0 = .panic :=
  ⟨_, rfl, by decide, by decide, rfl⟩

/-- C7, amended. On every tree `GenerateProof idx` returns `leafIndexOutOfBound`
(and no proof) if and only if `idx < 0` or `idx ≥ leafCount`; when the hasher of
the tree has non-empty outputs, it returns for every `idx` in `[0, leafCount)` a
proof whose `leafIndex` is `idx` and whose `leafHash` is the hash of
`leaves[idx]`; on a single-leaf tree index 1 is rejected and index 0 is accepted
(for every hasher). -/
theorem C7_generateProof_bounds (t : MerkleTree) (ht : IsTree t) :
    (∀ idx : Int, t.GenerateProof idx = .ok (.error .leafIndexOutOfBound) ↔
      (idx < 0 ∨ idx ≥ t.leaves.length)) ∧
    ((∀ b, t.hasher b ≠ []) → ∀ idx : Int, 0 ≤ idx → idx < t.leaves.length →
      ∃ p, t.GenerateProof idx = .ok (.ok p) ∧ p.leafIndex = idx ∧
        t.leafHashAt idx = .ok p.leafHash) ∧
    (t.leaves.length = 1 →
      t.GenerateProof 1 = .ok (.error .leafIndexOutOfBound) ∧
      ∃ p, t.GenerateProof 0 = .ok (.ok p) ∧ p.leafIndex = 0 ∧
        t.leafHashAt 0 = .ok p.leafHash) := by
  obtain ⟨-, d, hs, hd, hmin⟩ := ht.shape
  refine ⟨?_, ?_, ?_⟩
  · intro idx
    constructor
    · intro h
      by_contra hcon
      obtain ⟨n, rfl⟩ : ∃ n : Nat, idx = (n : Int) := ⟨idx.toNat, by omega⟩
      have hn : n < t.leaves.length := by omega
      rw [MerkleTree.GenerateProof_eq hs hd (List.getElem?_eq_getElem hn)] at h
      obtain ⟨b, -, h⟩ := Run.bind_eq_ok h
      cases h
    · intro h
      unfold MerkleTree.GenerateProof
      rw [if_pos h]
  · intro hne idx h0 h1
    obtain ⟨n, rfl⟩ : ∃ n : Nat, idx = (n : Int) := ⟨idx.toNat, by omega⟩
    exact MerkleTree.GenerateProof_total hne hs hd (by omega)
  · intro hone
    refine ⟨?_, ?_⟩
    · unfold MerkleTree.GenerateProof
      rw [if_pos (by omega)]
    · have hd1 : d = 1 := by
        rcases hmin with h | h
        · exact h
        · have := Nat.one_le_two_pow (n := d - 1)
          omega
      have hn : 0 < t.leaves.length := by omega
      obtain ⟨c, hc⟩ := hs.hash_ok_single hd1 hone
      obtain ⟨b, hb⟩ := hs.sibsOf_total 0 hn ⟨c, hc⟩
      have hl : t.leaves[0]? = some t.leaves[0] := List.getElem?_eq_getElem hn
      have hg := MerkleTree.GenerateProof_eq hs hd hl
      have hlh := MerkleTree.leafHashAt_eq hs.leaves_hashFunc hl
      rw [hb] at hg
      exact ⟨_, hg, rfl, hlh⟩

/-- C7 (amended) on the five-leaf example tree, whose hasher has non-empty
outputs, at index 4. -/
theorem C7_generateProof_bounds_witness :
    IsTree exampleTree ∧ (∀ b, exampleTree.hasher b ≠ []) ∧
      (exampleTree.GenerateProof 5 = .ok (.error .leafIndexOutOfBound) ↔
        ((5 : Int) < 0 ∨ (5 : Int) ≥ exampleTree.leaves.length)) ∧
      ∃ p, exampleTree.GenerateProof 4 = .ok (.ok p) ∧ p.leafIndex = 4 ∧
        exampleTree.leafHashAt 4 = .ok p.leafHash :=
  ⟨exampleTree_isTree, tagHasher_ne_nil,
    (C7_generateProof_bounds exampleTree exampleTree_isTree).1 5,
    (C7_generateProof_bounds exampleTree exampleTree_isTree).2.1 tagHasher_ne_nil 4
      (by decide) (by decide)⟩

/-- C8. For every tree and every proof whose `leafIndex` is negative or at least
`leafCount`, `VerifyProof` returns `leafIndexOutOfBound`, whatever the proof's
leaf hash and sibling list are; it returns (no leaf is indexed before the
check, which would panic). -/
theorem C8_verifyProof_index_out_of_range (mt : MerkleTree) (p : Proof)
    (h : p.leafIndex < 0 ∨ p.leafIndex ≥ mt.leaves.length) :
    mt.VerifyProof p = .ok (some .leafIndexOutOfBound) := by
  unfold MerkleTree.VerifyProof
  rw [if_pos h]

/-- C8 on the five-leaf example tree with the proof of the test suite, index 100
and no hashes. -/
theorem C8_verifyProof_index_out_of_range_witness :
    ((NewProof 100 [] []).leafIndex < 0 ∨
        (NewProof 100 [] []).leafIndex ≥ exampleTree.leaves.length) ∧
      exampleTree.VerifyProof (NewProof 100 [] []) = .ok (some .leafIndexOutOfBound) :=
  ⟨by decide, C8_verifyProof_index_out_of_range exampleTree (NewProof 100 [] []) (by decide)⟩

/-- C9 as stated fails for a hasher with empty output: on nine leaves
`NewMerkleTree` with `emptyHasher` panics (building the third level asks a
stand-in with an empty cached hash for its hash) and returns no tree. -/
theorem C9_counterexample :
    leavesUpTo 9 ≠ [] ∧ NewMerkleTree (leavesUpTo 9) emptyHasher = .panic :=
  ⟨List.ne_nil_of_length_pos (by decide), rfl⟩

/-- C9, amended. `NewMerkleTree leaves hasher` returns `emptyTree` (and no tree)
if and only if `leaves` is empty; a tree it returns has as leaf sequence the
input list in the same order (each leaf with `hashFunc` set to the hasher), so
it has at least one leaf; and for every non-empty list and every hasher whose
outputs are non-empty it returns a tree. -/
theorem C9_newMerkleTree_empty_input (leaves : List Leaf) (hasher : Hasher) :
    (NewMerkleTree leaves hasher = .ok (.error .emptyTree) ↔ leaves = []) ∧
    (∀ t, NewMerkleTree leaves hasher = .ok (.ok t) →
      t.leaves = leaves.map (Leaf.setHashFunc hasher) ∧
      t.leaves.map (fun l => l.content) = leaves.map (fun l => l.content) ∧
      1 ≤ t.leaves.length) ∧
    ((∀ b, hasher b ≠ []) → leaves ≠ [] → ∃ t, NewMerkleTree leaves hasher = .ok (.ok t)) := by
  refine ⟨?_, ?_, ?_⟩
  · constructor
    · intro h
      by_contra hne
      have h0 : ¬ leaves.length = 0 := fun h => hne (List.length_eq_zero.mp h)
      unfold NewMerkleTree at h
      rw [if_neg h0] at h
      obtain ⟨root, -, h⟩ := Run.bind_eq_ok h
      cases h
    · intro h
      subst h
      rfl
  · intro t ht
    obtain ⟨hne, hlv, -, -⟩ := NewMerkleTree_shape ht
    refine ⟨hlv, ?_, ?_⟩
    · rw [hlv, List.map_map]
      rfl
    · rw [hlv, List.length_map]
      exact List.length_pos.mpr hne
  · intro hne hl
    exact NewMerkleTree_total hne hl

/-- C9 (amended) at five leaves and `tagHasher`. -/
theorem C9_newMerkleTree_empty_input_witness :
    (∀ b, tagHasher b ≠ []) ∧ leavesUpTo 5 ≠ [] ∧
      ∃ t, NewMerkleTree (leavesUpTo 5) tagHasher = .ok (.ok t) :=
  ⟨tagHasher_ne_nil, leavesUpTo_five_ne_nil,
    (C9_newMerkleTree_empty_input (leavesUpTo 5) tagHasher).2.2 tagHasher_ne_nil
      leavesUpTo_five_ne_nil⟩

/-- C10. `Append` is equivalent to rebuilding: for every tree with leaf list `L`
and hasher `h` and every list `A` of new leaves, `Append A` returns a tree
exactly when `NewMerkleTree (L ++ A) h` does, and it is the same tree: the root
hashes are equal and `GenerateProof` and `VerifyProof` behave alike. The same
holds for the list `L₀` the tree was built from by `NewMerkleTree`. -/
theorem C10_append_is_rebuild (t : MerkleTree) (ht : IsTree t) (A : List Leaf) :
    (∀ t', t.Append A = .ok t' ↔ NewMerkleTree (t.leaves ++ A) t.hasher = .ok (.ok t')) ∧
    (∀ t' fresh, t.Append A = .ok t' →
      NewMerkleTree (t.leaves ++ A) t.hasher = .ok (.ok fresh) →
      t'.Hash = fresh.Hash ∧ (∀ idx, t'.GenerateProof idx = fresh.GenerateProof idx) ∧
        ∀ p, t'.VerifyProof p = fresh.VerifyProof p) ∧
    (∀ L₀ h t', NewMerkleTree L₀ h = .ok (.ok t) →
      (t.Append A = .ok t' ↔ NewMerkleTree (L₀ ++ A) h = .ok (.ok t'))) := by
  refine ⟨fun t' => ht.append_iff_new A t', ?_, ?_⟩
  · intro t' fresh h1 h2
    rw [(ht.append_iff_new A t').mp h1] at h2
    simp only [Run.ok.injEq, Except.ok.injEq] at h2
    subst h2
    exact ⟨rfl, fun _ => rfl, fun _ => rfl⟩
  · intro L₀ h t' hnew
    obtain ⟨-, hlv, hh, -⟩ := NewMerkleTree_shape hnew
    rw [ht.append_iff_new A t', hh]
    have hcongr : NewMerkleTree (t.leaves ++ A) h = NewMerkleTree (L₀ ++ A) h := by
      apply NewMerkleTree_congr
      rw [hlv, List.map_append, List.map_append, List.map_map]
      congr 1
    rw [hcongr]

/-- C10 on the five-leaf example tree with one appended leaf. -/
theorem C10_append_is_rebuild_witness :
    IsTree exampleTree ∧
      (∀ t', exampleTree.Append [NewLeaf [7]] = .ok t' ↔
        NewMerkleTree (exampleTree.leaves ++ [NewLeaf [7]]) exampleTree.hasher
          = .ok (.ok t')) :=
  ⟨exampleTree_isTree, (C10_append_is_rebuild exampleTree exampleTree_isTree [NewLeaf [7]]).1⟩

/-! ## Append: outcome and frame -/

/-- On every tree `Append` has the outcome of `NewMerkleTree` on the extended
leaf list, panics included. -/
theorem IsTree.append_outcome {t : MerkleTree} (ht : IsTree t) (A : List Leaf) :
    (t.Append A >>= fun t' => Run.ok (Except.ok t'))
      = NewMerkleTree (t.leaves ++ A) t.hasher := by
  obtain ⟨hne, d, hs, -, -⟩ := ht.shape
  have hmap : (t.leaves ++ A).map (Leaf.setHashFunc t.hasher)
      = t.leaves ++ A.map (Leaf.setHashFunc t.hasher) := by
    rw [List.map_append]
    congr 1
    conv_rhs => rw [← List.map_id t.leaves]
    exact List.map_congr_left (fun l hl => Leaf.setHashFunc_of_eq (hs.leaves_hashFunc l hl))
  have h0 : ¬ (t.leaves ++ A).length = 0 := by
    intro h
    have := List.length_eq_zero.mp h
    simp [hne] at this
  unfold MerkleTree.Append NewMerkleTree
  rw [if_neg h0]
  simp only [hmap]
  cases buildRoot ((t.leaves ++ A.map (Leaf.setHashFunc t.hasher)).length + 1)
      ((t.leaves ++ A.map (Leaf.setHashFunc t.hasher)).map node.Leaf) t.hasher with
  | ok root => rfl
  | panic => rfl
  | outOfFuel => rfl

theorem IsTree.append_ne_outOfFuel {t : MerkleTree} (ht : IsTree t) (A : List Leaf) :
    t.Append A ≠ .outOfFuel := by
  intro h
  have ho := ht.append_outcome A
  rw [h] at ho
  exact NewMerkleTree_ne_outOfFuel _ _ ho.symm

theorem IsTree.append_total {t : MerkleTree} (ht : IsTree t) (hne : ∀ b, t.hasher b ≠ [])
    (A : List Leaf) : ∃ t', t.Append A = .ok t' := by
  have hl : t.leaves ++ A ≠ [] := by
    have := ht.shape.1
    simp [this]
  obtain ⟨t', ht'⟩ := NewMerkleTree_total hne hl
  exact ⟨t', (ht.append_iff_new A t').mpr ht'⟩

theorem IsTree.append_frame {t t' : MerkleTree} (ht : IsTree t) {A : List Leaf}
    (h : t.Append A = .ok t') :
    t'.leaves = t.leaves ++ A.map (Leaf.setHashFunc t.hasher) ∧ t'.hasher = t.hasher := by
  obtain ⟨hne, d, hs, -, -⟩ := ht.shape
  obtain ⟨h1, h2, -⟩ := MerkleTree.Append_shape hs.leaves_hashFunc rfl hne h
  exact ⟨h1, h2⟩

/-- C11. `Append` extends the leaf sequence at the end only: for every tree with
leaf list `L` and every list `A`, the tree `Append A` leaves behind has the leaf
list `L` followed by the leaves of `A` in order (each with `hashFunc` set), so
its leaf count is `len L + len A`, every earlier leaf keeps its index, the
contents are those of `L ++ A`, and the hasher is unchanged. `Append` always
ends, and it returns when the hasher has non-empty outputs. -/
theorem C11_append_extends_leaves (t : MerkleTree) (ht : IsTree t) (A : List Leaf) :
    (∀ t', t.Append A = .ok t' →
      t'.leaves = t.leaves ++ A.map (Leaf.setHashFunc t.hasher) ∧
      t'.leaves.length = t.leaves.length + A.length ∧
      (∀ i, i < t.leaves.length → t'.leaves[i]? = t.leaves[i]?) ∧
      t'.leaves.map (fun l => l.content) = (t.leaves ++ A).map (fun l => l.content) ∧
      t'.hasher = t.hasher) ∧
    t.Append A ≠ .outOfFuel ∧
    ((∀ b, t.hasher b ≠ []) → ∃ t', t.Append A = .ok t') := by
  refine ⟨?_, ht.append_ne_outOfFuel A, fun hne => ht.append_total hne A⟩
  intro t' h
  obtain ⟨hl, hh⟩ := ht.append_frame h
  refine ⟨hl, ?_, ?_, ?_, hh⟩
  · rw [hl, List.length_append, List.length_map]
  · intro i hi
    rw [hl, List.getElem?_append_left hi]
  · rw [hl, List.map_append, List.map_append, List.map_map]
    rfl

/-- C11 on the five-leaf example tree with two appended leaves. -/
theorem C11_append_extends_leaves_witness :
    IsTree exampleTree ∧ (∀ b, exampleTree.hasher b ≠ []) ∧
      ∃ t', exampleTree.Append [NewLeaf [7], NewLeaf [8]] = .ok t' ∧
        t'.leaves.length = exampleTree.leaves.length + 2 ∧
        t'.hasher = exampleTree.hasher := by
  have h := C11_append_extends_leaves exampleTree exampleTree_isTree
    [NewLeaf [7], NewLeaf [8]]
  obtain ⟨t', ht'⟩ := h.2.2 tagHasher_ne_nil
  obtain ⟨-, hlen, -, -, hh⟩ := h.1 t' ht'
  exact ⟨exampleTree_isTree, tagHasher_ne_nil, t', ht', hlen, hh⟩

/-! ## The root hash after appending a copy of the unpaired last leaf -/

theorem refPair_append_last (hasher : Hasher) (a : Bytes) :
    ∀ (xs : List Bytes), xs.length % 2 = 1 → xs.getLast? = some a →
      refPair hasher (xs ++ [a]) = refPair hasher xs
  | [], h, _ => by simp at h
  | [x], _, hl => by
    have hx : x = a := by simpa using hl
    subst hx
    rfl
  | x :: y :: rest, h, hl => by
    have hr : rest.length % 2 = 1 := by
      simp only [List.length_cons] at h
      omega
    have hne : rest ≠ [] := by
      intro h0
      rw [h0] at hr
      simp at hr
    have ih := refPair_append_last hasher a rest hr (by
      cases rest with
      | nil => exact absurd rfl hne
      | cons z zs =>
        simpa [List.getLast?_cons_cons] using hl)
    show refPair hasher (x :: y :: (rest ++ [a])) = _
    simp only [refPair, ih]

theorem refLayer_append_last (hasher : Hasher) (a : Bytes) (xs : List Bytes)
    (h : xs.length % 2 = 1) (hl : xs.getLast? = some a) :
    ∀ (k : Nat), refLayer hasher (xs ++ [a]) (k + 1) = refLayer hasher xs (k + 1)
  | 0 => by
    simp only [refLayer]
    exact refPair_append_last hasher a xs h hl
  | k + 1 => by
    have ih := refLayer_append_last hasher a xs h hl k
    show refPair hasher (refLayer hasher (xs ++ [a]) (k + 1))
      = refPair hasher (refLayer hasher xs (k + 1))
    rw [ih]

theorem IsReferenceRoot.unique {hasher : Hasher} {xs : List Bytes} {r r' : Bytes}
    (h : IsReferenceRoot hasher xs r) (h' : IsReferenceRoot hasher xs r') : r = r' := by
  obtain ⟨k, hk1, hk, hmin⟩ := h
  obtain ⟨k', hk1', hk', hmin'⟩ := h'
  have hkk : k = k' := by
    rcases Nat.lt_trichotomy k k' with hlt | heq | hgt
    · exact absurd (by rw [hk]; rfl) (hmin' k hk1 hlt)
    · exact heq
    · exact absurd (by rw [hk']; rfl) (hmin k' hk1' hgt)
  subst hkk
  rw [hk] at hk'
  simpa using hk'

theorem IsReferenceRoot.of_layers_eq {hasher : Hasher} {xs ys : List Bytes} {r : Bytes}
    (hxy : ∀ k, refLayer hasher xs (k + 1) = refLayer hasher ys (k + 1))
    (h : IsReferenceRoot hasher xs r) : IsReferenceRoot hasher ys r := by
  obtain ⟨k, hk1, hk, hmin⟩ := h
  obtain ⟨k0, rfl⟩ : ∃ k0, k = k0 + 1 := ⟨k - 1, by omega⟩
  refine ⟨k0 + 1, hk1, by rw [← hxy k0]; exact hk, ?_⟩
  intro j hj1 hjk
  obtain ⟨j0, rfl⟩ : ∃ j0, j = j0 + 1 := ⟨j - 1, by omega⟩
  rw [← hxy j0]
  exact hmin (j0 + 1) hj1 hjk

/-- The root hash of every tree is the reference root over its leaf hashes. -/
theorem IsTree.root_reference {t : MerkleTree} (ht : IsTree t) {r : Bytes}
    (hr : t.Hash = .ok r) : IsReferenceRoot t.hasher t.leafHashes r := by
  obtain ⟨-, d, hs, hd, hmin⟩ := ht.shape
  have href := hs.refLayer_eq r hr
  refine ⟨d, hd, href, ?_⟩
  intro j hj1 hjd
  have hlen : t.leafHashes.length = t.leaves.length := by
    simp [MerkleTree.leafHashes]
  rcases hmin with h1 | hbig
  · omega
  · have hpow : 2 ^ j ≤ 2 ^ (d - 1) := Nat.pow_le_pow_right (by norm_num) (by omega)
    have := refLayer_length_gt t.hasher t.leafHashes j (by omega)
    omega

theorem IsTree.tree_hash_ok {t : MerkleTree} (ht : IsTree t) (hne : ∀ b, t.hasher b ≠ []) :
    ∃ r, t.Hash = .ok r := by
  obtain ⟨-, d, hs, -, -⟩ := ht.shape
  obtain ⟨c, hc, -⟩ := hs.hash_ok hne
  exact ⟨c, hc⟩

/-- C12 as stated fails: with the injective `tagHasher`, appending to the tree
over one leaf a second leaf with the same content leaves the root hash
unchanged (the builder pairs a single leaf with itself). -/
theorem C12_counterexample :
    ∃ t t', NewMerkleTree [NewLeaf [1]] tagHasher = .ok (.ok t) ∧
      Function.Injective t.hasher ∧ [NewLeaf [1]] ≠ [] ∧
      t.Append [NewLeaf [1]] = .ok t' ∧ t'.Hash = t.Hash :=
  ⟨_, _, rfl, tagHasher_injective, by simp, rfl, rfl⟩

/-- On values: after `Append` the leaf hashes are those before followed by the
hashes of the appended leaves, the root hash is the reference root over them,
it equals the root hash before exactly when that is a reference root over
them too, and this happens when one leaf with the hash of the last leaf is
appended to an odd number of leaves. -/
theorem IsTree.append_root_facts {t t' : MerkleTree} (ht : IsTree t) {A : List Leaf}
    (happ : t.Append A = .ok t') :
    t'.leafHashes = t.leafHashes ++ A.map (Leaf.hashWith t.hasher) ∧
    (∀ r', t'.Hash = .ok r' → IsReferenceRoot t.hasher t'.leafHashes r') ∧
    (∀ r r', t.Hash = .ok r → t'.Hash = .ok r' →
      (r' = r ↔ IsReferenceRoot t.hasher t'.leafHashes r)) ∧
    (∀ r r', t.Hash = .ok r → t'.Hash = .ok r' → ∀ x last, A = [x] →
      t.leaves.length % 2 = 1 → t.leaves.getLast? = some last →
      x.hashWith t.hasher = last.hashWith t.hasher → r' = r) := by
  have ht' : IsTree t' := IsTree.append t A t' ht happ
  obtain ⟨hl, hh⟩ := ht.append_frame happ
  have hlh : t'.leafHashes = t.leafHashes ++ A.map (Leaf.hashWith t.hasher) := by
    simp only [MerkleTree.leafHashes, hl, hh, List.map_append, List.map_map]
    rfl
  have href' : ∀ r', t'.Hash = .ok r' → IsReferenceRoot t.hasher t'.leafHashes r' := by
    intro r' hr'
    have h := ht'.root_reference hr'
    rw [hh] at h
    exact h
  refine ⟨hlh, href', ?_, ?_⟩
  · intro r r' hr hr'
    constructor
    · intro he
      rw [← he]
      exact href' r' hr'
    · intro h
      exact (href' r' hr').unique h
  · intro r r' hr hr' x last hA hodd hlast hx
    subst hA
    have href := ht.root_reference hr
    have h1 := href' r' hr'
    have hlen : t.leafHashes.length % 2 = 1 := by
      simpa [MerkleTree.leafHashes] using hodd
    have hlast' : t.leafHashes.getLast? = some (last.hashWith t.hasher) := by
      simp [MerkleTree.leafHashes, List.getLast?_map, hlast]
    rw [hlh, List.map_cons, List.map_nil, hx] at h1
    have h2 := IsReferenceRoot.of_layers_eq
      (refLayer_append_last t.hasher _ t.leafHashes hlen hlast') h1
    exact h2.unique href

/-! ## Proof.Equal -/

theorem proofEqual_loop_iff (other : List Bytes) :
    ∀ (xs : List Bytes) (i : Nat), i + xs.length ≤ other.length →
      ∃ b, Proof.Equal.loop other i xs = .ok b ∧
        (b = true ↔ ∀ j, j < xs.length → xs[j]? = other[i + j]?)
  | [], _, _ => ⟨true, rfl, by simp⟩
  | x :: rest, i, h => by
    simp only [List.length_cons] at h
    have hi : i < other.length := by omega
    simp only [Proof.Equal.loop, List.getElem?_eq_getElem hi]
    by_cases hx : x = other[i]
    · obtain ⟨b, hb, hiff⟩ := proofEqual_loop_iff other rest (i + 1) (by omega)
      refine ⟨b, by simp [hx, hb], ?_⟩
      rw [hiff]
      constructor
      · intro hall j hj
        cases j with
        | zero => simp [hx, List.getElem?_eq_getElem hi]
        | succ j =>
          have := hall j (by simpa using hj)
          simp only [List.getElem?_cons_succ]
          rw [this]
          congr 1
          omega
      · intro hall j hj
        have := hall (j + 1) (by simpa using hj)
        simp only [List.getElem?_cons_succ] at this
        rw [this]
        congr 1
        omega
    · refine ⟨false, by simp [hx], ?_⟩
      constructor
      · intro h; cases h
      · intro hall
        have := hall 0 (by simp)
        simp [List.getElem?_eq_getElem hi] at this
        exact absurd this hx

/-- C13. `Proof.Equal` is structural equality: it always returns, and it returns
true if and only if the leaf indices are equal, the leaf hashes are equal, the
sibling lists have the same length and the sibling hashes are equal at every
position, that is, if and only if the two proofs are equal. -/
theorem C13_proof_equal_structural (p q : Proof) :
    (p.Equal q = .ok true ↔
      (p.leafIndex = q.leafIndex ∧ p.leafHash = q.leafHash ∧
        p.siblingHashes.length = q.siblingHashes.length ∧
        ∀ i, i < p.siblingHashes.length → p.siblingHashes[i]? = q.siblingHashes[i]?)) ∧
    (p.Equal q = .ok true ∨ p.Equal q = .ok false) ∧
    (p.Equal q = .ok true ↔ p = q) := by
  have main : (p.Equal q = .ok true ↔
      (p.leafIndex = q.leafIndex ∧ p.leafHash = q.leafHash ∧
        p.siblingHashes.length = q.siblingHashes.length ∧
        ∀ i, i < p.siblingHashes.length → p.siblingHashes[i]? = q.siblingHashes[i]?)) ∧
      (p.Equal q = .ok true ∨ p.Equal q = .ok false) := by
    unfold Proof.Equal
    by_cases h1 : p.leafIndex = q.leafIndex
    · by_cases h2 : p.leafHash = q.leafHash
      · by_cases h3 : p.siblingHashes.length = q.siblingHashes.length
        · obtain ⟨b, hb, hiff⟩ :=
            proofEqual_loop_iff q.siblingHashes p.siblingHashes 0 (by omega)
          simp only [h1, h2, h3, ne_eq, not_true_eq_false, if_false, hb, Run.ok.injEq,
            true_and]
          refine ⟨?_, by cases b <;> simp⟩
          rw [hiff]
          constructor
          · intro hall i hi
            have := hall i (by omega)
            simpa using this
          · intro hall i hi
            have := hall i (by omega)
            simpa using this
        · simp [h1, h2, h3]
      · simp [h1, h2]
    · simp [h1]
  refine ⟨main.1, main.2, ?_⟩
  rw [main.1]
  constructor
  · rintro ⟨h1, h2, h3, h4⟩
    have hs : p.siblingHashes = q.siblingHashes := by
      apply List.ext_getElem?
      intro i
      by_cases hi : i < p.siblingHashes.length
      · exact h4 i hi
      · rw [List.getElem?_eq_none (by omega), List.getElem?_eq_none (by omega)]
    cases p
    cases q
    simp only at h1 h2 hs
    subst h1 h2 hs
    rfl
  · intro h
    subst h
    exact ⟨rfl, rfl, rfl, fun _ _ => rfl⟩

/-! ## nearestSmallerPowerOf2 on every integer -/

theorem exists_pow_bracket (n : Nat) (h : 2 ≤ n) : ∃ k, 2 ^ k < n ∧ n ≤ 2 ^ (k + 1) := by
  refine ⟨Nat.log 2 (n - 1), ?_, ?_⟩
  · have := Nat.pow_log_le_self 2 (x := n - 1) (by omega)
    omega
  · have := Nat.lt_pow_succ_log_self (b := 2) (by norm_num) (n - 1)
    simp only [Nat.succ_eq_add_one] at this
    omega

/-- C18. For every integer `n ≥ 2` the result `p` of `nearestSmallerPowerOf2 n` is
a power of two with `p < n ≤ 2 * p` (so it is `n / 2` when `n` is a power of
two); for `n = 1` and for every `n < 1` the result is 0. -/
theorem C18_nearestSmallerPowerOf2 :
    (∀ n : Int, 2 ≤ n → ∃ k : Nat, nearestSmallerPowerOf2 n = .ok ((2 ^ k : Nat) : Int) ∧
      ((2 ^ k : Nat) : Int) < n ∧ n ≤ 2 * ((2 ^ k : Nat) : Int)) ∧
    (∀ m : Nat, nearestSmallerPowerOf2 ((2 ^ (m + 1) : Nat) : Int)
      = .ok ((2 ^ m : Nat) : Int)) ∧
    nearestSmallerPowerOf2 1 = .ok 0 ∧
    (∀ n : Int, n < 1 → nearestSmallerPowerOf2 n = .ok 0) := by
  refine ⟨?_, ?_, by decide, ?_⟩
  · intro n hn
    obtain ⟨m, rfl⟩ : ∃ m : Nat, n = (m : Int) := ⟨n.toNat, by omega⟩
    have hm : 2 ≤ m := by omega
    obtain ⟨k, hk1, hk2⟩ := exists_pow_bracket m hm
    refine ⟨k, nearestSmallerPowerOf2_eq k m hk1 hk2, by exact_mod_cast hk1, ?_⟩
    have hp : 2 ^ (k + 1) = 2 * 2 ^ k := by ring
    rw [hp] at hk2
    exact_mod_cast hk2
  · intro m
    have hpos := Nat.one_le_two_pow (n := m)
    have hp : 2 ^ (m + 1) = 2 * 2 ^ m := by ring
    exact nearestSmallerPowerOf2_eq m (2 ^ (m + 1)) (by omega) (le_refl _)
  · intro n hn
    unfold nearestSmallerPowerOf2
    rw [if_pos hn]

/-- C18 at `n = 9` (result 8), `n = 8` (result 4) and `n = -3` (result 0). -/
theorem C18_nearestSmallerPowerOf2_witness :
    (2 : Int) ≤ 9 ∧
      (∃ k : Nat, nearestSmallerPowerOf2 9 = .ok ((2 ^ k : Nat) : Int) ∧
        ((2 ^ k : Nat) : Int) < 9 ∧ (9 : Int) ≤ 2 * ((2 ^ k : Nat) : Int)) ∧
      (-3 : Int) < 1 ∧ nearestSmallerPowerOf2 (-3) = .ok 0 :=
  ⟨by decide, C18_nearestSmallerPowerOf2.1 9 (by decide), by decide,
    C18_nearestSmallerPowerOf2.2.2.2 (-3) (by decide)⟩

/-! ## The hash of a leaf in a tree -/

theorem Leaf.hashWith_of_clean {hasher : Hasher} {l : merkletree.Leaf}
    (h : l.cachedHash = [] ∨ l.cachedHash = hasher l.content) :
    l.hashWith hasher = hasher l.content := by
  unfold merkletree.Leaf.hashWith
  rcases h with h | h
  · simp [h]
  · split
    · exact h
    · rfl

theorem Leaf.hashWith_of_cached {hasher : Hasher} {l : merkletree.Leaf}
    (h : l.cachedHash ≠ []) : l.hashWith hasher = l.cachedHash := by
  unfold merkletree.Leaf.hashWith
  rw [if_pos (List.length_pos.mpr h)]

theorem IsTree.leafHashAt_of_map {t : MerkleTree} (ht : IsTree t) {L : List Leaf}
    {hasher : Hasher} (hl : t.leaves = L.map (Leaf.setHashFunc hasher))
    (hh : t.hasher = hasher) {i : Nat} {l : Leaf} (hi : L[i]? = some l) :
    t.leafHashAt (i : Int) = .ok (l.hashWith hasher) := by
  obtain ⟨-, d, hs, -, -⟩ := ht.shape
  have h1 : t.leaves[i]? = some (l.setHashFunc hasher) := by
    rw [hl, List.getElem?_map, hi]
    rfl
  rw [MerkleTree.leafHashAt_eq hs.leaves_hashFunc h1, hh, Leaf.hashWith_setHashFunc]

/-- C15 as stated fails for a leaf that carries a cached hash: in the tree over
`staleLeaf` built with `tagHasher` the leaf's `Hash()` is the cached `[9]`, not
`tagHasher content = [0, 1]`. -/
theorem C15_counterexample :
    ∃ t, NewMerkleTree [staleLeaf] tagHasher = .ok (.ok t) ∧
      t.leafHashAt 0 = .ok [9] ∧
      t.leafHashAt 0 ≠ .ok (tagHasher staleLeaf.content) :=
  ⟨_, rfl, by decide, by decide⟩

/-- C15, amended. After `NewMerkleTree leaves hasher`, and likewise after
`Append`, the `Hash()` of every leaf of the tree is the leaf's cached hash when
the leaf carried a non-empty one when it was passed in, and `hasher(content)`
otherwise; so it is `hasher(content)` for every leaf that carried no cached
hash (fresh from `NewLeaf`) or the cached hash `hasher(content)`. -/
theorem C15_leaf_hash_contract (leaves : List Leaf) (hasher : Hasher) (t : MerkleTree)
    (ht : NewMerkleTree leaves hasher = .ok (.ok t)) :
    (∀ (i : Nat) (l : Leaf), leaves[i]? = some l →
      t.leafHashAt (i : Int) = .ok (l.hashWith hasher)) ∧
    (∀ A t', t.Append A = .ok t' → ∀ (i : Nat) (l : Leaf), (leaves ++ A)[i]? = some l →
      t'.leafHashAt (i : Int) = .ok (l.hashWith hasher)) ∧
    (∀ l : Leaf, (l.cachedHash ≠ [] → l.hashWith hasher = l.cachedHash) ∧
      ((l.cachedHash = [] ∨ l.cachedHash = hasher l.content) →
        l.hashWith hasher = hasher l.content)) := by
  have hT : IsTree t := IsTree.new _ _ _ ht
  obtain ⟨-, hlv, hh, -⟩ := NewMerkleTree_shape ht
  refine ⟨?_, ?_, ?_⟩
  · intro i l hi
    exact hT.leafHashAt_of_map hlv hh hi
  · intro A t' happ i l hi
    have hT' : IsTree t' := IsTree.append t A t' hT happ
    obtain ⟨hl', hh'⟩ := hT.append_frame happ
    have hmap : t'.leaves = (leaves ++ A).map (Leaf.setHashFunc hasher) := by
      rw [hl', hlv, hh, List.map_append]
    exact hT'.leafHashAt_of_map hmap (by rw [hh', hh]) hi
  · intro l
    exact ⟨Leaf.hashWith_of_cached, Leaf.hashWith_of_clean⟩

/-- C15 (amended) on the five leaves of the example tree, which come fresh from
`NewLeaf`: the hash of the leaf at index 4 is `tagHasher [4]`. -/
theorem C15_leaf_hash_contract_witness :
    NewMerkleTree (leavesUpTo 5) tagHasher = .ok (.ok exampleTree) ∧
      (leavesUpTo 5)[4]? = some (NewLeaf [4]) ∧
      exampleTree.leafHashAt 4 = .ok ((NewLeaf [4]).hashWith tagHasher) ∧
      (NewLeaf [4]).hashWith tagHasher = tagHasher (NewLeaf [4]).content :=
  ⟨exampleTree_built, rfl,
    (C15_leaf_hash_contract (leavesUpTo 5) tagHasher exampleTree exampleTree_built).1 4
      (NewLeaf [4]) rfl,
    ((C15_leaf_hash_contract (leavesUpTo 5) tagHasher exampleTree exampleTree_built).2.2
      (NewLeaf [4])).2 (Or.inl rfl)⟩

/-! ## The depth of a tree -/

theorem depth_minimal {n d d' : Nat} (hmin : d = 1 ∨ 2 ^ (d - 1) < n) (hd' : 1 ≤ d')
    (hn : n ≤ 2 ^ d') : d ≤ d' := by
  rcases hmin with h | h
  · omega
  · have hlt : 2 ^ (d - 1) < 2 ^ d' := by omega
    have := (Nat.pow_lt_pow_iff_right (a := 2) (by norm_num)).mp hlt
    omega

/-- The sibling list of every proof `GenerateProof` returns has the depth of the
tree as its length. -/
theorem IsTree.proof_length {t : MerkleTree} (ht : IsTree t) {idx : Int} {p : Proof}
    (hp : t.GenerateProof idx = .ok (.ok p)) :
    ∃ d, 1 ≤ d ∧ t.leaves.length ≤ 2 ^ d ∧ (d = 1 ∨ 2 ^ (d - 1) < t.leaves.length) ∧
      p.siblingHashes.length = d := by
  obtain ⟨-, d, hs, hd, hmin⟩ := ht.shape
  have hrange : 0 ≤ idx ∧ idx < t.leaves.length := by
    by_contra hcon
    unfold MerkleTree.GenerateProof at hp
    rw [if_pos (by omega)] at hp
    cases hp
  obtain ⟨n, rfl⟩ : ∃ n : Nat, idx = (n : Int) :=
    ⟨idx.toNat, (Int.toNat_of_nonneg hrange.1).symm⟩
  have hn : n < t.leaves.length := by omega
  rw [MerkleTree.GenerateProof_eq hs hd (List.getElem?_eq_getElem hn)] at hp
  obtain ⟨b, hb, hp⟩ := Run.bind_eq_ok hp
  simp only [Run.ok.injEq, Except.ok.injEq] at hp
  subst hp
  exact ⟨d, hd, hs.length_bounds.2, hmin, (hs.hash_eq_fold n b hn hb).1⟩

/-- C16. Proof length equals tree depth: for every tree with `n` leaves and every
proof `GenerateProof` returns, the length of the sibling list is the smallest
`d ≥ 1` with `2 ^ d ≥ n` (1 for `n = 1` or `2`, 3 for `n = 7`, 4 for `n = 9`);
all proofs of the same tree have the same length, and when the hasher has
non-empty outputs every index below `n` gets such a proof. -/
theorem C16_proof_length_is_depth (t : MerkleTree) (ht : IsTree t) (idx : Int) (p : Proof)
    (hp : t.GenerateProof idx = .ok (.ok p)) :
    1 ≤ p.siblingHashes.length ∧
    t.leaves.length ≤ 2 ^ p.siblingHashes.length ∧
    (∀ d, 1 ≤ d → t.leaves.length ≤ 2 ^ d → p.siblingHashes.length ≤ d) ∧
    (t.leaves.length = 1 ∨ t.leaves.length = 2 → p.siblingHashes.length = 1) ∧
    (t.leaves.length = 7 → p.siblingHashes.length = 3) ∧
    (t.leaves.length = 9 → p.siblingHashes.length = 4) ∧
    (∀ idx' p', t.GenerateProof idx' = .ok (.ok p') →
      p'.siblingHashes.length = p.siblingHashes.length) ∧
    ((∀ b, t.hasher b ≠ []) → ∀ n : Nat, n < t.leaves.length →
      ∃ p', t.GenerateProof (n : Int) = .ok (.ok p') ∧
        p'.siblingHashes.length = p.siblingHashes.length) := by
  obtain ⟨d, hd, hle, hmin, hlen⟩ := ht.proof_length hp
  rw [hlen]
  have hminimal : ∀ d', 1 ≤ d' → t.leaves.length ≤ 2 ^ d' → d ≤ d' :=
    fun d' h1 h2 => depth_minimal hmin h1 h2
  have hsame : ∀ idx' p', t.GenerateProof idx' = .ok (.ok p') →
      p'.siblingHashes.length = d := by
    intro idx' p' hp'
    obtain ⟨d', hd', hle', hmin', hlen'⟩ := ht.proof_length hp'
    rw [hlen']
    have h1 := depth_minimal hmin hd' hle'
    have h2 := depth_minimal hmin' hd hle
    omega
  refine ⟨hd, hle, hminimal, ?_, ?_, ?_, hsame, ?_⟩
  rotate_right
  · intro hne n hn
    obtain ⟨-, d₀, hs, hd₀, -⟩ := ht.shape
    obtain ⟨p', hp', -, -⟩ := MerkleTree.GenerateProof_total hne hs hd₀ hn
    exact ⟨p', hp', hsame _ _ hp'⟩
  · intro h
    have := hminimal 1 (le_refl _) (by rcases h with h | h <;> rw [h] <;> norm_num)
    omega
  · intro h
    have h1 := hminimal 3 (by norm_num) (by rw [h]; norm_num)
    have h2 : ¬ d ≤ 2 := by
      intro hcon
      have := Nat.pow_le_pow_right (n := 2) (by norm_num) hcon
      omega
    omega
  · intro h
    have h1 := hminimal 4 (by norm_num) (by rw [h]; norm_num)
    have h2 : ¬ d ≤ 3 := by
      intro hcon
      have := Nat.pow_le_pow_right (n := 2) (by norm_num) hcon
      omega
    omega

/-- C16 on the five-leaf example tree: the proof for index 4 has 3 siblings. -/
theorem C16_proof_length_is_depth_witness :
    IsTree exampleTree ∧ exampleTree.GenerateProof 4 = .ok (.ok exampleProof) ∧
      exampleProof.siblingHashes.length = 3 ∧
      1 ≤ exampleProof.siblingHashes.length ∧
      exampleTree.leaves.length ≤ 2 ^ exampleProof.siblingHashes.length ∧
      (∀ d, 1 ≤ d → exampleTree.leaves.length ≤ 2 ^ d →
        exampleProof.siblingHashes.length ≤ d) :=
  ⟨exampleTree_isTree, exampleTree_generateProof, rfl,
    (C16_proof_length_is_depth exampleTree exampleTree_isTree 4 exampleProof
      exampleTree_generateProof).1,
    (C16_proof_length_is_depth exampleTree exampleTree_isTree 4 exampleProof
      exampleTree_generateProof).2.1,
    (C16_proof_length_is_depth exampleTree exampleTree_isTree 4 exampleProof
      exampleTree_generateProof).2.2.1⟩

/-! ## The leaves below the children of the root -/

theorem Shape.leavesOf_full {hasher : Hasher} {k : Nat} {ls : List Leaf} {n : node}
    (hs : Shape hasher k ls n) : ls.length = 2 ^ k → n.leavesOf = ls := by
  induction hs with
  | leaf l _ => intro _; rfl
  | full k ls₁ ls₂ L R hlen hL hR ihL ihR =>
    intro h
    have hp : 2 ^ (k + 1) = 2 ^ k * 2 := by ring
    simp only [List.length_append] at h
    simp only [newNonLeaf, node.leavesOf]
    rw [ihL hlen, ihR (by omega)]
  | selfPair l _ =>
    intro h
    simp at h
  | standIn k ls L c hL _ _ =>
    intro h
    have hb := hL.length_bounds
    have hp : 2 ^ (k + 2) = 2 ^ (k + 1) * 2 := by ring
    have := Nat.one_le_two_pow (n := k + 1)
    omega

theorem Shape.leavesOf_mem {hasher : Hasher} {k : Nat} {ls : List Leaf} {n : node}
    (hs : Shape hasher k ls n) : ∀ l, l ∈ n.leavesOf ↔ l ∈ ls := by
  induction hs with
  | leaf l _ => intro x; simp [node.leavesOf]
  | full k ls₁ ls₂ L R _ _ _ ihL ihR =>
    intro x
    simp only [newNonLeaf, node.leavesOf, List.mem_append, ihL x, ihR x]
  | selfPair l _ => intro x; simp [newNonLeaf, node.leavesOf]
  | standIn k ls L c _ _ ih =>
    intro x
    simp only [newNonLeaf, node.leavesOf, List.append_nil, ih x]

theorem Shape.leavesOf_sublist {hasher : Hasher} {k : Nat} {ls : List Leaf} {n : node}
    (hs : Shape hasher k ls n) : ls.Sublist n.leavesOf := by
  induction hs with
  | leaf l _ => exact List.Sublist.refl _
  | full k ls₁ ls₂ L R _ _ _ ihL ihR =>
    simp only [newNonLeaf, node.leavesOf]
    exact List.Sublist.append ihL ihR
  | selfPair l _ =>
    simp only [newNonLeaf, node.leavesOf]
    exact List.Sublist.cons _ (List.Sublist.refl _)
  | standIn k ls L c _ _ ih =>
    simp only [newNonLeaf, node.leavesOf, List.append_nil]
    exact ih

/-- The root of a tree with at least two leaves has a full left subtree of
`2 ^ k` leaves and a right subtree over the other leaves. -/
theorem Shape.root_full {hasher : Hasher} {d : Nat} {ls : List Leaf} {n : node}
    (hs : Shape hasher d ls n) (h2 : 2 ≤ ls.length) (hmin : d = 1 ∨ 2 ^ (d - 1) < ls.length) :
    ∃ k ls₁ ls₂ L R, d = k + 1 ∧ ls = ls₁ ++ ls₂ ∧ n = newNonLeaf L R hasher ∧
      ls₁.length = 2 ^ k ∧ Shape hasher k ls₁ L ∧ Shape hasher k ls₂ R := by
  cases hs with
  | leaf l _ => simp at h2
  | full k ls₁ ls₂ L R hlen hL hR => exact ⟨k, ls₁, ls₂, L, R, rfl, rfl, rfl, hlen, hL, hR⟩
  | selfPair l _ => simp at h2
  | standIn k ls L c hL _ =>
    have hb := hL.length_bounds
    rcases hmin with h | h
    · omega
    · have e : k + 2 - 1 = k + 1 := by omega
      rw [e] at h
      omega

/-- C17. Builder and generator agree on the left block size: for every tree with
`n ≥ 2` leaves, with `p = nearestSmallerPowerOf2 n` the left child of the root
holds exactly the leaves with indices `0 .. p - 1`, each once and in order, and
the right child is built over the remaining `n - p` leaves: they are the
leaves below it, in order (a leaf paired with itself is met twice). -/
theorem C17_left_block_size (t : MerkleTree) (ht : IsTree t) (hn : 2 ≤ t.leaves.length) :
    ∃ (L R : node) (c : Bytes) (f : Option Hasher) (p : Nat),
      t.root = .nonLeaf L R c f ∧
      nearestSmallerPowerOf2 (t.leaves.length : Int) = .ok (p : Int) ∧
      0 < p ∧ p < t.leaves.length ∧
      L.leavesOf = t.leaves.take p ∧
      (∀ l, l ∈ R.leavesOf ↔ l ∈ t.leaves.drop p) ∧
      (t.leaves.drop p).Sublist R.leavesOf ∧
      (t.leaves.drop p).length = t.leaves.length - p ∧
      ∃ k, p = 2 ^ k ∧ Shape t.hasher k (t.leaves.take p) L ∧
        Shape t.hasher k (t.leaves.drop p) R := by
  obtain ⟨-, d, hs, hd, hmin⟩ := ht.shape
  obtain ⟨k, ls₁, ls₂, L, R, hdk, hls, hroot, hlen, hL, hR⟩ := hs.root_full hn hmin
  have hb2 := hR.length_bounds
  have hp : 2 ^ (k + 1) = 2 ^ k * 2 := by ring
  have hpos := Nat.one_le_two_pow (n := k)
  have htake : t.leaves.take (2 ^ k) = ls₁ := by rw [hls]; exact List.take_left' hlen
  have hdrop : t.leaves.drop (2 ^ k) = ls₂ := by rw [hls]; exact List.drop_left' hlen
  have hlen_all : t.leaves.length = 2 ^ k + ls₂.length := by
    rw [hls, List.length_append, hlen]
  refine ⟨L, R, [], some t.hasher, 2 ^ k, hroot, ?_, by omega, by omega, ?_, ?_, ?_, ?_,
    k, rfl, ?_, ?_⟩
  · exact nearestSmallerPowerOf2_eq k _ (by omega) (by omega)
  · rw [htake]; exact hL.leavesOf_full hlen
  · rw [hdrop]; exact hR.leavesOf_mem
  · rw [hdrop]; exact hR.leavesOf_sublist
  · rw [hdrop]; omega
  · rw [htake]; exact hL
  · rw [hdrop]; exact hR

/-- C17 on the five-leaf example tree. -/
theorem C17_left_block_size_witness :
    IsTree exampleTree ∧ 2 ≤ exampleTree.leaves.length ∧
      ∃ (L R : node) (c : Bytes) (f : Option Hasher) (p : Nat),
        exampleTree.root = .nonLeaf L R c f ∧
        nearestSmallerPowerOf2 (exampleTree.leaves.length : Int) = .ok (p : Int) ∧
        0 < p ∧ p < exampleTree.leaves.length ∧
        L.leavesOf = exampleTree.leaves.take p ∧
        (∀ l, l ∈ R.leavesOf ↔ l ∈ exampleTree.leaves.drop p) ∧
        (exampleTree.leaves.drop p).Sublist R.leavesOf ∧
        (exampleTree.leaves.drop p).length = exampleTree.leaves.length - p ∧
        ∃ k, p = 2 ^ k ∧ Shape exampleTree.hasher k (exampleTree.leaves.take p) L ∧
          Shape exampleTree.hasher k (exampleTree.leaves.drop p) R :=
  ⟨exampleTree_isTree, by decide,
    C17_left_block_size exampleTree exampleTree_isTree (by decide)⟩

/-! ## The skeleton of a tree -/

/-- A shaped node over the leaves found from index `o` on in `all` is the
skeleton `skel k o r` of its level, offset and leaf count. -/
theorem Shape.hasShape {hasher : Hasher} {k : Nat} {ls : List Leaf} {n : node}
    (hs : Shape hasher k ls n) :
    ∀ (all : List Leaf) (o : Nat), (∀ i, i < ls.length → all[o + i]? = ls[i]?) →
      HasShape all (skel k o ls.length) n := by
  induction hs with
  | leaf l _ =>
    intro all o h
    have h0 := h 0 (by simp)
    simp only [Nat.add_zero, List.getElem?_cons_zero] at h0
    exact HasShape.leaf o l h0
  | full k ls₁ ls₂ L R hlen hL hR ihL ihR =>
    intro all o h
    have hb2 := hR.length_bounds
    have hlt : 2 ^ k < (ls₁ ++ ls₂).length := by
      rw [List.length_append]; omega
    have hsub : (ls₁ ++ ls₂).length - 2 ^ k = ls₂.length := by
      rw [List.length_append]; omega
    simp only [skel, if_pos hlt, hsub, newNonLeaf]
    refine HasShape.nonLeaf _ _ L R [] (some hasher) ?_ ?_
    · rw [← hlen]
      apply ihL all o
      intro i hi
      rw [h i (by rw [List.length_append]; omega), List.getElem?_append_left hi]
    · apply ihR all (o + 2 ^ k)
      intro i hi
      have := h (2 ^ k + i) (by rw [List.length_append]; omega)
      rw [List.getElem?_append_right (by omega), hlen, Nat.add_sub_cancel_left] at this
      rw [← this]
      congr 1
      omega
  | selfPair l _ =>
    intro all o h
    have h0 := h 0 (by simp)
    simp only [Nat.add_zero, List.getElem?_cons_zero] at h0
    have e : skel 1 o ([l] : List Leaf).length = .nonLeaf (.leaf o) (.leaf o) := by
      simp [skel]
    rw [e]
    exact HasShape.nonLeaf _ _ _ _ [] (some hasher) (HasShape.leaf o l h0)
      (HasShape.leaf o l h0)
  | standIn k ls L c hL _ ih =>
    intro all o h
    have hb := hL.length_bounds
    have hlt : ¬ 2 ^ (k + 1) < ls.length := by omega
    have e : skel (k + 2) o ls.length
        = .nonLeaf (skel (k + 1) o ls.length) (.nonLeaf .nil .nil) := by
      simp only [skel, hlt, if_false, Nat.add_one_ne_zero]
    rw [e]
    exact HasShape.nonLeaf _ _ _ _ [] (some hasher) (ih all o h)
      (HasShape.nonLeaf _ _ _ _ c none HasShape.nil HasShape.nil)

/-- C14. The tree shape depends only on the leaf count: any two trees with the
same number of leaves, whatever their leaves and hashers are, are the same
skeleton `skel d 0 n` of two-child nodes, index-labelled leaves (a self-paired
leaf appears as both children) and childless stand-ins, each instantiated with
its own leaves by index. -/
theorem C14_shape_depends_on_count (t₁ t₂ : MerkleTree) (h₁ : IsTree t₁) (h₂ : IsTree t₂)
    (hlen : t₁.leaves.length = t₂.leaves.length) :
    ∃ d, 1 ≤ d ∧ t₁.leaves.length ≤ 2 ^ d ∧
      (∀ d', 1 ≤ d' → t₁.leaves.length ≤ 2 ^ d' → d ≤ d') ∧
      HasShape t₁.leaves (skel d 0 t₁.leaves.length) t₁.root ∧
      HasShape t₂.leaves (skel d 0 t₁.leaves.length) t₂.root := by
  obtain ⟨-, d₁, hs₁, hd₁, hmin₁⟩ := h₁.shape
  obtain ⟨-, d₂, hs₂, hd₂, hmin₂⟩ := h₂.shape
  have hb₁ := hs₁.length_bounds
  have hb₂ := hs₂.length_bounds
  have hdd : d₂ = d₁ := by
    have a := depth_minimal hmin₁ hd₂ (by rw [hlen]; exact hb₂.2)
    have b := depth_minimal hmin₂ hd₁ (by rw [← hlen]; exact hb₁.2)
    omega
  refine ⟨d₁, hd₁, hb₁.2, fun d' h1 h2 => depth_minimal hmin₁ h1 h2, ?_, ?_⟩
  · exact hs₁.hasShape t₁.leaves 0 (fun i _ => by rw [Nat.zero_add])
  · rw [hlen, ← hdd]
    exact hs₂.hasShape t₂.leaves 0 (fun i _ => by rw [Nat.zero_add])

theorem staleTree_built :
    NewMerkleTree (List.replicate 5 staleLeaf) emptyHasher = .ok (.ok staleTree) :=
  rfl

/-- C14 on two trees over five leaves: the example tree and the tree over five
stale leaves built with `emptyHasher`; their common skeleton is written out. -/
theorem C14_shape_depends_on_count_witness :
    IsTree exampleTree ∧ IsTree staleTree ∧
      exampleTree.leaves.length = staleTree.leaves.length ∧
      skel 3 0 5 = .nonLeaf
        (.nonLeaf (.nonLeaf (.leaf 0) (.leaf 1)) (.nonLeaf (.leaf 2) (.leaf 3)))
        (.nonLeaf (.nonLeaf (.leaf 4) (.leaf 4)) (.nonLeaf .nil .nil)) ∧
      ∃ d, 1 ≤ d ∧ exampleTree.leaves.length ≤ 2 ^ d ∧
        (∀ d', 1 ≤ d' → exampleTree.leaves.length ≤ 2 ^ d' → d ≤ d') ∧
        HasShape exampleTree.leaves (skel d 0 exampleTree.leaves.length) exampleTree.root ∧
        HasShape staleTree.leaves (skel d 0 exampleTree.leaves.length) staleTree.root :=
  ⟨exampleTree_isTree, IsTree.new _ _ _ staleTree_built, rfl, by decide,
    C14_shape_depends_on_count exampleTree staleTree exampleTree_isTree
      (IsTree.new _ _ _ staleTree_built) rfl⟩

/-! ## The one-leaf tree -/

/-- C19 as stated fails for a leaf that carries a cached hash: the tree over
`staleLeaf` (content `[1]`, cached hash `[9]`) built with `tagHasher` has root
hash `tagHasher ([9] ++ [9])` and the proof for index 0 has the sibling list
`[[9]]`, not the values computed from `tagHasher [1]`. -/
theorem C19_counterexample :
    ∃ t p, NewMerkleTree [staleLeaf] tagHasher = .ok (.ok t) ∧
      t.Hash ≠ .ok (tagHasher (tagHasher staleLeaf.content ++ tagHasher staleLeaf.content)) ∧
      t.GenerateProof 0 = .ok (.ok p) ∧
      p.siblingHashes ≠ [tagHasher staleLeaf.content] :=
  ⟨_, NewProof 0 [9] [[9]], rfl, by decide, rfl, by decide⟩

/-- C19, amended. For every single leaf and every hasher `h`, the tree's root is
an internal node whose left and right children are both that leaf, its root
hash is `h(x || x)` and `GenerateProof(0)` returns the leaf hash `x` with the
one-element sibling list `[x]`, where `x` is the leaf's hash: `h(c)` for a leaf
with content `c` that carries no cached hash (fresh from `NewLeaf`) or the
cached hash `h(c)`, and the cached hash otherwise. -/
theorem C19_one_leaf_tree (l : Leaf) (hasher : Hasher) :
    ∃ t, NewMerkleTree [l] hasher = .ok (.ok t) ∧
      t.root = newNonLeaf (.Leaf (l.setHashFunc hasher)) (.Leaf (l.setHashFunc hasher)) hasher ∧
      t.Hash = .ok (hasher (l.hashWith hasher ++ l.hashWith hasher)) ∧
      t.GenerateProof 0
        = .ok (.ok (NewProof 0 (l.hashWith hasher) [l.hashWith hasher])) ∧
      ((l.cachedHash = [] ∨ l.cachedHash = hasher l.content) →
        l.hashWith hasher = hasher l.content) ∧
      (∀ c, (NewLeaf c).hashWith hasher = hasher c) := by
  have hbuilt : NewMerkleTree [l] hasher = .ok (.ok
      { root := newNonLeaf (.Leaf (l.setHashFunc hasher)) (.Leaf (l.setHashFunc hasher)) hasher
        leaves := [l.setHashFunc hasher]
        hasher := hasher }) := rfl
  have hf : (l.setHashFunc hasher).hashFunc = some hasher := rfl
  have hs : Shape hasher 1 [l.setHashFunc hasher]
      (newNonLeaf (.Leaf (l.setHashFunc hasher)) (.Leaf (l.setHashFunc hasher)) hasher) :=
    Shape.selfPair _ hf
  have hleaf : (node.Leaf (l.setHashFunc hasher)).Hash = .ok (l.hashWith hasher) := by
    have := Leaf.Hash_eq hf
    rw [Leaf.hashWith_setHashFunc] at this
    exact this
  refine ⟨_, hbuilt, rfl, ?_, ?_, Leaf.hashWith_of_clean, fun c => rfl⟩
  · show (newNonLeaf _ _ hasher).Hash = _
    rw [Hash_newNonLeaf, hleaf]
    rfl
  · have hg := @MerkleTree.GenerateProof_eq hasher
      { root := newNonLeaf (.Leaf (l.setHashFunc hasher)) (.Leaf (l.setHashFunc hasher)) hasher
        leaves := [l.setHashFunc hasher]
        hasher := hasher }
      1 0 (l.setHashFunc hasher) hs (le_refl 1) rfl
    have hsib : sibsOf 1 (newNonLeaf (.Leaf (l.setHashFunc hasher))
        (.Leaf (l.setHashFunc hasher)) hasher) 0 = .ok [l.hashWith hasher] := by
      simp only [newNonLeaf, sibsOf, pow_zero, Nat.lt_one_iff, if_true, Run.ok_bind, hleaf,
        Run.pure_eq_ok, List.nil_append]
    simp only [hsib, Run.ok_bind, Leaf.hashWith_setHashFunc] at hg
    exact hg

/-- C19 (amended) at the fresh leaf with content `[1]` and `tagHasher`. -/
theorem C19_one_leaf_tree_witness :
    ((NewLeaf [1]).cachedHash = [] ∨ (NewLeaf [1]).cachedHash = tagHasher (NewLeaf [1]).content) ∧
      (NewLeaf [1]).hashWith tagHasher = tagHasher (NewLeaf [1]).content ∧
      ∃ t, NewMerkleTree [NewLeaf [1]] tagHasher = .ok (.ok t) ∧
        t.Hash = .ok (tagHasher (tagHasher [1] ++ tagHasher [1])) ∧
        t.GenerateProof 0 = .ok (.ok (NewProof 0 (tagHasher [1]) [tagHasher [1]])) := by
  obtain ⟨t, h1, -, h3, h4, h5, -⟩ := C19_one_leaf_tree (NewLeaf [1]) tagHasher
  exact ⟨Or.inl rfl, h5 (Or.inl rfl), t, h1, h3, h4⟩

/-! ## Termination of buildRoot -/

theorem pairNodes_not_nil (hasher : Hasher) :
    ∀ (nodes ps : List node), pairNodes hasher nodes = .ok ps → ∀ n ∈ ps, n.isNil = false
  | [], ps, h => by
    simp only [pairNodes, Run.ok.injEq] at h
    subst h
    intro n hn
    cases hn
  | [a], ps, h => by
    simp only [pairNodes] at h
    obtain ⟨hc, -, h⟩ := Run.bind_eq_ok h
    cases hc with
    | true =>
      simp only [if_true] at h
      obtain ⟨c, -, h⟩ := Run.bind_eq_ok h
      simp only [Run.pure_eq_ok, Run.ok_bind, Run.ok.injEq] at h
      subst h
      intro n hn
      rw [List.mem_singleton.mp hn]
      rfl
    | false =>
      simp only [Bool.false_eq_true, if_false, Run.pure_eq_ok, Run.ok_bind, Run.ok.injEq] at h
      subst h
      intro n hn
      rw [List.mem_singleton.mp hn]
      rfl
  | a :: b :: rest, ps, h => by
    simp only [pairNodes] at h
    obtain ⟨qs, hq, h⟩ := Run.bind_eq_ok h
    simp only [Run.pure_eq_ok, Run.ok.injEq] at h
    subst h
    intro n hn
    rcases List.mem_cons.mp hn with rfl | hn
    · rfl
    · exact pairNodes_not_nil hasher rest qs hq n hn

/-- On a non-empty level without nil entries `buildRoot` never exhausts a budget
that is at least the size of the level. -/
theorem buildRoot_terminates (hasher : Hasher) :
    ∀ (fuel : Nat) (nodes : List node), nodes ≠ [] → (∀ n ∈ nodes, n.isNil = false) →
      nodes.length ≤ fuel → buildRoot fuel nodes hasher ≠ .outOfFuel := by
  intro fuel
  induction fuel with
  | zero =>
    intro nodes hn _ hlen
    have : nodes.length ≠ 0 := fun h0 => hn (List.length_eq_zero.mp h0)
    omega
  | succ fuel ih =>
    intro nodes hn hnil hlen
    match nodes, hn, hnil, hlen with
    | [a], _, _, _ =>
      have h1 := node.hasChildren_ne_outOfFuel a
      simp only [buildRoot]
      cases hc : a.hasChildren with
      | ok b => cases b <;> simp
      | panic => simp
      | outOfFuel => exact absurd hc h1
    | a :: b :: rest, _, hnil, hlen =>
      rw [buildRoot_succ_pair hasher fuel a b rest hnil]
      cases hps : pairNodes hasher (a :: b :: rest) with
      | ok ps =>
        simp only [Run.ok_bind]
        have hlen2 := pairNodes_length hasher _ ps hps
        simp only [List.length_cons] at hlen hlen2
        have hpne : ps ≠ [] := by
          intro h0
          rw [h0] at hlen2
          simp only [List.length_nil] at hlen2
          omega
        exact ih ps hpne (pairNodes_not_nil hasher _ ps hps) (by omega)
      | panic => simp
      | outOfFuel => exact absurd hps (pairNodes_ne_outOfFuel hasher _)

/-- C20. `buildRoot` terminates on every non-empty list of nodes (entries that
are not the nil interface, as at both call sites): with a budget of at least
the size of the level it never runs out, and a larger budget gives the same
result. The next level has `ceil(n / 2)` nodes, fewer than `n` for `n ≥ 2`, and
again no nil entry; a level of one node ends without recursing (budget 1); on
the empty level the recursion never ends. `NewMerkleTree` returns `emptyTree`
on the empty list without calling `buildRoot` and never runs out otherwise;
`Append` on a tree passes a non-empty list and never runs out. -/
theorem C20_buildRoot_terminates (hasher : Hasher) :
    (∀ (nodes : List node) (fuel : Nat), nodes ≠ [] → (∀ n ∈ nodes, n.isNil = false) →
      nodes.length ≤ fuel → buildRoot fuel nodes hasher ≠ .outOfFuel) ∧
    (∀ (fuel : Nat) (nodes : List node) (r : Run node), buildRoot fuel nodes hasher = r →
      r ≠ .outOfFuel → buildRoot (fuel + 1) nodes hasher = r) ∧
    (∀ (nodes parents : List node), (∀ n ∈ nodes, n.isNil = false) →
      buildRoot.finish hasher (nodes.foldl (buildRoot.step hasher) (node.nil, node.nil, []))
        = .ok parents →
      parents.length = (nodes.length + 1) / 2 ∧
      (2 ≤ nodes.length → parents.length < nodes.length) ∧
      ∀ n ∈ parents, n.isNil = false) ∧
    (∀ n : node, n.isNil = false → buildRoot 1 [n] hasher ≠ .outOfFuel) ∧
    (∀ fuel : Nat, buildRoot fuel [] hasher = .outOfFuel) ∧
    (NewMerkleTree [] hasher = .ok (.error .emptyTree) ∧
      ∀ leaves : List Leaf, NewMerkleTree leaves hasher ≠ .outOfFuel) ∧
    (∀ (t : MerkleTree) (A : List Leaf), IsTree t →
      t.leaves ++ A.map (Leaf.setHashFunc t.hasher) ≠ [] ∧ t.Append A ≠ .outOfFuel) := by
  refine ⟨fun nodes fuel h1 h2 h3 => buildRoot_terminates hasher fuel nodes h1 h2 h3,
    buildRoot_mono hasher, ?_, ?_, buildRoot_nil hasher,
    ⟨rfl, fun leaves => NewMerkleTree_ne_outOfFuel leaves hasher⟩, ?_⟩
  · intro nodes parents hnil h
    rw [buildRoot.finish_foldl hasher nodes [] hnil] at h
    obtain ⟨ps, hps, h⟩ := Run.bind_eq_ok h
    simp only [List.nil_append, Run.ok.injEq] at h
    subst h
    have hlen := pairNodes_length hasher nodes ps hps
    refine ⟨hlen, fun h2 => by omega, pairNodes_not_nil hasher nodes ps hps⟩
  · intro n hn
    exact buildRoot_terminates hasher 1 [n] (by simp)
      (fun m hm => by rw [List.mem_singleton.mp hm]; exact hn) (by simp)
  · intro t A ht
    refine ⟨?_, ht.append_ne_outOfFuel A⟩
    have := ht.shape.1
    simp [this]

/-- C20 on the level of the five leaves of the example tree. -/
theorem C20_buildRoot_terminates_witness :
    exampleTree.leaves.map node.Leaf ≠ [] ∧
      (∀ n ∈ exampleTree.leaves.map node.Leaf, n.isNil = false) ∧
      (exampleTree.leaves.map node.Leaf).length ≤ 5 ∧
      buildRoot 5 (exampleTree.leaves.map node.Leaf) tagHasher ≠ .outOfFuel :=
  have hne : exampleTree.leaves.map node.Leaf ≠ [] := List.ne_nil_of_length_pos (by decide)
  have hnil : ∀ n ∈ exampleTree.leaves.map node.Leaf, n.isNil = false := by
    intro n hn
    obtain ⟨l, -, rfl⟩ := List.mem_map.mp hn
    rfl
  ⟨hne, hnil, by decide,
    (C20_buildRoot_terminates tagHasher).1 (exampleTree.leaves.map node.Leaf) 5 hne hnil
      (by decide)⟩

/-- The hypothesis of `buildRoot_terminates` on the entries cannot be dropped: a
level made of two nil interfaces leaves the loop with no parent, and the
recursion goes on with the empty level. No call site passes such a list. -/
theorem buildRoot_nil_entries (hasher : Hasher) :
    ∀ fuel : Nat, buildRoot fuel [node.nil, node.nil] hasher = .outOfFuel
  | 0 => rfl
  | fuel + 1 => by
    have h : buildRoot (fuel + 1) [node.nil, node.nil] hasher
        = buildRoot fuel [] hasher := rfl
    rw [h]
    exact buildRoot_nil hasher fuel

/-! ## The calls of collectSiblingsHashes -/

theorem collectSiblingsHashes.collect_cons_nonLeaf (left right : node) (c : Bytes)
    (f : Option Hasher) (sibling : node) (acc : List Bytes) (X : Run (List (node × node))) :
    ((X >>= fun cs => collectSiblingsHashes.collect cs acc) >>= fun siblingHashes =>
        if sibling.isNil then (pure siblingHashes : Run (List Bytes))
        else do
          let h ← sibling.Hash
          pure (siblingHashes ++ [h]))
      = ((X >>= fun below => (pure ((node.nonLeaf left right c f, sibling) :: below) :
            Run (List (node × node)))) >>= fun cs =>
          collectSiblingsHashes.collect cs acc) := by
  cases X with
  | ok cs => simp only [Run.ok_bind, Run.pure_eq_ok, collectSiblingsHashes.collect]
  | panic => rfl
  | outOfFuel => rfl

/-- The function `collectSiblingsHashes` makes the calls listed by
`collectSiblingsHashes.calls` and appends what `collectSiblingsHashes.collect`
appends for them. -/
theorem collectSiblingsHashes_eq_calls :
    ∀ (n sibling : node) (acc : List Bytes) (remainingLen tmpIdx : Int),
      collectSiblingsHashes n sibling acc remainingLen tmpIdx
        = (collectSiblingsHashes.calls n sibling remainingLen tmpIdx >>= fun cs =>
            collectSiblingsHashes.collect cs acc) := by
  intro n
  induction n with
  | nil =>
    intro sibling acc r i
    rfl
  | Leaf l =>
    intro sibling acc r i
    simp only [collectSiblingsHashes, collectSiblingsHashes.calls, Run.ok_bind,
      collectSiblingsHashes.collect]
  | nonLeaf left right c f ihl ihr =>
    intro sibling acc r i
    simp only [collectSiblingsHashes, collectSiblingsHashes.calls]
    cases nearestSmallerPowerOf2 r with
    | panic => rfl
    | outOfFuel => rfl
    | ok p =>
      simp only [Run.ok_bind]
      cases collectSiblingsHashes.emptyNonLeafRight right with
      | panic => rfl
      | outOfFuel => rfl
      | ok e =>
        simp only [Run.ok_bind]
        by_cases he : e = true
        · rw [if_pos he, if_pos he, ihl]
          exact collectSiblingsHashes.collect_cons_nonLeaf left right c f sibling acc _
        · rw [if_neg he, if_neg he]
          by_cases hp : p ≥ i + 1
          · rw [if_pos hp, if_pos hp, ihl]
            exact collectSiblingsHashes.collect_cons_nonLeaf left right c f sibling acc _
          · rw [if_neg hp, if_neg hp, ihr]
            exact collectSiblingsHashes.collect_cons_nonLeaf left right c f sibling acc _

/-- On a shaped tree the calls of `collectSiblingsHashes` are one call per level
on a `*nonLeaf` and then one call on the leaf at the offset, made with a sibling
that is present. -/
theorem Shape.calls_eq {hasher : Hasher} {k : Nat} {ls : List Leaf} {n : node}
    (hs : Shape hasher k ls n) :
    ∀ (t : Nat) (sib : node), t < ls.length → (k = 0 → sib.isNil = false) →
      ∃ (pre : List (node × node)) (l : Leaf) (s : node),
        collectSiblingsHashes.calls n sib (ls.length : Int) (t : Int)
          = .ok (pre ++ [(node.Leaf l, s)]) ∧
        pre.length = k ∧
        (∀ p ∈ pre, ∃ L R c f, p.1 = node.nonLeaf L R c f ∧ L.isNil = false ∧
          R.isNil = false) ∧
        ls[t]? = some l ∧ s.isNil = false := by
  induction hs with
  | leaf l hf =>
    intro t sib ht hsib
    have ht0 : t = 0 := by simpa using ht
    subst ht0
    exact ⟨[], l, sib, rfl, rfl, fun p hp => absurd hp (List.not_mem_nil p), rfl, hsib rfl⟩
  | full k ls₁ ls₂ L R hlen hL hR ihL ihR =>
    intro t sib ht _
    have hb2 := hR.length_bounds
    have hp : 2 ^ (k + 1) = 2 ^ k * 2 := by ring
    have hnear : nearestSmallerPowerOf2 ((ls₁ ++ ls₂).length : Int)
        = .ok ((2 ^ k : Nat) : Int) :=
      nearestSmallerPowerOf2_eq k _ (by simp only [List.length_append]; omega)
        (by simp only [List.length_append]; omega)
    simp only [newNonLeaf, collectSiblingsHashes.calls, hnear, Run.ok_bind,
      hR.emptyNonLeafRight_false, Bool.false_eq_true, if_false]
    simp only [List.length_append] at ht
    by_cases hlt : t < 2 ^ k
    · have hge : ((2 ^ k : Nat) : Int) ≥ (t : Int) + 1 := by omega
      rw [if_pos hge]
      obtain ⟨pre, l, s, hc, hlen', hpre, hl, hs⟩ := ihL t R (by omega) (fun _ => hR.not_nil)
      rw [hlen] at hc
      rw [hc]
      refine ⟨(node.nonLeaf L R [] (some hasher), sib) :: pre, l, s, rfl, by simp [hlen'],
        ?_, ?_, hs⟩
      · intro p hp
        rcases List.mem_cons.mp hp with rfl | hp
        · exact ⟨L, R, [], some hasher, rfl, hL.not_nil, hR.not_nil⟩
        · exact hpre p hp
      · rw [List.getElem?_append_left (by omega)]
        exact hl
    · have hge : ¬ ((2 ^ k : Nat) : Int) ≥ (t : Int) + 1 := by omega
      rw [if_neg hge]
      have e1 : ((ls₁ ++ ls₂).length : Int) - ((2 ^ k : Nat) : Int) = (ls₂.length : Int) := by
        simp only [List.length_append, hlen]
        push_cast
        ring
      have e2 : (t : Int) - ((2 ^ k : Nat) : Int) = ((t - 2 ^ k : Nat) : Int) := by
        omega
      obtain ⟨pre, l, s, hc, hlen', hpre, hl, hs⟩ :=
        ihR (t - 2 ^ k) L (by omega) (fun _ => hL.not_nil)
      rw [e1, e2, hc]
      refine ⟨(node.nonLeaf L R [] (some hasher), sib) :: pre, l, s, rfl, by simp [hlen'],
        ?_, ?_, hs⟩
      · intro p hp
        rcases List.mem_cons.mp hp with rfl | hp
        · exact ⟨L, R, [], some hasher, rfl, hL.not_nil, hR.not_nil⟩
        · exact hpre p hp
      · rw [List.getElem?_append_right (by omega), hlen]
        exact hl
  | selfPair l hf =>
    intro t sib ht _
    have ht0 : t = 0 := by simpa using ht
    subst ht0
    refine ⟨[(node.nonLeaf (.Leaf l) (.Leaf l) [] (some hasher), sib)], l, .Leaf l, ?_, rfl,
      ?_, rfl, rfl⟩
    · have hnear : nearestSmallerPowerOf2 (([l] : List Leaf).length : Int) = .ok 0 := by
        have h1 : nearestSmallerPowerOf2 ((1 : Nat) : Int) = .ok 0 := by decide
        exact h1
      simp only [newNonLeaf, collectSiblingsHashes.calls, hnear, Run.ok_bind]
      have he : collectSiblingsHashes.emptyNonLeafRight (node.Leaf l) = .ok false := rfl
      rw [he]
      simp only [Run.ok_bind, Bool.false_eq_true, if_false]
      have hge : ¬ ((0 : Int) ≥ ((0 : Nat) : Int) + 1) := by omega
      rw [if_neg hge]
      rfl
    · intro p hp
      rw [List.mem_singleton.mp hp]
      exact ⟨_, _, _, _, rfl, rfl, rfl⟩
  | standIn k ls L c hL hc ih =>
    intro t sib ht _
    obtain ⟨p, hp⟩ := nearestSmallerPowerOf2_total (ls.length : Int)
    obtain ⟨pre, l, s, hcalls, hlen', hpre, hl, hs⟩ :=
      ih t (node.nonLeaf .nil .nil c none) ht (fun h => by omega)
    simp only [newNonLeaf, collectSiblingsHashes.calls, hp, Run.ok_bind,
      emptyNonLeafRight_standIn, if_true, hcalls]
    refine ⟨(node.nonLeaf L (node.nonLeaf .nil .nil c none) [] (some hasher), sib) :: pre,
      l, s, rfl, by simp [hlen'], ?_, hl, hs⟩
    intro q hq
    rcases List.mem_cons.mp hq with rfl | hq
    · exact ⟨L, _, [], some hasher, rfl, hL.not_nil, rfl⟩
    · exact hpre q hq

/-- Whatever non-nil nodes `buildRoot` is given, the node it returns has both
children. -/
theorem buildRoot_hasChildren (hasher : Hasher) :
    ∀ (fuel : Nat) (nodes : List node) (r : node), (∀ n ∈ nodes, n.isNil = false) →
      buildRoot fuel nodes hasher = .ok r → r.hasChildren = .ok true := by
  intro fuel
  induction fuel with
  | zero =>
    intro nodes r _ h
    cases h
  | succ fuel ih =>
    intro nodes r hnil h
    match nodes, hnil, h with
    | [], _, h =>
      rw [buildRoot_nil] at h
      cases h
    | [a], hnil, h =>
      simp only [buildRoot] at h
      obtain ⟨hc, hhc, h⟩ := Run.bind_eq_ok h
      cases hc with
      | true =>
        simp only [if_true, Run.pure_eq_ok, Run.ok.injEq] at h
        subst h
        exact hhc
      | false =>
        simp only [Bool.false_eq_true, if_false, Run.pure_eq_ok, Run.ok.injEq] at h
        subst h
        have ha := hnil a (List.mem_singleton.mpr rfl)
        simp only [newNonLeaf, node.hasChildren, ha, Bool.not_false, Bool.and_self]
    | a :: b :: rest, hnil, h =>
      rw [buildRoot_succ_pair hasher fuel a b rest hnil] at h
      obtain ⟨ps, hps, h⟩ := Run.bind_eq_ok h
      exact ih ps r (pairNodes_not_nil hasher _ ps hps) h

theorem node.hasChildren_true_iff (n : node) :
    n.hasChildren = .ok true
      ↔ ∃ L R c f, n = node.nonLeaf L R c f ∧ L.isNil = false ∧ R.isNil = false := by
  cases n with
  | nil => simp [node.hasChildren]
  | Leaf l => simp [node.hasChildren]
  | nonLeaf L R c f =>
    simp only [node.hasChildren, Run.ok.injEq, Bool.and_eq_true, Bool.not_eq_true',
      node.nonLeaf.injEq]
    constructor
    · intro h
      exact ⟨L, R, c, f, ⟨rfl, rfl, rfl, rfl⟩, h.1, h.2⟩
    · rintro ⟨L', R', c', f', ⟨rfl, rfl, rfl, rfl⟩, h1, h2⟩
      exact ⟨h1, h2⟩

/-! ## The root is never a bare leaf -/

/-- C21. The root is never a bare leaf. A node `buildRoot` returns for a list of
leaves is a `*nonLeaf` with both children, and `buildRoot` does return one for
every non-empty list when the hasher has non-empty outputs; so the root of every
tree is such a node. For every valid index the calls of `collectSiblingsHashes`,
started at the root with the nil sibling, are calls on `*nonLeaf` nodes with
both children followed by one call on a `*Leaf`, the leaf at the index, with a
sibling that is present: the `*Leaf` case never meets a missing sibling, for any
hasher. -/
theorem C21_root_never_bare_leaf (t : MerkleTree) (ht : IsTree t) :
    (∀ (hasher : Hasher) (fuel : Nat) (leaves : List Leaf) (r : node),
      buildRoot fuel (leaves.map node.Leaf) hasher = .ok r →
      r.hasChildren = .ok true ∧
      ∃ L R c f, r = node.nonLeaf L R c f ∧ L.isNil = false ∧ R.isNil = false) ∧
    (∀ (hasher : Hasher) (leaves : List Leaf), leaves ≠ [] → (∀ b, hasher b ≠ []) →
      ∃ r, buildRoot (leaves.length + 1)
        ((leaves.map (Leaf.setHashFunc hasher)).map node.Leaf) hasher = .ok r) ∧
    (∃ L R c f, t.root = node.nonLeaf L R c f ∧ L.isNil = false ∧ R.isNil = false) ∧
    (∀ idx : Int, 0 ≤ idx → idx < t.leaves.length →
      ∃ (pre : List (node × node)) (l : Leaf) (s : node),
        collectSiblingsHashes.calls t.root node.nil (t.leaves.length : Int) idx
          = .ok (pre ++ [(node.Leaf l, s)]) ∧
        (∀ p ∈ pre, ∃ L R c f, p.1 = node.nonLeaf L R c f ∧ L.isNil = false ∧
          R.isNil = false) ∧
        t.leaves[idx.toNat]? = some l ∧ s.isNil = false ∧
        ∀ acc, collectSiblingsHashes t.root node.nil acc (t.leaves.length : Int) idx
          = collectSiblingsHashes.collect (pre ++ [(node.Leaf l, s)]) acc) := by
  obtain ⟨-, d, hs, hd, -⟩ := ht.shape
  refine ⟨?_, ?_, ?_, ?_⟩
  · intro hasher fuel leaves r h
    have hnil : ∀ n ∈ leaves.map node.Leaf, n.isNil = false := by
      intro n hn
      obtain ⟨l, -, rfl⟩ := List.mem_map.mp hn
      rfl
    have hc := buildRoot_hasChildren hasher fuel _ r hnil h
    exact ⟨hc, (node.hasChildren_true_iff r).mp hc⟩
  · intro hasher leaves hl hne
    have hlv := LevelOK_leaves hasher _ (setHashFunc_mem hasher leaves)
    exact buildRoot_total hne (leaves.length + 1) 0 _ _ hlv (by simpa using hl) (by simp)
  · obtain ⟨k, rfl⟩ : ∃ k, d = k + 1 := ⟨d - 1, by omega⟩
    exact (node.hasChildren_true_iff t.root).mp hs.hasChildren_succ
  · intro idx h0 hlt
    obtain ⟨n, rfl⟩ : ∃ n : Nat, idx = (n : Int) := ⟨idx.toNat, (Int.toNat_of_nonneg h0).symm⟩
    have hn : n < t.leaves.length := by omega
    obtain ⟨pre, l, s, hc, -, hpre, hl, hsib⟩ := hs.calls_eq n node.nil hn (fun h => by omega)
    refine ⟨pre, l, s, hc, hpre, ?_, hsib, ?_⟩
    · rw [Int.toNat_ofNat]
      exact hl
    · intro acc
      rw [collectSiblingsHashes_eq_calls, hc]
      rfl

/-- C21 on the five-leaf example tree and index 4: the last call is on the leaf
with content `[4]`, with that leaf as its sibling. -/
theorem C21_root_never_bare_leaf_witness :
    IsTree exampleTree ∧ (0 : Int) ≤ 4 ∧ (4 : Int) < exampleTree.leaves.length ∧
      (collectSiblingsHashes.calls exampleTree.root node.nil 5 4).bind
          (fun cs => .ok (cs.map (fun p => (p.1.leavesOf.map (fun l => l.content),
            p.2.leavesOf.map (fun l => l.content)))))
        = .ok [([[0], [1], [2], [3], [4], [4]], []), ([[4], [4]], [[0], [1], [2], [3]]),
            ([[4], [4]], []), ([[4]], [[4]])] ∧
      ∃ (pre : List (node × node)) (l : Leaf) (s : node),
        collectSiblingsHashes.calls exampleTree.root node.nil
            (exampleTree.leaves.length : Int) 4 = .ok (pre ++ [(node.Leaf l, s)]) ∧
        s.isNil = false := by
  obtain ⟨pre, l, s, h, -, -, hs, -⟩ :=
    (C21_root_never_bare_leaf exampleTree exampleTree_isTree).2.2.2 4 (by decide) (by decide)
  exact ⟨exampleTree_isTree, by decide, by decide, by decide, pre, l, s, h, hs⟩

/-! ## The stand-ins and their pre-set hash -/

theorem Shape.eq_newNonLeaf {hasher : Hasher} {k : Nat} {ls : List Leaf} {n : node}
    (hs : Shape hasher (k + 1) ls n) : ∃ X Y, n = newNonLeaf X Y hasher := by
  cases hs with
  | full _ ls₁ ls₂ L R _ _ _ => exact ⟨L, R, rfl⟩
  | selfPair l _ => exact ⟨_, _, rfl⟩
  | standIn _ _ L c _ _ => exact ⟨L, _, rfl⟩

/-- The hash of a node built by `newNonLeaf` is an output of its hasher. -/
theorem Hash_newNonLeaf_output {X Y : node} {hasher : Hasher} {c : Bytes}
    (h : (newNonLeaf X Y hasher).Hash = .ok c) : ∃ b, c = hasher b := by
  rw [Hash_newNonLeaf] at h
  obtain ⟨lh, -, h⟩ := Run.bind_eq_ok h
  obtain ⟨rh, -, h⟩ := Run.bind_eq_ok h
  simp only [Run.ok.injEq] at h
  exact ⟨lh ++ rh, h.symm⟩

/-- The childless nodes of a shaped tree are the stand-ins of `buildRoot`, and
the hash they carry is an output of the hasher. -/
theorem Shape.standIn_form {hasher : Hasher} {k : Nat} {ls : List Leaf} {n : node}
    (hs : Shape hasher k ls n) :
    ∀ m ∈ n.reachable, m.isStandIn = true →
      ∃ c b, m = node.nonLeaf .nil .nil c none ∧ c = hasher b := by
  induction hs with
  | leaf l hf =>
    intro m hm hst
    simp only [node.reachable, List.mem_singleton] at hm
    subst hm
    cases hst
  | full k ls₁ ls₂ L R hlen hL hR ihL ihR =>
    intro m hm hst
    simp only [newNonLeaf, node.reachable, List.mem_cons, List.mem_append] at hm
    rcases hm with rfl | hm | hm
    · simp only [node.isStandIn, hL.not_nil, hR.not_nil, Bool.or_self,
        Bool.false_eq_true] at hst
    · exact ihL m hm hst
    · exact ihR m hm hst
  | selfPair l hf =>
    intro m hm hst
    simp only [newNonLeaf, node.reachable, List.mem_cons, List.mem_append,
      List.mem_singleton, List.not_mem_nil, or_false] at hm
    rcases hm with rfl | rfl | rfl
    · cases hst
    · cases hst
    · cases hst
  | standIn k ls L c hL hc ih =>
    intro m hm hst
    simp only [newNonLeaf, node.reachable, List.mem_cons, List.mem_append,
      List.append_nil, List.not_mem_nil, or_false] at hm
    rcases hm with rfl | hm | rfl
    · have h1 : (node.nonLeaf L (node.nonLeaf .nil .nil c none) [] (some hasher)).isStandIn
          = false := by
        simp only [node.isStandIn, hL.not_nil, node.isNil_nonLeaf, Bool.or_self]
      rw [h1] at hst
      cases hst
    · exact ih m hm hst
    · obtain ⟨X, Y, rfl⟩ := hL.eq_newNonLeaf
      obtain ⟨b, hb⟩ := Hash_newNonLeaf_output hc
      exact ⟨c, b, rfl, hb⟩

/-- With a hasher whose outputs are non-empty every node of a shaped tree has a
hash, and the hash is non-empty. -/
theorem Shape.reachable_hash_ok {hasher : Hasher} (hne : ∀ b, hasher b ≠ []) {k : Nat}
    {ls : List Leaf} {n : node} (hs : Shape hasher k ls n) :
    ∀ m ∈ n.reachable, ∃ h, m.Hash = .ok h ∧ h ≠ [] := by
  induction hs with
  | leaf l hf =>
    intro m hm
    simp only [node.reachable, List.mem_singleton] at hm
    subst hm
    exact (Shape.leaf l hf).hash_ok hne
  | full k ls₁ ls₂ L R hlen hL hR ihL ihR =>
    intro m hm
    have hself := (Shape.full k ls₁ ls₂ L R hlen hL hR).hash_ok hne
    simp only [newNonLeaf, node.reachable, List.mem_cons, List.mem_append] at hm
    rcases hm with rfl | hm | hm
    · exact hself
    · exact ihL m hm
    · exact ihR m hm
  | selfPair l hf =>
    intro m hm
    have hself := (Shape.selfPair l hf).hash_ok hne
    simp only [newNonLeaf, node.reachable, List.mem_cons, List.mem_append,
      List.mem_singleton, List.not_mem_nil, or_false] at hm
    rcases hm with rfl | rfl | rfl
    · exact hself
    · exact (Shape.leaf l hf).hash_ok hne
    · exact (Shape.leaf l hf).hash_ok hne
  | standIn k ls L c hL hc ih =>
    intro m hm
    have hself := (Shape.standIn k ls L c hL hc).hash_ok hne
    simp only [newNonLeaf, node.reachable, List.mem_cons, List.mem_append,
      List.append_nil, List.not_mem_nil, or_false] at hm
    rcases hm with rfl | hm | rfl
    · exact hself
    · exact ih m hm
    · obtain ⟨c', hc', hne'⟩ := hL.hash_ok hne
      rw [hc] at hc'
      cases hc'
      refine ⟨c, ?_, hne'⟩
      rw [Hash_standIn, if_pos (List.length_pos.mpr hne')]

theorem hollowTree_built :
    NewMerkleTree (leavesUpTo 5) emptyHasher = .ok (.ok hollowTree) := rfl

/-- C22 as stated fails for a hasher with an empty output: in the tree over five
fresh leaves built with `emptyHasher` the stand-in carries the empty hash, so
its `Hash()` does not answer from the cache and dereferences its nil children;
computing the root hash panics, and so does generating the proof for index 0. -/
theorem C22_counterexample :
    leavesUpTo 5 ≠ [] ∧
      NewMerkleTree (leavesUpTo 5) emptyHasher = .ok (.ok hollowTree) ∧
      hollowTree.Hash = .panic ∧
      ((0 : Int) ≤ 0 ∧ (0 : Int) < hollowTree.leaves.length ∧
        hollowTree.GenerateProof 0 = .panic) ∧
      ∃ m, m ∈ hollowTree.root.reachable ∧ m.isStandIn = true ∧
        m.answersFromCache = false ∧ m.Hash = .panic :=
  ⟨leavesUpTo_five_ne_nil, rfl, by decide, ⟨by decide, by decide, rfl⟩,
    node.nonLeaf .nil .nil [] none,
    by simp [hollowTree, newNonLeaf, node.reachable], rfl, rfl, rfl⟩

/-- C22, amended. In every tree the childless nodes reachable from the root are
the stand-ins `&nonLeaf{cachedHash: c}` of `buildRoot`, and `c` is an output of
the tree's hasher; such a node answers `Hash()` from `c` when `c` is non-empty
and panics when it is empty. Hence for every tree whose hasher has non-empty
outputs, every stand-in answers from its pre-set hash, `Hash()` of every node
reachable from the root is defined, the root hash is computed and a proof is
generated for every valid index. -/
theorem C22_standIn_hash (t : MerkleTree) (ht : IsTree t) :
    (∀ m ∈ t.root.reachable, m.isStandIn = true →
      ∃ c b, m = node.nonLeaf .nil .nil c none ∧ c = t.hasher b ∧
        m.answersFromCache = decide (c.length > 0) ∧
        m.Hash = if c.length > 0 then .ok c else .panic) ∧
    ((∀ b, t.hasher b ≠ []) →
      (∀ m ∈ t.root.reachable, m.isStandIn = true →
        m.answersFromCache = true ∧
        ∃ c, m = node.nonLeaf .nil .nil c none ∧ m.Hash = .ok c) ∧
      (∀ m ∈ t.root.reachable, ∃ h, m.Hash = .ok h) ∧
      (∃ r, t.Hash = .ok r) ∧
      (∀ idx : Int, 0 ≤ idx → idx < t.leaves.length →
        ∃ p, t.GenerateProof idx = .ok (.ok p))) := by
  obtain ⟨-, d, hs, hd, -⟩ := ht.shape
  have hform : ∀ m ∈ t.root.reachable, m.isStandIn = true →
      ∃ c b, m = node.nonLeaf .nil .nil c none ∧ c = t.hasher b ∧
        m.answersFromCache = decide (c.length > 0) ∧
        m.Hash = if c.length > 0 then .ok c else .panic := by
    intro m hm hst
    obtain ⟨c, b, rfl, hb⟩ := hs.standIn_form m hm hst
    exact ⟨c, b, rfl, hb, rfl, Hash_standIn c⟩
  refine ⟨hform, fun hne => ⟨?_, ?_, ht.tree_hash_ok hne, ?_⟩⟩
  · intro m hm hst
    obtain ⟨c, b, rfl, hb, ha, hh⟩ := hform m hm hst
    have hpos : c.length > 0 := by
      rw [hb]
      exact List.length_pos.mpr (hne b)
    rw [if_pos hpos] at hh
    refine ⟨?_, c, rfl, hh⟩
    rw [ha]
    exact decide_eq_true hpos
  · intro m hm
    obtain ⟨h, hh, -⟩ := hs.reachable_hash_ok hne m hm
    exact ⟨h, hh⟩
  · intro idx h0 hlt
    obtain ⟨n, rfl⟩ : ∃ n : Nat, idx = (n : Int) := ⟨idx.toNat, (Int.toNat_of_nonneg h0).symm⟩
    obtain ⟨p, hp, -, -⟩ := MerkleTree.GenerateProof_total hne hs hd (by omega : n < t.leaves.length)
    exact ⟨p, hp⟩

/-- C22 (amended) on the five-leaf example tree, whose stand-in carries the hash
`[0, 0, 4, 0, 4]` of the node beside it. -/
theorem C22_standIn_hash_witness :
    IsTree exampleTree ∧ (∀ b, exampleTree.hasher b ≠ []) ∧
      node.nonLeaf .nil .nil [0, 0, 4, 0, 4] none ∈ exampleTree.root.reachable ∧
      (node.nonLeaf .nil .nil [0, 0, 4, 0, 4] none).isStandIn = true ∧
      ((node.nonLeaf .nil .nil [0, 0, 4, 0, 4] none).answersFromCache = true ∧
        ∃ c, node.nonLeaf .nil .nil [0, 0, 4, 0, 4] none = node.nonLeaf .nil .nil c none ∧
          (node.nonLeaf .nil .nil [0, 0, 4, 0, 4] none).Hash = .ok c) ∧
      (∀ m ∈ exampleTree.root.reachable, ∃ h, m.Hash = .ok h) ∧
      (∃ r, exampleTree.Hash = .ok r) :=
  have hm : node.nonLeaf .nil .nil [0, 0, 4, 0, 4] none ∈ exampleTree.root.reachable := by
    simp [exampleTree, newNonLeaf, node.reachable]
  have h := (C22_standIn_hash exampleTree exampleTree_isTree).2 tagHasher_ne_nil
  ⟨exampleTree_isTree, tagHasher_ne_nil, hm, rfl, h.1 _ hm rfl, h.2.1, h.2.2.1⟩

/-! ## Slices without spare capacity -/

theorem Mem.read_append_mem (m more : Mem) (s : Slice) (h : s.Valid m) :
    Mem.read (m ++ more) s = Mem.read m s := by
  unfold Slice.Valid at h
  unfold Mem.read at h ⊢
  by_cases harr : s.arr < m.length
  · rw [List.getD_append _ _ _ _ harr]
  · rw [List.getD_eq_default _ _ (by omega)] at h
    have h0 : s.len = 0 := by simpa using h.symm
    rw [h0, List.take_zero, List.take_zero]

theorem Slice.valid_mono {m : Mem} {s : Slice} (h : s.Valid m) (more : Mem) :
    s.Valid (m ++ more) := by
  unfold Slice.Valid
  rw [Mem.read_append_mem m more s h]
  exact h

theorem Slice.sealed_mono {m : Mem} {s : Slice} (h : s.Sealed m) (more : Mem) :
    s.Sealed (m ++ more) :=
  ⟨Slice.valid_mono h.1 more, h.2⟩

theorem Slice.empty_sealed (m : Mem) : Slice.empty.Sealed m :=
  ⟨rfl, rfl⟩

theorem Mem.read_empty (m : Mem) : Mem.read m Slice.empty = [] := rfl

theorem Mem.read_fresh (m : Mem) (v : Bytes) (c : Nat) :
    Mem.read (m ++ [v]) (⟨m.length, 0, v.length, c⟩ : Slice) = v := by
  unfold Mem.read
  rw [List.getD_append_right _ _ _ _ (le_refl _)]
  simp

/-- A hasher of the kind of `hasher.go` leaves the arrays as they are, and its
result is a sealed slice that holds `f` of its argument's bytes. -/
theorem freshHasher_spec (f : Hasher) (m : Mem) (data : Slice) :
    (freshHasher f m data).2 = m ++ [f (Mem.read m data)] ∧
      Mem.read (m ++ [f (Mem.read m data)]) (freshHasher f m data).1 = f (Mem.read m data) ∧
      (freshHasher f m data).1.Sealed (m ++ [f (Mem.read m data)]) := by
  have h := Mem.read_fresh m (f (Mem.read m data)) (f (Mem.read m data)).length
  refine ⟨rfl, h, ?_, rfl⟩
  unfold Slice.Valid
  show (Mem.read _ _).length = (f (Mem.read m data)).length
  rw [show (freshHasher f m data).1 = (⟨m.length, 0, (f (Mem.read m data)).length,
    (f (Mem.read m data)).length⟩ : Slice) from rfl, h]

theorem overwrite_nil (a : Bytes) (k : Nat) : overwrite a k [] = a := by
  simp [overwrite]

theorem Mem.set_getD_self : ∀ (m : Mem) (i : Nat), m.set i (m.getD i []) = m
  | [], _ => rfl
  | _ :: _, 0 => rfl
  | a :: m, i + 1 => congrArg (fun t => a :: t) (Mem.set_getD_self m i)

/-- On a first argument without spare capacity `append` writes into no array
that exists: the memory grows at most by one array, and the result holds the
bytes of both arguments. -/
theorem Mem.append_sealed (grow : Nat → Nat) (m : Mem) (s x : Slice) (hs : s.Sealed m) :
    ∃ more, (Mem.append grow m s x).2 = m ++ more ∧
      Mem.read (m ++ more) (Mem.append grow m s x).1 = Mem.read m s ++ Mem.read m x := by
  obtain ⟨hv, hc⟩ := hs
  unfold Slice.Valid at hv
  by_cases hx : Mem.read m x = []
  · refine ⟨[], ?_, ?_⟩
    · unfold Mem.append
      rw [hx, if_pos (by simp [hc]), overwrite_nil, Mem.set_getD_self, List.append_nil]
    · unfold Mem.append
      rw [hx, if_pos (by simp [hc]), List.append_nil, List.append_nil]
      rfl
  · have hpos : 0 < (Mem.read m x).length := List.length_pos.mpr hx
    have hnot : ¬ s.len + (Mem.read m x).length ≤ s.cap := by omega
    refine ⟨[Mem.read m s ++ Mem.read m x
      ++ List.replicate (grow (s.len + (Mem.read m x).length)) 0], ?_, ?_⟩
    · unfold Mem.append
      rw [if_neg hnot]
    · unfold Mem.append
      rw [if_neg hnot]
      show Mem.read _ (⟨m.length, 0, s.len + (Mem.read m x).length, _⟩ : Slice) = _
      unfold Mem.read
      rw [List.getD_append_right _ _ _ _ (le_refl _)]
      simp only [Nat.sub_self, List.getD_cons_zero, List.drop_zero]
      apply List.take_left'
      rw [List.length_append]
      unfold Mem.read at hv
      rw [hv]

/-! ## Runs in memory and runs on values -/

theorem mem.Leaf.abs_stable (f : Hasher) {m : Mem} {l : mem.Leaf} (h : l.Sealed m)
    (more : Mem) : l.abs f (m ++ more) = l.abs f m := by
  unfold mem.Leaf.abs
  rw [Mem.read_append_mem m more _ h.1, Mem.read_append_mem m more _ h.2.1]

theorem mem.Leaf.leafSealed_mono {m : Mem} {l : mem.Leaf} (h : l.Sealed m) (more : Mem) :
    l.Sealed (m ++ more) :=
  ⟨Slice.valid_mono h.1 more, Slice.sealed_mono h.2 more⟩

theorem mem.node.nodeSealed_mono (f : Hasher) (more : Mem) :
    ∀ (n : mem.node) (m : Mem), n.Sealed f m → n.Sealed f (m ++ more) := by
  intro n
  induction n with
  | nil => intro m _; trivial
  | Leaf l =>
    intro m h
    exact ⟨mem.Leaf.leafSealed_mono h.1 more, h.2⟩
  | nonLeaf L R c hf ihL ihR =>
    intro m h
    exact ⟨ihL m h.1, ihR m h.2.1, Slice.sealed_mono h.2.2.1 more, h.2.2.2⟩

theorem mem.node.abs_node_stable (f : Hasher) (more : Mem) :
    ∀ (n : mem.node) (m : Mem), n.Sealed f m →
      mem.node.abs f (m ++ more) n = mem.node.abs f m n := by
  intro n
  induction n with
  | nil => intro m _; rfl
  | Leaf l =>
    intro m h
    simp only [mem.node.abs, mem.Leaf.abs_stable f h.1 more]
  | nonLeaf L R c hf ihL ihR =>
    intro m h
    simp only [mem.node.abs, ihL m h.1, ihR m h.2.1, Mem.read_append_mem m more c h.2.2.1.1]

theorem Sim.of_ok {α β : Type} {m : Mem} {R : α → β → Mem → Prop} {a : α} {b : β} (more : Mem)
    (h : R a b (m ++ more)) : Sim m R (.ok a) (.ok (b, m ++ more)) :=
  ⟨b, more, rfl, h⟩

theorem Sim.of_ok_same {α β : Type} {m : Mem} {R : α → β → Mem → Prop} {a : α} {b : β}
    (h : R a b m) : Sim m R (.ok a) (.ok (b, m)) :=
  ⟨b, [], by rw [List.append_nil], by rw [List.append_nil]; exact h⟩

theorem Sim.bind {α β γ δ : Type} {m : Mem} {R : α → β → Mem → Prop}
    {Q : γ → δ → Mem → Prop} {v : Run α} {x : Run (β × Mem)} {k : α → Run γ}
    {K : β × Mem → Run (δ × Mem)} (h : Sim m R v x)
    (hk : ∀ a b more, R a b (m ++ more) → Sim (m ++ more) Q (k a) (K (b, m ++ more))) :
    Sim m Q (v >>= k) (x >>= K) := by
  cases v with
  | ok a =>
    obtain ⟨b, more, hx, hR⟩ := h
    subst hx
    have h2 := hk a b more hR
    rw [Run.ok_bind, Run.ok_bind]
    revert h2
    cases k a with
    | ok c =>
      rintro ⟨d, more', e, hQ⟩
      exact ⟨d, more ++ more', by rw [e, List.append_assoc], by
        rw [← List.append_assoc]; exact hQ⟩
    | panic => exact fun h2 => h2
    | outOfFuel => exact fun h2 => h2
  | panic =>
    have hx : x = .panic := h
    subst hx
    rfl
  | outOfFuel =>
    have hx : x = .outOfFuel := h
    subst hx
    rfl

/-- For a hasher of the kind of `hasher.go` and a node whose cached hashes have
no spare capacity, `Hash()` in memory does what `Hash()` on values does: the
same outcome, the same bytes, no array written, and a result without spare
capacity. -/
theorem mem.node.Hash_sim (grow : Nat → Nat) (f : Hasher) :
    ∀ (n : mem.node) (m : Mem), n.Sealed f m →
      Sim m (fun v s m' => Mem.read m' s = v ∧ s.Sealed m')
        (mem.node.abs f m n).Hash (mem.node.Hash grow n m) := by
  intro n
  induction n with
  | nil =>
    intro m _
    exact (rfl : (Run.panic : Run (Slice × Mem)) = Run.panic)
  | Leaf l =>
    intro m h
    obtain ⟨⟨hcontent, hcache⟩, hf⟩ := h
    have hlen : (Mem.read m l.cachedHash).length = l.cachedHash.len := hcache.1
    simp only [mem.node.abs, merkletree.node.Hash, merkletree.Leaf.Hash, mem.Leaf.abs,
      mem.node.Hash, mem.Leaf.Hash, hlen, hf, Option.map_some']
    by_cases hpos : l.cachedHash.len > 0
    · rw [if_pos hpos, if_pos hpos]
      exact Sim.of_ok_same ⟨rfl, hcache⟩
    · rw [if_neg hpos, if_neg hpos]
      obtain ⟨h1, h2, h3⟩ := freshHasher_spec f m l.content
      have e : freshHasher f m l.content
          = ((freshHasher f m l.content).1, m ++ [f (Mem.read m l.content)]) :=
        Prod.ext rfl h1
      rw [e]
      exact Sim.of_ok _ ⟨h2, h3⟩
  | nonLeaf L R c hf ihL ihR =>
    intro m h
    obtain ⟨hL, hR, hc, hhf⟩ := h
    have hlen : (Mem.read m c).length = c.len := hc.1
    simp only [mem.node.abs, merkletree.node.Hash, mem.node.Hash, hlen]
    by_cases hpos : c.len > 0
    · rw [if_pos hpos, if_pos hpos]
      exact Sim.of_ok_same ⟨rfl, hc⟩
    · rw [if_neg hpos, if_neg hpos]
      refine Sim.bind (ihL m hL) ?_
      intro lv ls more1 hl
      obtain ⟨hlv, hls⟩ := hl
      have ihR' := ihR (m ++ more1) (mem.node.nodeSealed_mono f more1 R m hR)
      rw [mem.node.abs_node_stable f more1 R m hR] at ihR'
      refine Sim.bind ihR' ?_
      intro rv rs more2 hr
      obtain ⟨hrv, hrs⟩ := hr
      rcases hhf with rfl | rfl
      · exact (rfl : (Run.panic : Run (Slice × Mem)) = Run.panic)
      · have hls' : ls.Sealed (m ++ more1 ++ more2) := Slice.sealed_mono hls more2
        obtain ⟨more3, ha, hread⟩ := Mem.append_sealed grow (m ++ more1 ++ more2) ls rs hls'
        rw [Mem.read_append_mem _ more2 ls hls.1, hlv, hrv] at hread
        obtain ⟨h1, h2, h3⟩ := freshHasher_spec f (m ++ more1 ++ more2 ++ more3)
          (Mem.append grow (m ++ more1 ++ more2) ls rs).1
        rw [hread] at h1 h2 h3
        have e : freshHasher f (m ++ more1 ++ more2 ++ more3)
              (Mem.append grow (m ++ more1 ++ more2) ls rs).1
            = ((freshHasher f (m ++ more1 ++ more2 ++ more3)
                (Mem.append grow (m ++ more1 ++ more2) ls rs).1).1,
               m ++ more1 ++ more2 ++ (more3 ++ [f (lv ++ rv)])) := by
          refine Prod.ext rfl ?_
          rw [h1, List.append_assoc]
        simp only [Option.map_some']
        rw [ha, e]
        refine Sim.of_ok _ ⟨?_, ?_⟩
        · rw [← List.append_assoc]
          exact h2
        · rw [← List.append_assoc]
          exact h3

theorem mem.node.isNil_abs (f : Hasher) (m : Mem) (n : mem.node) :
    (mem.node.abs f m n).isNil = n.isNil := by
  cases n <;> rfl

theorem mem.node.hasChildren_abs (f : Hasher) (m : Mem) (n : mem.node) :
    (mem.node.abs f m n).hasChildren = n.hasChildren := by
  cases n with
  | nil => rfl
  | Leaf l => rfl
  | nonLeaf L R c hf =>
    simp only [mem.node.abs, merkletree.node.hasChildren, mem.node.hasChildren,
      mem.node.isNil_abs]

theorem mem.newNonLeaf_abs (f : Hasher) (m : Mem) (L R : mem.node) :
    mem.node.abs f m (mem.newNonLeaf L R (freshHasher f))
      = merkletree.newNonLeaf (mem.node.abs f m L) (mem.node.abs f m R) f := by
  simp only [mem.newNonLeaf, mem.node.abs, Mem.read_empty, Option.map_some',
    merkletree.newNonLeaf]

theorem mem.newNonLeaf_sealed {f : Hasher} {m : Mem} {L R : mem.node} (hL : L.Sealed f m)
    (hR : R.Sealed f m) : (mem.newNonLeaf L R (freshHasher f)).Sealed f m :=
  ⟨hL, hR, Slice.empty_sealed m, Or.inr rfl⟩

theorem mem.buildRoot.step_abs (f : Hasher) (m : Mem)
    (st : mem.node × mem.node × List mem.node) (n : mem.node) :
    mem.buildRoot.absState f m (mem.buildRoot.step (freshHasher f) st n)
      = merkletree.buildRoot.step f (mem.buildRoot.absState f m st) (mem.node.abs f m n) := by
  obtain ⟨a, b, ps⟩ := st
  cases ha : a.isNil <;> cases hb : b.isNil <;> cases hn : n.isNil <;>
    simp [mem.buildRoot.step, merkletree.buildRoot.step, mem.buildRoot.absState,
      mem.node.isNil_abs, ha, hb, hn, mem.newNonLeaf, merkletree.newNonLeaf, Mem.read_empty,
      mem.node.abs]

theorem mem.buildRoot.step_sealed {f : Hasher} {m : Mem}
    {st : mem.node × mem.node × List mem.node} {n : mem.node}
    (hst : st.1.Sealed f m ∧ st.2.1.Sealed f m ∧ ∀ p ∈ st.2.2, p.Sealed f m)
    (hn : n.Sealed f m) :
    (mem.buildRoot.step (freshHasher f) st n).1.Sealed f m ∧
      (mem.buildRoot.step (freshHasher f) st n).2.1.Sealed f m ∧
      ∀ p ∈ (mem.buildRoot.step (freshHasher f) st n).2.2, p.Sealed f m := by
  obtain ⟨a, b, ps⟩ := st
  obtain ⟨h1, h2, h3⟩ := hst
  simp only at h1 h2 h3
  unfold mem.buildRoot.step
  simp only
  split_ifs <;> refine ⟨?_, ?_, ?_⟩ <;>
    first
    | trivial
    | assumption
    | (intro p hp
       rcases List.mem_append.mp hp with hp | hp
       · exact h3 p hp
       · rw [List.mem_singleton.mp hp]
         apply mem.newNonLeaf_sealed <;> assumption)

theorem mem.buildRoot.foldl_step_abs (f : Hasher) (m : Mem) :
    ∀ (nodes : List mem.node) (st : mem.node × mem.node × List mem.node),
      mem.buildRoot.absState f m (nodes.foldl (mem.buildRoot.step (freshHasher f)) st)
        = (nodes.map (mem.node.abs f m)).foldl (merkletree.buildRoot.step f)
            (mem.buildRoot.absState f m st)
  | [], _ => rfl
  | n :: rest, st => by
    rw [List.foldl_cons, List.map_cons, List.foldl_cons,
      mem.buildRoot.foldl_step_abs f m rest, mem.buildRoot.step_abs]

theorem mem.buildRoot.foldl_step_sealed {f : Hasher} {m : Mem} :
    ∀ (nodes : List mem.node) (st : mem.node × mem.node × List mem.node),
      (st.1.Sealed f m ∧ st.2.1.Sealed f m ∧ ∀ p ∈ st.2.2, p.Sealed f m) →
      (∀ n ∈ nodes, n.Sealed f m) →
      (nodes.foldl (mem.buildRoot.step (freshHasher f)) st).1.Sealed f m ∧
        (nodes.foldl (mem.buildRoot.step (freshHasher f)) st).2.1.Sealed f m ∧
        ∀ p ∈ (nodes.foldl (mem.buildRoot.step (freshHasher f)) st).2.2, p.Sealed f m
  | [], _, hst, _ => hst
  | n :: rest, st, hst, hn => by
    rw [List.foldl_cons]
    exact mem.buildRoot.foldl_step_sealed rest _
      (mem.buildRoot.step_sealed hst (hn n (List.mem_cons_self _ _)))
      (fun x hx => hn x (List.mem_cons_of_mem _ hx))

theorem Sim.bind_same {α γ δ : Type} {m : Mem} {Q : γ → δ → Mem → Prop} (v : Run α)
    {k : α → Run γ} {K : α → Run (δ × Mem)} (hk : ∀ a, Sim m Q (k a) (K a)) :
    Sim m Q (v >>= k) (v >>= K) := by
  cases v with
  | ok a =>
    rw [Run.ok_bind, Run.ok_bind]
    exact hk a
  | panic => exact (rfl : (Run.panic : Run (δ × Mem)) = Run.panic)
  | outOfFuel => exact (rfl : (Run.outOfFuel : Run (δ × Mem)) = Run.outOfFuel)

theorem mem.node.map_abs_stable (f : Hasher) (more : Mem) {m : Mem} {ps : List mem.node}
    (h : ∀ p ∈ ps, p.Sealed f m) :
    ps.map (mem.node.abs f (m ++ more)) = ps.map (mem.node.abs f m) :=
  List.map_congr_left (fun p hp => mem.node.abs_node_stable f more p m (h p hp))

/-- The end of a level in memory does what it does on values. -/
theorem mem.buildRoot.finish_sim (grow : Nat → Nat) (f : Hasher) (m : Mem)
    (st : mem.node × mem.node × List mem.node)
    (hst : st.1.Sealed f m ∧ st.2.1.Sealed f m ∧ ∀ p ∈ st.2.2, p.Sealed f m) :
    Sim m (fun ps Ps m' => Ps.map (mem.node.abs f m') = ps ∧ ∀ p ∈ Ps, p.Sealed f m')
      (merkletree.buildRoot.finish f (mem.buildRoot.absState f m st))
      (mem.buildRoot.finish grow (freshHasher f) st m) := by
  obtain ⟨a, b, ps⟩ := st
  obtain ⟨ha, -, hps⟩ := hst
  simp only at ha hps
  simp only [mem.buildRoot.absState, merkletree.buildRoot.finish, mem.buildRoot.finish,
    mem.node.isNil_abs, mem.node.hasChildren_abs]
  by_cases hcond : (!a.isNil && b.isNil) = true
  · rw [if_pos hcond, if_pos hcond]
    refine Sim.bind_same a.hasChildren (fun hc => ?_)
    have hfinal : ∀ (r : merkletree.node) (Rn : mem.node) (more : Mem),
        mem.node.abs f (m ++ more) Rn = r → Rn.Sealed f (m ++ more) →
        Sim (m ++ more)
          (fun ps Ps m' => Ps.map (mem.node.abs f m') = ps ∧ ∀ p ∈ Ps, p.Sealed f m')
          (.ok (ps.map (mem.node.abs f m) ++ [merkletree.newNonLeaf (mem.node.abs f m a) r f]))
          (.ok (ps ++ [mem.newNonLeaf a Rn (freshHasher f)], m ++ more)) := by
      intro r Rn more hr hs
      refine Sim.of_ok_same ⟨?_, ?_⟩
      · rw [List.map_append, mem.node.map_abs_stable f more hps, List.map_cons, List.map_nil,
          mem.newNonLeaf_abs, mem.node.abs_node_stable f more a m ha, hr]
      · intro p hp
        rcases List.mem_append.mp hp with hp | hp
        · exact mem.node.nodeSealed_mono f more p m (hps p hp)
        · rw [List.mem_singleton.mp hp]
          exact mem.newNonLeaf_sealed (mem.node.nodeSealed_mono f more a m ha) hs
    cases hc with
    | true =>
      simp only [if_true]
      refine Sim.bind (mem.node.Hash_sim grow f a m ha) ?_
      intro cv cs more hcs
      simp only [Run.pure_eq_ok, Run.ok_bind]
      refine hfinal _ _ more ?_ ⟨trivial, trivial, hcs.2, Or.inl rfl⟩
      simp only [mem.node.abs, hcs.1, Option.map_none']
    | false =>
      simp only [Bool.false_eq_true, if_false, Run.pure_eq_ok, Run.ok_bind]
      have := hfinal (mem.node.abs f m a) a [] (by rw [List.append_nil])
        (by rw [List.append_nil]; exact ha)
      rw [List.append_nil] at this
      exact this
  · rw [if_neg hcond, if_neg hcond, Run.pure_eq_ok, Run.pure_eq_ok]
    exact Sim.of_ok_same ⟨rfl, hps⟩

/-- The builder in memory does what the builder on values does, for a hasher of
the kind of `hasher.go` and nodes whose cached hashes have no spare capacity. -/
theorem mem.buildRoot_sim (grow : Nat → Nat) (f : Hasher) :
    ∀ (fuel : Nat) (nodes : List mem.node) (m : Mem), (∀ n ∈ nodes, n.Sealed f m) →
      Sim m (fun r Rn m' => mem.node.abs f m' Rn = r ∧ Rn.Sealed f m')
        (merkletree.buildRoot fuel (nodes.map (mem.node.abs f m)) f)
        (mem.buildRoot grow fuel nodes (freshHasher f) m) := by
  intro fuel
  induction fuel with
  | zero =>
    intro nodes m _
    exact (rfl : (Run.outOfFuel : Run (mem.node × Mem)) = Run.outOfFuel)
  | succ fuel ih =>
    intro nodes m hn
    have hlevel : Sim m (fun r Rn m' => mem.node.abs f m' Rn = r ∧ Rn.Sealed f m')
        (merkletree.buildRoot.finish f
            ((nodes.map (mem.node.abs f m)).foldl (merkletree.buildRoot.step f)
              (merkletree.node.nil, merkletree.node.nil, []))
          >>= fun parents => merkletree.buildRoot fuel parents f)
        (mem.buildRoot.finish grow (freshHasher f)
            (nodes.foldl (mem.buildRoot.step (freshHasher f)) (mem.node.nil, mem.node.nil, [])) m
          >>= fun parents => mem.buildRoot grow fuel parents.1 (freshHasher f) parents.2) := by
      have h0 : mem.buildRoot.absState f m (mem.node.nil, mem.node.nil, [])
          = (merkletree.node.nil, merkletree.node.nil, []) := rfl
      rw [← h0, ← mem.buildRoot.foldl_step_abs]
      refine Sim.bind (mem.buildRoot.finish_sim grow f m _
        (mem.buildRoot.foldl_step_sealed nodes _
          ⟨trivial, trivial, fun p hp => absurd hp (List.not_mem_nil p)⟩ hn)) ?_
      intro ps Ps more hps
      have := ih Ps (m ++ more) hps.2
      rw [hps.1] at this
      exact this
    match nodes, hn, hlevel with
    | [], _, hlevel => exact hlevel
    | [a], hn, _ =>
      have ha := hn a (List.mem_singleton.mpr rfl)
      simp only [List.map_cons, List.map_nil, merkletree.buildRoot, mem.buildRoot,
        mem.node.hasChildren_abs]
      refine Sim.bind_same a.hasChildren (fun hc => ?_)
      cases hc with
      | true =>
        simp only [if_true, Run.pure_eq_ok]
        exact Sim.of_ok_same ⟨rfl, ha⟩
      | false =>
        simp only [Bool.false_eq_true, if_false, Run.pure_eq_ok]
        exact Sim.of_ok_same ⟨mem.newNonLeaf_abs f m a a, mem.newNonLeaf_sealed ha ha⟩
    | a :: b :: rest, _, hlevel => exact hlevel

/-! ## Trees in memory and trees of values -/

theorem mem.Leaf.abs_setHashFunc (f : Hasher) (m : Mem) (l : mem.Leaf) :
    (mem.Leaf.setHashFunc (freshHasher f) l).abs f m
      = merkletree.Leaf.setHashFunc f (l.abs f m) := rfl

theorem mem.Leaf.map_abs_setHashFunc (f : Hasher) (m : Mem) (leaves : List mem.Leaf) :
    (leaves.map (mem.Leaf.setHashFunc (freshHasher f))).map (mem.Leaf.abs f m)
      = (leaves.map (mem.Leaf.abs f m)).map (merkletree.Leaf.setHashFunc f) := by
  rw [List.map_map, List.map_map]
  exact List.map_congr_left (fun l _ => mem.Leaf.abs_setHashFunc f m l)

theorem mem.Leaf.map_leaf_abs_stable (f : Hasher) (more : Mem) {m : Mem} {ls : List mem.Leaf}
    (h : ∀ l ∈ ls, l.Sealed m) :
    ls.map (mem.Leaf.abs f (m ++ more)) = ls.map (mem.Leaf.abs f m) :=
  List.map_congr_left (fun l hl => mem.Leaf.abs_stable f (h l hl) more)

theorem mem.node.map_Leaf_abs (f : Hasher) (m : Mem) (ls : List mem.Leaf) :
    (ls.map mem.node.Leaf).map (mem.node.abs f m)
      = (ls.map (mem.Leaf.abs f m)).map merkletree.node.Leaf := by
  rw [List.map_map, List.map_map]
  exact List.map_congr_left (fun l _ => rfl)

theorem mem.node.map_Leaf_sealed {f : Hasher} {m : Mem} {ls : List mem.Leaf}
    (h : ∀ l ∈ ls, l.Sealed m ∧ l.hashFunc = some (freshHasher f)) :
    ∀ n ∈ ls.map mem.node.Leaf, n.Sealed f m := by
  intro n hn
  obtain ⟨l, hl, rfl⟩ := List.mem_map.mp hn
  exact h l hl

theorem mem.Leaf.setHashFunc_sealed {f : Hasher} {m : Mem} {ls : List mem.Leaf}
    (h : ∀ l ∈ ls, l.Sealed m) :
    ∀ l ∈ ls.map (mem.Leaf.setHashFunc (freshHasher f)),
      l.Sealed m ∧ l.hashFunc = some (freshHasher f) := by
  intro l hl
  obtain ⟨l0, hl0, rfl⟩ := List.mem_map.mp hl
  exact ⟨h l0 hl0, rfl⟩

theorem mem.MerkleTree.tree_valid_mono {f : Hasher} {m : Mem} {t : mem.MerkleTree}
    (h : t.Valid f m) (more : Mem) : t.Valid f (m ++ more) :=
  ⟨h.1, mem.node.nodeSealed_mono f more t.root m h.2.1,
    fun l hl => ⟨mem.Leaf.leafSealed_mono (h.2.2 l hl).1 more, (h.2.2 l hl).2⟩⟩

theorem mem.MerkleTree.abs_tree_stable {f : Hasher} {m : Mem} {t : mem.MerkleTree}
    (h : t.Valid f m) (more : Mem) : t.abs f (m ++ more) = t.abs f m := by
  unfold mem.MerkleTree.abs
  rw [mem.node.abs_node_stable f more t.root m h.2.1,
    mem.Leaf.map_leaf_abs_stable f more (fun l hl => (h.2.2 l hl).1)]

/-- The function `NewMerkleTree` in memory does what it does on values, for a
hasher of the kind of `hasher.go` and sealed leaves. -/
theorem mem.NewMerkleTree_sim (grow : Nat → Nat) (f : Hasher) (leaves : List mem.Leaf)
    (m : Mem) (h : ∀ l ∈ leaves, l.Sealed m) :
    Sim m
      (fun r Rt m' =>
        match r with
        | .ok T => ∃ t, Rt = .ok t ∧ t.Valid f m' ∧ t.abs f m' = T
        | .error e => Rt = .error e)
      (merkletree.NewMerkleTree (leaves.map (mem.Leaf.abs f m)) f)
      (mem.NewMerkleTree grow leaves (freshHasher f) m) := by
  unfold merkletree.NewMerkleTree mem.NewMerkleTree
  simp only [List.length_map]
  by_cases h0 : leaves.length = 0
  · rw [if_pos h0, if_pos h0]
    exact Sim.of_ok_same rfl
  · rw [if_neg h0, if_neg h0]
    have hsealed := mem.Leaf.setHashFunc_sealed (f := f) h
    have hsim := mem.buildRoot_sim grow f (leaves.length + 1)
      ((leaves.map (mem.Leaf.setHashFunc (freshHasher f))).map mem.node.Leaf) m
      (mem.node.map_Leaf_sealed hsealed)
    rw [mem.node.map_Leaf_abs, mem.Leaf.map_abs_setHashFunc] at hsim
    refine Sim.bind hsim ?_
    intro r Rn more hr
    rw [Run.pure_eq_ok, Run.pure_eq_ok]
    refine Sim.of_ok_same ⟨_, rfl, ⟨rfl, hr.2, ?_⟩, ?_⟩
    · intro l hl
      exact ⟨mem.Leaf.leafSealed_mono (hsealed l hl).1 more, (hsealed l hl).2⟩
    · unfold mem.MerkleTree.abs
      simp only
      rw [hr.1, mem.Leaf.map_leaf_abs_stable f more (fun l hl => (hsealed l hl).1),
        mem.Leaf.map_abs_setHashFunc]

/-- The method `Append` in memory does what it does on values. -/
theorem mem.MerkleTree.Append_sim (grow : Nat → Nat) (f : Hasher) (t : mem.MerkleTree)
    (A : List mem.Leaf) (m : Mem) (ht : t.Valid f m) (hA : ∀ l ∈ A, l.Sealed m) :
    Sim m (fun T r m' => r.Valid f m' ∧ r.abs f m' = T)
      ((t.abs f m).Append (A.map (mem.Leaf.abs f m))) (t.Append grow A m) := by
  obtain ⟨hh, hroot, hleaves⟩ := ht
  unfold merkletree.MerkleTree.Append mem.MerkleTree.Append
  simp only [hh]
  have hall : ∀ l ∈ t.leaves ++ A.map (mem.Leaf.setHashFunc (freshHasher f)),
      l.Sealed m ∧ l.hashFunc = some (freshHasher f) := by
    intro l hl
    rcases List.mem_append.mp hl with hl | hl
    · exact hleaves l hl
    · exact mem.Leaf.setHashFunc_sealed hA l hl
  have habs : (t.leaves ++ A.map (mem.Leaf.setHashFunc (freshHasher f))).map
        (mem.Leaf.abs f m)
      = (t.abs f m).leaves
          ++ (A.map (mem.Leaf.abs f m)).map (merkletree.Leaf.setHashFunc (t.abs f m).hasher) := by
    rw [List.map_append, mem.Leaf.map_abs_setHashFunc]
    rfl
  have hsim := mem.buildRoot_sim grow f
    ((t.leaves ++ A.map (mem.Leaf.setHashFunc (freshHasher f))).length + 1)
    ((t.leaves ++ A.map (mem.Leaf.setHashFunc (freshHasher f))).map mem.node.Leaf) m
    (mem.node.map_Leaf_sealed hall)
  rw [mem.node.map_Leaf_abs, habs] at hsim
  have hlen : (t.leaves ++ A.map (mem.Leaf.setHashFunc (freshHasher f))).length
      = ((t.abs f m).leaves
          ++ (A.map (mem.Leaf.abs f m)).map
            (merkletree.Leaf.setHashFunc (t.abs f m).hasher)).length := by
    rw [← habs, List.length_map]
  rw [← hlen]
  refine Sim.bind hsim ?_
  intro r Rn more hr
  rw [Run.pure_eq_ok, Run.pure_eq_ok]
  refine Sim.of_ok_same ⟨⟨rfl, hr.2, ?_⟩, ?_⟩
  · intro l hl
    exact ⟨mem.Leaf.leafSealed_mono (hall l hl).1 more, (hall l hl).2⟩
  · unfold mem.MerkleTree.abs
    simp only
    rw [hr.1, mem.Leaf.map_leaf_abs_stable f more (fun l hl => (hall l hl).1), habs]
    rfl

/-- The method `Hash` of a tree in memory does what it does on values. -/
theorem mem.MerkleTree.tree_Hash_sim (grow : Nat → Nat) (f : Hasher) (t : mem.MerkleTree)
    (m : Mem) (ht : t.Valid f m) :
    Sim m (fun v s m' => Mem.read m' s = v ∧ s.Sealed m')
      (t.abs f m).Hash (t.Hash grow m) :=
  mem.node.Hash_sim grow f t.root m ht.2.1

theorem Sim.ok_inv {α β : Type} {m : Mem} {R : α → β → Mem → Prop} {v : Run α} {b : β}
    {m' : Mem} (h : Sim m R v (.ok (b, m'))) :
    ∃ a more, v = .ok a ∧ m' = m ++ more ∧ R a b m' := by
  cases v with
  | ok a =>
    obtain ⟨b', more, e, hR⟩ := h
    have e' : (b, m') = (b', m ++ more) := Run.ok.inj e
    cases e'
    exact ⟨a, more, rfl, rfl, hR⟩
  | panic => cases h
  | outOfFuel => cases h

theorem Sim.ok_total {α β : Type} {m : Mem} {R : α → β → Mem → Prop} {a : α}
    {x : Run (β × Mem)} (h : Sim m R (.ok a) x) :
    ∃ b more, x = .ok (b, m ++ more) ∧ R a b (m ++ more) := h

/-- A tree of the package in memory is, read as a value, a tree of the package
on values; its slices are sealed. -/
theorem mem.IsTree.valid {grow : Nat → Nat} {f : Hasher} {m : Mem} {t : mem.MerkleTree}
    (h : mem.IsTree grow f m t) : t.Valid f m ∧ merkletree.IsTree (t.abs f m) := by
  induction h with
  | new m leaves t m' hs hnew =>
    have hsim := mem.NewMerkleTree_sim grow f leaves m hs
    rw [hnew] at hsim
    obtain ⟨r, more, hv, rfl, hR⟩ := Sim.ok_inv hsim
    cases r with
    | ok T =>
      obtain ⟨t', ht', hval, habs⟩ := hR
      cases ht'
      refine ⟨hval, merkletree.IsTree.new (leaves.map (mem.Leaf.abs f m)) f _ ?_⟩
      rw [habs]
      exact hv
    | error e => cases hR
  | append m t A t' m' _ hA happ ih =>
    have hsim := mem.MerkleTree.Append_sim grow f t A m ih.1 hA
    rw [happ] at hsim
    obtain ⟨T', more, hv, rfl, hval, habs⟩ := Sim.ok_inv hsim
    refine ⟨hval, merkletree.IsTree.append _ (A.map (mem.Leaf.abs f m)) _ ih.2 ?_⟩
    rw [habs]
    exact hv
  | alloc m t more _ ih =>
    refine ⟨mem.MerkleTree.tree_valid_mono ih.1 more, ?_⟩
    rw [mem.MerkleTree.abs_tree_stable ih.1]
    exact ih.2

/-! ## The root hash in memory -/

theorem cellLeaves_sealed : ∀ l ∈ cellLeaves, l.Sealed cellMem := by
  intro l hl
  simp only [cellLeaves, List.mem_cons, List.mem_singleton, List.not_mem_nil, or_false] at hl
  rcases hl with rfl | rfl | rfl | rfl | rfl <;> exact ⟨rfl, rfl, rfl⟩

/-- With a hasher that returns its argument and contents cut from one buffer,
`append` in `(*nonLeaf).Hash` stores the hash of the second leaf over the
content of the third: the root hash is `[1, 2, 2, 2]`, where the contents `[1]`,
`[2]`, `[3]` hashed as values give `[1, 2, 3, 3]`. -/
theorem nodeHash_shared_buffer :
    crossedLeaves.map (fun l => Mem.read crossedMem l.content) = [[1], [2], [3]] ∧
      mem.rootHashOf (fun _ => 0) crossedLeaves sameSliceHasher crossedMem
        = .ok [1, 2, 2, 2] ∧
      mem.rootHashOf (fun n => n) crossedLeaves sameSliceHasher crossedMem
        = .ok [1, 2, 2, 2] ∧
      refLayer (fun b => b) [[1], [2], [3]] 2 = [[1, 2, 3, 3]] := by
  refine ⟨by decide, by decide, by decide, by decide⟩

/-- C2, amended. For every non-empty list of leaves whose cached hashes have no
spare capacity and every hasher with non-empty output that returns its result
in a new array without spare capacity (as the hashers of `hasher.go` do),
`NewMerkleTree` returns a tree and its `Hash()` returns, writing into no
existing array, the single element of the first reference layer of length 1
reached after at least one pairing step, where `layer_0` is the list of the
leaves' hashes as `Leaf.Hash()` returns them: the cached hash of a leaf that
carries one, `hasher(content)` otherwise. `layer_0` is the list of the
`hasher(content)` whenever every leaf carries no cached hash or the cached hash
`hasher(content)`. -/
theorem C2_root_is_reference (grow : Nat → Nat) (f : Hasher) (m : Mem)
    (leaves : List mem.Leaf) (hl : leaves ≠ []) (hne : ∀ b, f b ≠ [])
    (hs : ∀ l ∈ leaves, l.Sealed m) :
    ∃ t more1 s more2,
      mem.NewMerkleTree grow leaves (freshHasher f) m = .ok (.ok t, m ++ more1) ∧
      t.Hash grow (m ++ more1) = .ok (s, m ++ more1 ++ more2) ∧
      mem.rootHashOf grow leaves (freshHasher f) m
        = .ok (Mem.read (m ++ more1 ++ more2) s) ∧
      IsReferenceRoot f (leaves.map (fun l => (l.abs f m).hashWith f))
        (Mem.read (m ++ more1 ++ more2) s) ∧
      ((∀ l ∈ leaves, Mem.read m l.cachedHash = [] ∨
          Mem.read m l.cachedHash = f (Mem.read m l.content)) →
        leaves.map (fun l => (l.abs f m).hashWith f)
          = leaves.map (fun l => f (Mem.read m l.content))) := by
  have hL : leaves.map (mem.Leaf.abs f m) ≠ [] := by simpa using hl
  obtain ⟨T, hT⟩ := NewMerkleTree_total hne hL
  have hsim := mem.NewMerkleTree_sim grow f leaves m hs
  rw [hT] at hsim
  obtain ⟨b, more1, hnew, hR⟩ := Sim.ok_total hsim
  obtain ⟨t, rfl, hval, habs⟩ := hR
  obtain ⟨-, -, -, d, hshape, -, -⟩ := NewMerkleTree_shape hT
  obtain ⟨root, hroot, -⟩ := hshape.hash_ok hne
  have hTroot : T.Hash = .ok root := hroot
  have hsim2 := mem.MerkleTree.tree_Hash_sim grow f t (m ++ more1) hval
  rw [habs, hTroot] at hsim2
  obtain ⟨s, more2, hhash, hread, -⟩ := Sim.ok_total hsim2
  have href : IsReferenceRoot f ((leaves.map (mem.Leaf.abs f m)).map (Leaf.hashWith f)) root :=
    MerkleTree.root_is_reference hT hTroot
  rw [List.map_map] at href
  refine ⟨t, more1, s, more2, hnew, hhash, ?_, ?_, ?_⟩
  · unfold mem.rootHashOf
    rw [hnew, Run.ok_bind]
    simp only
    rw [hhash, Run.ok_bind]
    rfl
  · rw [hread]
    exact href
  · intro hclean
    apply List.map_congr_left
    intro l hmem
    show (if (Mem.read m l.cachedHash).length > 0 then Mem.read m l.cachedHash
      else f (Mem.read m l.content)) = _
    rcases hclean l hmem with h | h
    · rw [h]
      rfl
    · split
      · exact h
      · rfl

/-- C2 (amended) at five fresh leaves, each in an array of its own, with
`tagHasher` computed into new arrays. -/
theorem C2_root_is_reference_witness :
    cellLeaves ≠ [] ∧ (∀ b, tagHasher b ≠ []) ∧ (∀ l ∈ cellLeaves, l.Sealed cellMem) ∧
      mem.rootHashOf (fun _ => 0) cellLeaves (freshHasher tagHasher) cellMem
        = .ok [0, 0, 0, 0, 0, 0, 1, 0, 0, 2, 0, 3, 0, 0, 0, 4, 0, 4, 0, 0, 4, 0, 4] ∧
      ∃ t more1 s more2,
        mem.NewMerkleTree (fun _ => 0) cellLeaves (freshHasher tagHasher) cellMem
          = .ok (.ok t, cellMem ++ more1) ∧
        t.Hash (fun _ => 0) (cellMem ++ more1) = .ok (s, cellMem ++ more1 ++ more2) ∧
        IsReferenceRoot tagHasher
          (cellLeaves.map (fun l => (l.abs tagHasher cellMem).hashWith tagHasher))
          (Mem.read (cellMem ++ more1 ++ more2) s) := by
  obtain ⟨t, more1, s, more2, h1, h2, -, h4, -⟩ :=
    C2_root_is_reference (fun _ => 0) tagHasher cellMem cellLeaves (List.cons_ne_nil _ _)
      tagHasher_ne_nil cellLeaves_sealed
  exact ⟨List.cons_ne_nil _ _, tagHasher_ne_nil, cellLeaves_sealed, by decide,
    t, more1, s, more2, h1, h2, h4⟩

/-! ## VerifyProof on a proof whose slices share a buffer -/

/-- C4 at a failing input. The proof for index 1 of the tree over the contents
`[1]`, `[2]`, `[3]`, `[4]` with `tagHasher`, cut from one buffer, meets the three
conditions when `VerifyProof` is called: the index is in range, the leaf hash
is the hash of leaf 1, and folding the siblings gives the root hash. The loop
runs `append(sibling, currentHash...)` for bit 0 of the index, which stores the
leaf hash over the first bytes of the next sibling, and `VerifyProof` returns
`wrongProof`, whatever spare capacity the allocator adds. The same proof with
an array for each hash is accepted. -/
theorem C4_verifyProof_shared_buffer :
    ((0 : Int) ≤ sharedProof.leafIndex ∧ sharedProof.leafIndex < fourLeaves.length) ∧
      Mem.read sharedMem sharedProof.leafHash = tagHasher [2] ∧
      mem.rootHashOf (fun _ => 0) fourLeaves (freshHasher tagHasher) sharedMem
        = .ok (foldSiblings tagHasher 1 0 (Mem.read sharedMem sharedProof.leafHash)
            (sharedProof.siblingHashes.map (Mem.read sharedMem))) ∧
      mem.verifyOn (fun _ => 0) fourLeaves (freshHasher tagHasher) sharedProof sharedMem
        = .ok (some .wrongProof) ∧
      mem.verifyOn (fun n => n) fourLeaves (freshHasher tagHasher) sharedProof sharedMem
        = .ok (some .wrongProof) ∧
      (apartProof.leafIndex = sharedProof.leafIndex ∧
        Mem.read apartMem apartProof.leafHash = Mem.read sharedMem sharedProof.leafHash ∧
        apartProof.siblingHashes.map (Mem.read apartMem)
          = sharedProof.siblingHashes.map (Mem.read sharedMem)) ∧
      mem.verifyOn (fun _ => 0) fourLeaves (freshHasher tagHasher) apartProof apartMem
        = .ok none := by
  refine ⟨⟨by decide, by decide⟩, by decide, by decide, by decide, by decide,
    ⟨by decide, by decide, by decide⟩, by decide⟩

/-! ## The root hash after Append, in memory -/

theorem twinTree_built :
    mem.NewMerkleTree (fun _ => 0) [mem.NewLeaf ⟨0, 0, 1, 1⟩] (freshHasher tagHasher) twinMem
      = .ok (.ok twinTree, twinMem) := rfl

theorem twinTree_isTree : mem.IsTree (fun _ => 0) tagHasher twinMem twinTree :=
  mem.IsTree.new twinMem [mem.NewLeaf ⟨0, 0, 1, 1⟩] twinTree twinMem
    (fun l hl => by rw [List.mem_singleton.mp hl]; exact ⟨rfl, rfl, rfl⟩) twinTree_built

/-- C12, amended. For every tree of the package built with a hasher that returns
its result in a new array without spare capacity (as the hashers of `hasher.go`
do) from leaves whose cached hashes have no spare capacity, and every list of
such leaves appended: after `Append` the leaf hashes are those before followed
by the hashes of the appended leaves, and the root hash `Hash()` returns is the
reference root over them; so it equals the root hash before exactly when that
is a reference root over the extended list too. This does happen, for an
injective hasher as for any other: whenever the tree has an odd number of
leaves and one leaf with the hash of the last leaf is appended, the root hash
is unchanged. With a hasher with non-empty output the three calls return. -/
theorem C12_append_root (grow : Nat → Nat) (f : Hasher) (m : Mem) (t : mem.MerkleTree)
    (ht : mem.IsTree grow f m t) (A : List mem.Leaf) (hA : ∀ l ∈ A, l.Sealed m) :
    (∀ s m1 t' m2 s' m3, t.Hash grow m = .ok (s, m1) → t.Append grow A m1 = .ok (t', m2) →
      t'.Hash grow m2 = .ok (s', m3) →
      t'.leaves.length = t.leaves.length + A.length ∧
      (t'.abs f m3).leafHashes
        = (t.abs f m).leafHashes ++ A.map (fun l => (l.abs f m).hashWith f) ∧
      IsReferenceRoot f (t'.abs f m3).leafHashes (Mem.read m3 s') ∧
      (Mem.read m3 s' = Mem.read m1 s ↔
        IsReferenceRoot f (t'.abs f m3).leafHashes (Mem.read m1 s)) ∧
      (∀ x last, A = [x] → t.leaves.length % 2 = 1 → t.leaves.getLast? = some last →
        (x.abs f m).hashWith f = (last.abs f m).hashWith f →
        Mem.read m3 s' = Mem.read m1 s)) ∧
    ((∀ b, f b ≠ []) →
      ∃ s m1 t' m2 s' m3, t.Hash grow m = .ok (s, m1) ∧ t.Append grow A m1 = .ok (t', m2) ∧
        t'.Hash grow m2 = .ok (s', m3)) := by
  obtain ⟨hval, hV⟩ := ht.valid
  have hstep : ∀ (more1 : Mem),
      (t.abs f (m ++ more1)).Append (A.map (mem.Leaf.abs f (m ++ more1)))
        = (t.abs f m).Append (A.map (mem.Leaf.abs f m)) := by
    intro more1
    rw [mem.MerkleTree.abs_tree_stable hval, mem.Leaf.map_leaf_abs_stable f more1 hA]
  have hA1 : ∀ (more1 : Mem), ∀ l ∈ A, l.Sealed (m ++ more1) :=
    fun more1 l hl => mem.Leaf.leafSealed_mono (hA l hl) more1
  refine ⟨?_, ?_⟩
  · intro s m1 t' m2 s' m3 hhash happ hhash'
    have hsim := mem.MerkleTree.tree_Hash_sim grow f t m hval
    rw [hhash] at hsim
    obtain ⟨r, more1, hr, rfl, hread, -⟩ := Sim.ok_inv hsim
    have hsimA := mem.MerkleTree.Append_sim grow f t A (m ++ more1)
      (mem.MerkleTree.tree_valid_mono hval more1) (hA1 more1)
    rw [happ, hstep more1] at hsimA
    obtain ⟨T', more2, hT', rfl, hval', habs'⟩ := Sim.ok_inv hsimA
    have hsim' := mem.MerkleTree.tree_Hash_sim grow f t' (m ++ more1 ++ more2) hval'
    rw [hhash', habs'] at hsim'
    obtain ⟨r', more3, hr', rfl, hread', -⟩ := Sim.ok_inv hsim'
    rw [mem.MerkleTree.abs_tree_stable hval', habs', hread, hread']
    obtain ⟨h1, h2, h3, h4⟩ := hV.append_root_facts hT'
    have hlen : T'.leaves.length = t'.leaves.length := by
      rw [← habs']
      exact List.length_map _ _
    have hframe := (hV.append_frame hT').1
    have hmapA : (A.map (mem.Leaf.abs f m)).map (Leaf.hashWith (t.abs f m).hasher)
        = A.map (fun l => (l.abs f m).hashWith f) := by
      rw [List.map_map]
      rfl
    refine ⟨?_, ?_, h2 r' hr', h3 r r' hr hr', ?_⟩
    · rw [← hlen, hframe, List.length_append, List.length_map, List.length_map]
      exact congrArg (fun n => n + A.length) (List.length_map _ _)
    · rw [h1, hmapA]
    · intro x last hAx hodd hlast hx
      refine h4 r r' hr hr' (x.abs f m) (last.abs f m) ?_ ?_ ?_ hx
      · rw [hAx]
        rfl
      · show (t.leaves.map (mem.Leaf.abs f m)).length % 2 = 1
        rw [List.length_map]
        exact hodd
      · show (t.leaves.map (mem.Leaf.abs f m)).getLast? = _
        rw [List.getLast?_map, hlast]
        rfl
  · intro hne
    obtain ⟨r, hr⟩ := hV.tree_hash_ok hne
    have hsim := mem.MerkleTree.tree_Hash_sim grow f t m hval
    rw [hr] at hsim
    obtain ⟨s, more1, hhash, -⟩ := Sim.ok_total hsim
    obtain ⟨T', hT'⟩ := hV.append_total hne (A.map (mem.Leaf.abs f m))
    have hsimA := mem.MerkleTree.Append_sim grow f t A (m ++ more1)
      (mem.MerkleTree.tree_valid_mono hval more1) (hA1 more1)
    rw [hstep more1, hT'] at hsimA
    obtain ⟨t', more2, happ, hval', habs'⟩ := Sim.ok_total hsimA
    have hV' : IsTree T' := IsTree.append _ _ _ hV hT'
    have hne' : ∀ b, T'.hasher b ≠ [] := by
      rw [(hV.append_frame hT').2]
      exact hne
    obtain ⟨r', hr'⟩ := hV'.tree_hash_ok hne'
    have hsim' := mem.MerkleTree.tree_Hash_sim grow f t' (m ++ more1 ++ more2) hval'
    rw [habs', hr'] at hsim'
    obtain ⟨s', more3, hhash', -⟩ := Sim.ok_total hsim'
    exact ⟨s, _, t', _, s', _, hhash, happ, hhash'⟩

/-- C12 (amended) on the tree over one leaf with content `[1]`, to which a second
leaf with content `[1]` from another array is appended: the root hash is
unchanged. -/
theorem C12_append_root_witness :
    mem.IsTree (fun _ => 0) tagHasher twinMem twinTree ∧
      (∀ l ∈ [mem.NewLeaf ⟨1, 0, 1, 1⟩], l.Sealed twinMem) ∧ (∀ b, tagHasher b ≠ []) ∧
      ∃ s m1 t' m2 s' m3,
        twinTree.Hash (fun _ => 0) twinMem = .ok (s, m1) ∧
        twinTree.Append (fun _ => 0) [mem.NewLeaf ⟨1, 0, 1, 1⟩] m1 = .ok (t', m2) ∧
        t'.Hash (fun _ => 0) m2 = .ok (s', m3) ∧
        t'.leaves.length = twinTree.leaves.length + 1 ∧
        IsReferenceRoot tagHasher (t'.abs tagHasher m3).leafHashes (Mem.read m3 s') ∧
        Mem.read m3 s' = Mem.read m1 s := by
  have hA : ∀ l ∈ [mem.NewLeaf ⟨1, 0, 1, 1⟩], l.Sealed twinMem :=
    fun l hl => by rw [List.mem_singleton.mp hl]; exact ⟨rfl, rfl, rfl⟩
  have h := C12_append_root (fun _ => 0) tagHasher twinMem twinTree twinTree_isTree
    [mem.NewLeaf ⟨1, 0, 1, 1⟩] hA
  obtain ⟨s, m1, t', m2, s', m3, h1, h2, h3⟩ := h.2 tagHasher_ne_nil
  obtain ⟨hlen, -, href, -, hsame⟩ := h.1 s m1 t' m2 s' m3 h1 h2 h3
  exact ⟨twinTree_isTree, hA, tagHasher_ne_nil, s, m1, t', m2, s', m3, h1, h2, h3, hlen, href,
    hsame (mem.NewLeaf ⟨1, 0, 1, 1⟩)
      ((mem.NewLeaf ⟨0, 0, 1, 1⟩).setHashFunc (freshHasher tagHasher)) rfl (by decide) rfl
      (by decide)⟩

end merkletree
